import Mathlib

/-!
Verification of the DES-CHAN network-graph / conflict-graph core (`graph.py`,
`interference/two_hop.py`, `interference/co.py`).

The Python code is shallowly embedded: Python 2 `dict`-of-`dict` tables become
total functions together with the list of vertices (all reads performed by the
code stay inside the vertex set, which the theorems track), Python strings
become `List Char`, Python integers become `Int` (they never overflow in
Python 2), and exceptions become `Except`.  `sys.maxint` on the 64-bit testbed
machines is `2^63 - 1`.
-/

/-- `sys.maxint` of 64-bit CPython 2, used by `graph.py` as the infinity
sentinel for distances. -/
def MAXINT : Nat := 2 ^ 63 - 1

/-- Python strings, embedded as lists of characters. -/
abbrev PyStr := List Char

/-- The Python values that appear as edge values in this code base:
`None`, booleans, integers, strings, and other objects ("a Graph object may
take variables of any type as edge value" — `two_hop.py`); `pyobj` stands
for a truthy object such as a nonempty list on which `int()` raises
`TypeError`, with a tag to tell such objects apart. -/
inductive PyVal : Type
  | none : PyVal
  | pybool : Bool → PyVal
  | pyint : Int → PyVal
  | pystr : PyStr → PyVal
  | pyobj : Nat → PyVal
deriving DecidableEq, Repr

/-- Python truthiness: `None`, `False`, `0` and `""` are falsy
(`graph.py` comments: "None, \"\", False, and 0 correspond to no edge"). -/
def PyVal.truthy : PyVal → Bool
  | .none => false
  | .pybool b => b
  | .pyint n => n ≠ 0
  | .pystr s => s ≠ []
  | .pyobj _ => true

/-- The two Python exceptions that `int(...)` can raise. -/
inductive PyExc : Type
  | typeError : PyExc
  | valueError : PyExc
deriving DecidableEq, Repr

instance instDecEqExcept {ε α : Type} [DecidableEq ε] [DecidableEq α] :
    DecidableEq (Except ε α) := fun x y =>
  match x, y with
  | .ok a, .ok b =>
    if h : a = b then .isTrue (by rw [h])
    else .isFalse (by intro hh; injection hh; exact h (by assumption))
  | .error a, .error b =>
    if h : a = b then .isTrue (by rw [h])
    else .isFalse (by intro hh; injection hh; exact h (by assumption))
  | .ok _, .error _ => .isFalse (by intro hh; exact Except.noConfusion hh)
  | .error _, .ok _ => .isFalse (by intro hh; exact Except.noConfusion hh)

/-- Decimal digits of a natural number, most significant first
(the digits of Python `str(n)` for `n ≥ 0`). -/
def natDigits (n : Nat) : List Char :=
  if h : n < 10 then [Char.ofNat (48 + n)]
  else natDigits (n / 10) ++ [Char.ofNat (48 + n % 10)]
decreasing_by exact Nat.div_lt_self (by omega) (by omega)

/-- Python `str(i)` for an integer `i`. -/
def intToPyStr (i : Int) : PyStr :=
  if i < 0 then '-' :: natDigits (-i).toNat else natDigits i.toNat

/-- Value of a decimal digit character, `none` on non-digits. -/
def digitVal (c : Char) : Option Nat :=
  if 48 ≤ c.toNat ∧ c.toNat ≤ 57 then some (c.toNat - 48) else none

/-- One digit of a left-to-right decimal parse. -/
def digitStep (acc : Option Nat) (c : Char) : Option Nat :=
  acc.bind fun n => (digitVal c).map fun d => 10 * n + d

/-- Parse a nonempty all-digit string. -/
def parseDigits : PyStr → Option Nat
  | [] => Option.none
  | cs => cs.foldl digitStep (some 0)

/-- Python `str.strip()` whitespace characters. -/
def pyWhite (c : Char) : Bool :=
  c = ' ' || c = '\t' || c = '\n' || c = '\x0d' || c = '\x0b' || c = '\x0c'

/-- Python `str.strip()`. -/
def pyStrip (s : PyStr) : PyStr :=
  (s.dropWhile pyWhite).reverse.dropWhile pyWhite |>.reverse

/-- Sign handling of Python `int(s)` after stripping. -/
def parseSigned : PyStr → Option Int
  | '-' :: rest => (parseDigits rest).map fun n => -(n : Int)
  | '+' :: rest => (parseDigits rest).map fun n => (n : Int)
  | rest => (parseDigits rest).map fun n => (n : Int)

/-- Python `int(s)` on a string: optional surrounding whitespace, optional
sign, then decimal digits; `none` models the `ValueError` on anything else. -/
def parsePyInt (s : PyStr) : Option Int :=
  parseSigned (pyStrip s)

/-- Python `int(v)` on an arbitrary value: `TypeError` on `None`,
`ValueError` on an unparsable string (both used in the interference models,
which catch only the `TypeError`). -/
def pyInt : PyVal → Except PyExc Int
  | .none => .error .typeError
  | .pybool b => .ok (if b then 1 else 0)
  | .pyint n => .ok n
  | .pystr s =>
    match parsePyInt s with
    | some n => .ok n
    | Option.none => .error .valueError
  | .pyobj _ => .error .typeError

section PyGraph

variable {V : Type} [DecidableEq V]

/-- The state of a `graph.Graph` object: the set of vertices (a Python `set`,
embedded as a duplicate-free list fixing an iteration order), the symmetric
edge-value table `self.values` and the distance table `self.distances`
(nested dicts, embedded as total functions; the code only ever reads entries
whose both indices are vertices). -/
structure PyGraph (V : Type) : Type where
  verts : List V
  value : V → V → PyVal
  dist : V → V → Nat

/-- Write the two symmetric cells of a nested-dict table
(`self.x[v1][v2] = a; self.x[v2][v1] = a`). -/
def symmSet {α : Type} (f : V → V → α) (x y : V) (a : α) : V → V → α :=
  fun p q => if (p = x ∧ q = y) ∨ (p = y ∧ q = x) then a else f p q

/-- `Graph.set_distance`. -/
def PyGraph.set_distance (g : PyGraph V) (v1 v2 : V) (d : Nat) : PyGraph V :=
  { g with dist := symmSet g.dist v1 v2 d }

/-- `Graph.get_distance`. -/
def PyGraph.get_distance (g : PyGraph V) (v1 v2 : V) : Nat :=
  g.dist v1 v2

/-- `Graph.get_edge_value`. -/
def PyGraph.get_edge_value (g : PyGraph V) (e : V × V) : PyVal :=
  g.value e.1 e.2

/-- One `set_distance` of the Floyd-Warshall inner statement:
`d = min(dist(v1,v2), dist(v1,k) + dist(k,v2)); set_distance(v1, v2, d)`. -/
def relaxPair (k v1 v2 : V) (d : V → V → Nat) : V → V → Nat :=
  symmSet d v1 v2 (min (d v1 v2) (d v1 k + d k v2))

/-- The inner `for v2 in remaining_vertices` loop of `update_distances`. -/
def relaxRow (k v1 : V) (rem : List V) (d : V → V → Nat) : V → V → Nat :=
  rem.foldl (fun dd v2 => relaxPair k v1 v2 dd) d

/-- The `for v1 in self.get_vertices()` loop of `update_distances`, with the
`remaining_vertices` set it erases from. -/
def fwInner (k : V) : List V → List V → (V → V → Nat) → (V → V → Nat)
  | [], _, d => d
  | v1 :: rest, rem, d => fwInner k rest (rem.erase v1) (relaxRow k v1 rem d)

/-- One `k`-phase of `update_distances`. -/
def fwPhase (vs : List V) (k : V) (d : V → V → Nat) : V → V → Nat :=
  fwInner k vs vs d

/-- `Graph.update_distances`: in-place Floyd-Warshall over the vertex set,
writing each unordered pair once per phase (via `remaining_vertices`) and
both symmetric cells on every write. -/
def PyGraph.update_distances (g : PyGraph V) : PyGraph V :=
  { g with dist := g.verts.foldl (fun d k => fwPhase g.verts k d) g.dist }

/-- `Graph.set_edge_value(edge, value, update)`: symmetric value write; a
truthy value further sets the distance of the pair to 1 and, when `update`
is true, runs `update_distances`. -/
def PyGraph.set_edge_value (g : PyGraph V) (e : V × V) (v : PyVal)
    (update : Bool) : PyGraph V :=
  let g1 : PyGraph V := { g with value := symmSet g.value e.1 e.2 v }
  if v.truthy then
    let g2 := g1.set_distance e.1 e.2 1
    if update then g2.update_distances else g2
  else g1

/-- `Graph.add_vertex`: no-op on an existing vertex; otherwise the new row
dicts are created and the loop over `get_vertices()` (which at that point
already contains the new vertex) sets every edge value to `None` and every
distance to `sys.maxint`, after which the self-distance becomes 0. -/
def PyGraph.add_vertex (g : PyGraph V) (v : V) : PyGraph V :=
  if v ∈ g.verts then g
  else
    let vs := g.verts ++ [v]
    let val := vs.foldl (fun f old => symmSet f old v PyVal.none) g.value
    let dst := vs.foldl (fun f old => symmSet f old v MAXINT) g.dist
    { verts := vs, value := val, dist := symmSet dst v v 0 }

/-- `Graph.__init__(vertices)`. -/
def PyGraph.mkGraph (vertices : List V) : PyGraph V :=
  vertices.foldl (fun g v => g.add_vertex v)
    { verts := [], value := fun _ _ => PyVal.none, dist := fun _ _ => 0 }

/-- `Graph.remove_vertex`: deletes the vertex (the orphaned table entries are
never read again through the vertex list, so the tables are kept as is). -/
def PyGraph.remove_vertex (g : PyGraph V) (v : V) : PyGraph V :=
  { g with verts := g.verts.erase v }

/-- Assoc-list read of a Python dict built with distinct keys
(`d[k]`, `None` standing for the `KeyError` case). -/
def dictGet {κ α : Type} [DecidableEq κ] : List (κ × α) → κ → Option α
  | [], _ => Option.none
  | (k, a) :: rest, q => if q = k then some a else dictGet rest q

/-- Python dict write `d[k] = a` (overwrite in place, append if new). -/
def dictPut {κ α : Type} [DecidableEq κ] : List (κ × α) → κ → α → List (κ × α)
  | [], k, a => [(k, a)]
  | (k', a') :: rest, k, a =>
    if k = k' then (k', a) :: rest else (k', a') :: dictPut rest k a

/-- The inner loops of `Graph.get_edges` (default `get_all=False`):
each unordered pair is visited once, truthy values are collected. -/
def getEdgesAux (val : V → V → PyVal) : List V → List V → List ((V × V) × PyVal)
  | [], _ => []
  | v1 :: rest, rem =>
    (rem.filterMap fun v2 =>
      if (val v1 v2).truthy then some ((v1, v2), val v1 v2) else Option.none)
      ++ getEdgesAux val rest (rem.erase v1)

/-- `Graph.get_edges()`: dictionary from (one orientation of) each edge with a
truthy value to that value. -/
def PyGraph.get_edges (g : PyGraph V) : List ((V × V) × PyVal) :=
  getEdgesAux g.value g.verts g.verts

end PyGraph

/-- Errors an interference-model call can raise: the `CHANError` of
`des_chan.error` carrying the offending edge and its raw value, the
uncaught `ValueError` from `int()` on an unparsable string, and the
`KeyError` from a failed dict lookup. -/
inductive IErr (V : Type) : Type
  | chanError : (V × V) → PyVal → IErr V
  | valueError : IErr V
  | keyError : IErr V
deriving DecidableEq

section Models

variable {V : Type} [DecidableEq V]

/-- The `try: int(...) except TypeError: raise CHANError(...)` prologue shared
by all three interference models: only the `TypeError` is converted to a
`CHANError`; a `ValueError` propagates. -/
def parseChannel (g : PyGraph V) (e : V × V) : Except (IErr V) Int :=
  match dictGet g.get_edges e with
  | Option.none => .error .keyError
  | some w =>
    match pyInt w with
    | .error .typeError => .error (.chanError e w)
    | .error .valueError => .error .valueError
    | .ok c => .ok c

namespace TwoHop

/-- `two_hop.get_interference`: 0 on identical edges; channels parsed via
`int(graph.get_edges()[e])`; distinct channels give 0; otherwise 1 exactly
when the minimum of the four endpoint-pair distances is below 2. -/
def get_interference (g : PyGraph V) (e1 e2 : V × V) : Except (IErr V) Nat :=
  if e1 = e2 then .ok 0
  else
    match parseChannel g e1 with
    | .error err => .error err
    | .ok channel1 =>
      match parseChannel g e2 with
      | .error err => .error err
      | .ok channel2 =>
        if channel1 ≠ channel2 then .ok 0
        else
          if min (min (min (g.get_distance e1.1 e2.1) (g.get_distance e1.1 e2.2))
              (g.get_distance e1.2 e2.1)) (g.get_distance e1.2 e2.2) < 2 then .ok 1
          else .ok 0

end TwoHop

namespace TwoHopFrac

/-- The `frequencies` channel-to-center-frequency dict of `two_hop_frac.py`:
channels 1..14 at `2412 + i*5` MHz, and the three 5 GHz sub-bands
`range(36,68,4)`, `range(100,144,4)` and `range(149,169,4)` at
`5180/5500/5745 + 20*((i-start)/4)` MHz (Python 2 integer division). -/
def frequencies : List (Int × Int) :=
  let t := (List.range 14).foldl
    (fun t i => dictPut t ((i : Int) + 1) (2412 + (i : Int) * 5)) []
  let t := (List.range 8).foldl
    (fun t j => let i : Int := 36 + 4 * (j : Int); dictPut t i (5180 + 20 * ((i - 36) / 4))) t
  let t := (List.range 11).foldl
    (fun t j => let i : Int := 100 + 4 * (j : Int); dictPut t i (5500 + 20 * ((i - 100) / 4))) t
  (List.range 5).foldl
    (fun t j => let i : Int := 149 + 4 * (j : Int); dictPut t i (5745 + 20 * ((i - 149) / 4))) t

/-- `two_hop_frac.MIN_FREQ_DIFF`. -/
def MIN_FREQ_DIFF : Int := 60

/-- `two_hop_frac.get_interference`.  The frequency lookup and the comparison
`diff >= MIN_FREQ_DIFF` are exact integer arithmetic in the source; the final
interference level is the Python float expression `-1.0/MIN_FREQ_DIFF * diff
+ 1`, which is embedded here as the exact rational it approximates (the
error paths settled against this definition never reach that expression). -/
def get_interference {V : Type} [DecidableEq V] (g : PyGraph V) (e1 e2 : V × V) :
    Except (IErr V) ℚ :=
  if e1 = e2 then .ok 0
  else
    match parseChannel g e1 with
    | .error err => .error err
    | .ok channel1 =>
      match parseChannel g e2 with
      | .error err => .error err
      | .ok channel2 =>
        match dictGet frequencies channel1, dictGet frequencies channel2 with
        | some f1, some f2 =>
          let diff : Int := |f1 - f2|
          if diff ≥ MIN_FREQ_DIFF then .ok 0
          else
            let interf : ℚ := -1 / (MIN_FREQ_DIFF : ℚ) * (diff : ℚ) + 1
            if min (min (min (g.get_distance e1.1 e2.1) (g.get_distance e1.1 e2.2))
                (g.get_distance e1.2 e2.1)) (g.get_distance e1.2 e2.2) < 2 then .ok interf
            else .ok 0
        | _, _ => .error .keyError

end TwoHopFrac

namespace CO

/-- `co.CO_THRESHOLD` (the float `2.0`; the measurement values coming from
the database are embedded as rationals). -/
def CO_THRESHOLD : ℚ := 2

/-- `co.init()`: builds the `node_id` id-to-name dict from the `Node` rows and
the `cot_max` dict keyed by `listenerName-senderName` from the
`CORResultsKernel` rows (a missing node id raises `KeyError`). -/
def initTables (dbNodes : List (Int × PyStr)) (dbCor : List (Int × Int × ℚ)) :
    Except (IErr PyStr) (List (Int × PyStr) × List (PyStr × ℚ)) :=
  let node_id := dbNodes.foldl (fun t r => dictPut t r.1 r.2) ([] : List (Int × PyStr))
  let cot : Except (IErr PyStr) (List (PyStr × ℚ)) := dbCor.foldlM (fun t r =>
    match dictGet node_id r.1, dictGet node_id r.2.1 with
    | some ln, some sn => Except.ok (dictPut t (ln ++ '-' :: sn) r.2.2)
    | _, _ => Except.error IErr.keyError) []
  match cot with
  | .ok cot_max => .ok (node_id, cot_max)
  | .error e => .error e

/-- `co.get_interference`: lazily populates the module caches on first use,
returns 0 on identical edges or distinct channels, and otherwise looks the
four listener-sender endpoint pairs up in the sparse `cot_max` cache (a
missing pair raises `KeyError`) and compares their maximum to the
threshold. -/
def get_interference (dbNodes : List (Int × PyStr)) (dbCor : List (Int × Int × ℚ))
    (node_id : List (Int × PyStr)) (cot_max : List (PyStr × ℚ))
    (g : PyGraph PyStr) (e1 e2 : PyStr × PyStr) : Except (IErr PyStr) Nat :=
  let tables : Except (IErr PyStr) (List (Int × PyStr) × List (PyStr × ℚ)) :=
    if node_id = [] then initTables dbNodes dbCor else .ok (node_id, cot_max)
  match tables with
  | .error err => .error err
  | .ok (_, cot) =>
    if e1 = e2 then .ok 0
    else
      match parseChannel g e1 with
      | .error err => .error err
      | .ok channel1 =>
        match parseChannel g e2 with
        | .error err => .error err
        | .ok channel2 =>
          if channel1 ≠ channel2 then .ok 0
          else
            match dictGet cot (e1.1 ++ '-' :: e2.1), dictGet cot (e1.1 ++ '-' :: e2.2),
              dictGet cot (e1.2 ++ '-' :: e2.1), dictGet cot (e1.2 ++ '-' :: e2.2) with
            | some co1, some co2, some co3, some co4 =>
              if max (max (max co1 co2) co3) co4 > CO_THRESHOLD then .ok 1 else .ok 0
            | _, _, _, _ => .error .keyError

end CO

/-- An interference model as the conflict graph consumes it: a function of the
network graph and two of its edges.  The claims about the conflict graph
quantify over models whose calls return normally, so the result is a plain
value. -/
def IModel (V : Type) : Type := PyGraph V → (V × V) → (V × V) → PyVal

/-- The state of a `ConflictGraph`: the referenced network graph and the
inherited `Graph` over the network edges (its values are the interference
weights; the inherited distance matrix is part of the state because
`set_edge_value` touches it on truthy weights). -/
structure CGraph (V : Type) : Type where
  network_graph : PyGraph V
  graph : PyGraph (V × V)

/-- `ConflictGraph.update_edge(cg_vertex)`: recomputes the weights of all
pairs containing the given vertex. -/
def CGraph.update_edge (m : IModel V) (cg : CGraph V) (v : V × V) : CGraph V :=
  let h := cg.graph.verts.foldl
    (fun h v2 => h.set_edge_value (v, v2) (m cg.network_graph v v2) false) cg.graph
  { cg with graph := h }

/-- The nested loops of `ConflictGraph.update_edges` (same
`remaining_vertices` scheme as `get_edges`). -/
def updateEdgesAux (m : IModel V) (net : PyGraph V) :
    List (V × V) → List (V × V) → PyGraph (V × V) → PyGraph (V × V)
  | [], _, h => h
  | v1 :: rest, rem, h =>
    updateEdgesAux m net rest (rem.erase v1)
      (rem.foldl (fun hh v2 => hh.set_edge_value (v1, v2) (m net v1 v2) false) h)

/-- `ConflictGraph.update_edges()`: recomputes every pair's weight from the
interference model. -/
def CGraph.update_edges (m : IModel V) (cg : CGraph V) : CGraph V :=
  { cg with graph := updateEdgesAux m cg.network_graph cg.graph.verts cg.graph.verts cg.graph }

/-- `ConflictGraphVertex.set_channel(channel)`: writes `str(channel)` into the
network graph (with the default `update=True`, so `update_distances` runs)
and then runs the incremental `update_edge` on this vertex. -/
def CGraph.set_channel (m : IModel V) (cg : CGraph V) (v : V × V) (channel : Int) :
    CGraph V :=
  let cg1 : CGraph V :=
    { cg with network_graph :=
        cg.network_graph.set_edge_value v (PyVal.pystr (intToPyStr channel)) true }
  cg1.update_edge m v

/-- `ConflictGraphVertex.get_channel()`:
`int(network_graph.get_edge_value(edge))`. -/
def CGraph.get_channel (cg : CGraph V) (v : V × V) : Except PyExc Int :=
  pyInt (cg.network_graph.get_edge_value v)

end Models

/-! ### Decimal printing and parsing round-trip -/

theorem digitVal_ofNat {d : Nat} (hd : d < 10) : digitVal (Char.ofNat (48 + d)) = some d := by
  interval_cases d <;> rfl

theorem pyWhite_digitChar {d : Nat} (hd : d < 10) : pyWhite (Char.ofNat (48 + d)) = false := by
  interval_cases d <;> rfl

theorem digitChar_ne_minus {d : Nat} (hd : d < 10) : Char.ofNat (48 + d) ≠ '-' := by
  interval_cases d <;> decide

theorem digitChar_ne_plus {d : Nat} (hd : d < 10) : Char.ofNat (48 + d) ≠ '+' := by
  interval_cases d <;> decide

theorem natDigits_chars (n : Nat) : ∀ c ∈ natDigits n, ∃ d, d < 10 ∧ c = Char.ofNat (48 + d) := by
  induction n using Nat.strong_induction_on with
  | _ n ih =>
    rw [natDigits]
    split
    · next h =>
      intro c hc
      simp only [List.mem_singleton] at hc
      exact ⟨n, h, hc⟩
    · next h =>
      intro c hc
      rcases List.mem_append.mp hc with h1 | h2
      · exact ih (n / 10) (Nat.div_lt_self (by omega) (by omega)) c h1
      · simp only [List.mem_singleton] at h2
        exact ⟨n % 10, Nat.mod_lt _ (by omega), h2⟩

theorem natDigits_ne_nil (n : Nat) : natDigits n ≠ [] := by
  rw [natDigits]; split <;> simp

theorem foldl_digitStep (n : Nat) :
    ∀ a : Nat, (natDigits n).foldl digitStep (some a) =
      some (a * 10 ^ (natDigits n).length + n) := by
  induction n using Nat.strong_induction_on with
  | _ n ih =>
    intro a
    rw [natDigits]
    split
    · next h =>
      simp [digitStep, digitVal_ofNat h]
      omega
    · next h =>
      rw [List.foldl_append, ih (n / 10) (Nat.div_lt_self (by omega) (by omega)) a]
      simp [digitStep, digitVal_ofNat (Nat.mod_lt n (by omega) : n % 10 < 10)]
      rw [pow_succ]
      ring_nf
      omega

theorem parseDigits_natDigits (n : Nat) : parseDigits (natDigits n) = some n := by
  obtain ⟨c, t, h⟩ : ∃ c t, natDigits n = c :: t := by
    cases hh : natDigits n with
    | nil => exact absurd hh (natDigits_ne_nil n)
    | cons c t => exact ⟨c, t, rfl⟩
  rw [h]
  show (c :: t).foldl digitStep (some 0) = some n
  rw [← h, foldl_digitStep]
  simp

theorem dropWhile_eq_self_of {p : Char → Bool} {l : PyStr} (h : ∀ c ∈ l, p c = false) :
    l.dropWhile p = l := by
  cases l with
  | nil => rfl
  | cons a t => simp [List.dropWhile_cons, h a (by simp)]

theorem pyStrip_eq_self {s : PyStr} (h : ∀ c ∈ s, pyWhite c = false) : pyStrip s = s := by
  unfold pyStrip
  rw [dropWhile_eq_self_of h,
    dropWhile_eq_self_of (fun c hc => h c (List.mem_reverse.mp hc)),
    List.reverse_reverse]

theorem natDigits_nowhite (n : Nat) : ∀ c ∈ natDigits n, pyWhite c = false := by
  intro c hc
  obtain ⟨d, hd, rfl⟩ := natDigits_chars n c hc
  exact pyWhite_digitChar hd

theorem parseSigned_of_digit {c : Char} {t : PyStr} (h1 : c ≠ '-') (h2 : c ≠ '+') :
    parseSigned (c :: t) = (parseDigits (c :: t)).map fun n => (n : Int) := by
  unfold parseSigned
  split
  · next heq => rw [List.cons.injEq] at heq; exact absurd heq.1 h1
  · next heq => rw [List.cons.injEq] at heq; exact absurd heq.1 h2
  · rfl

theorem parsePyInt_intToPyStr (i : Int) : parsePyInt (intToPyStr i) = some i := by
  unfold parsePyInt intToPyStr
  split
  · next hneg =>
    rw [pyStrip_eq_self]
    · show parseSigned ('-' :: natDigits (-i).toNat) = some i
      have : parseSigned ('-' :: natDigits (-i).toNat) =
          (parseDigits (natDigits (-i).toNat)).map fun n => -(n : Int) := rfl
      rw [this, parseDigits_natDigits]
      simp
      omega
    · intro c hc
      rcases List.mem_cons.mp hc with rfl | hc2
      · rfl
      · exact natDigits_nowhite _ c hc2
  · next hpos =>
    rw [pyStrip_eq_self (natDigits_nowhite _)]
    obtain ⟨c, t, h⟩ : ∃ c t, natDigits i.toNat = c :: t := by
      cases hh : natDigits i.toNat with
      | nil => exact absurd hh (natDigits_ne_nil _)
      | cons c t => exact ⟨c, t, rfl⟩
    obtain ⟨d, hd, hc⟩ := natDigits_chars i.toNat c (by rw [h]; simp)
    rw [h, parseSigned_of_digit (hc ▸ digitChar_ne_minus hd) (hc ▸ digitChar_ne_plus hd), ← h,
      parseDigits_natDigits]
    simp
    omega

theorem pyInt_str_roundtrip (i : Int) : pyInt (PyVal.pystr (intToPyStr i)) = .ok i := by
  simp [pyInt, parsePyInt_intToPyStr i]

/-! ### Small facts about the embedded graph operations -/

theorem symmSet_left {V : Type} [DecidableEq V] {α : Type} (f : V → V → α) (x y : V) (a : α) :
    symmSet f x y a x y = a := by
  simp [symmSet]

theorem set_edge_value_verts {V : Type} [DecidableEq V] (g : PyGraph V) (e : V × V)
    (v : PyVal) (u : Bool) : (g.set_edge_value e v u).verts = g.verts := by
  unfold PyGraph.set_edge_value
  split
  · split <;> rfl
  · rfl

theorem set_edge_value_value {V : Type} [DecidableEq V] (g : PyGraph V) (e : V × V)
    (v : PyVal) (u : Bool) : (g.set_edge_value e v u).value = symmSet g.value e.1 e.2 v := by
  unfold PyGraph.set_edge_value
  split
  · split <;> rfl
  · rfl

theorem update_distances_verts {V : Type} [DecidableEq V] (g : PyGraph V) :
    g.update_distances.verts = g.verts := rfl

theorem update_distances_value {V : Type} [DecidableEq V] (g : PyGraph V) :
    g.update_distances.value = g.value := rfl

/-! ### Claims C10, C3, C5, C9 -/

/-- C10: for every `ConflictGraphVertex` whose link exists in the network
graph and every integer channel `c`, `get_channel()` immediately after
`set_channel(c)` returns `c`: `set_channel` stores `str(c)` in the network
graph and `get_channel` parses it back with `int`. -/
theorem get_channel_after_set_channel {V : Type} [DecidableEq V] (m : IModel V)
    (cg : CGraph V) (v : V × V) (c : Int)
    (h1 : v.1 ∈ cg.network_graph.verts) (h2 : v.2 ∈ cg.network_graph.verts) :
    (CGraph.set_channel m cg v c).get_channel v = .ok c := by
  show pyInt ((cg.network_graph.set_edge_value v (PyVal.pystr (intToPyStr c)) true).value
    v.1 v.2) = .ok c
  rw [set_edge_value_value, symmSet_left, pyInt_str_roundtrip]

/-- Closed witness for `get_channel_after_set_channel`: a two-vertex network
graph, the trivial model, channel 5. -/
theorem get_channel_after_set_channel_witness :
    (0, 1).1 ∈ (PyGraph.mk [0, 1] (fun _ _ => PyVal.none) (fun _ _ => 0) : PyGraph Nat).verts ∧
    (CGraph.set_channel (fun _ _ _ => PyVal.pyint 0)
      (CGraph.mk (PyGraph.mk [0, 1] (fun _ _ => PyVal.none) (fun _ _ => 0))
        (PyGraph.mk [] (fun _ _ => PyVal.none) (fun _ _ => 0)))
      (0, 1) 5).get_channel (0, 1) = .ok 5 :=
  ⟨by decide,
   get_channel_after_set_channel (fun _ _ _ => PyVal.pyint 0)
     (CGraph.mk (PyGraph.mk [0, 1] (fun _ _ => PyVal.none) (fun _ _ => 0))
       (PyGraph.mk [] (fun _ _ => PyVal.none) (fun _ _ => 0)))
     (0, 1) 5 (by decide) (by decide)⟩

/-- C3: the binary two-hop model returns 1 iff the edges are distinct, their
parsed channels are equal, and the minimum of the four endpoint-pair
distances is below 2; it returns 0 in every other case (identical edges
included), whenever both edge values are found and parse as integers. -/
theorem two_hop_binary_characterization {V : Type} [DecidableEq V]
    (g : PyGraph V) (e1 e2 : V × V) (w1 w2 : PyVal) (c1 c2 : Int)
    (h1 : dictGet g.get_edges e1 = some w1) (hp1 : pyInt w1 = .ok c1)
    (h2 : dictGet g.get_edges e2 = some w2) (hp2 : pyInt w2 = .ok c2) :
    TwoHop.get_interference g e1 e2 =
      .ok (if e1 ≠ e2 ∧ c1 = c2 ∧
          min (min (min (g.get_distance e1.1 e2.1) (g.get_distance e1.1 e2.2))
            (g.get_distance e1.2 e2.1)) (g.get_distance e1.2 e2.2) < 2
        then 1 else 0) := by
  by_cases he : e1 = e2
  · simp [TwoHop.get_interference, he]
  · simp only [TwoHop.get_interference, parseChannel, h1, h2, hp1, hp2, if_neg he]
    by_cases hc : c1 = c2
    · subst hc
      rw [if_neg (show ¬c1 ≠ c1 by simp)]
      split
      · next hm => rw [if_pos ⟨he, rfl, hm⟩]
      · next hm => rw [if_neg (fun h3 => hm h3.2.2)]
    · rw [if_pos hc, if_neg (fun h3 => hc h3.2.1)]

/-- Concrete path graph a-b-c with both edges on channel 1, used by the
witness of the two-hop characterization. -/
def gPath : PyGraph PyStr :=
  { verts := [['a'], ['b'], ['c']],
    value := fun x y =>
      if (x = ['a'] ∧ y = ['b']) ∨ (x = ['b'] ∧ y = ['a']) then PyVal.pystr ['1']
      else if (x = ['b'] ∧ y = ['c']) ∨ (x = ['c'] ∧ y = ['b']) then PyVal.pystr ['1']
      else PyVal.none,
    dist := fun x y =>
      if x = y then 0
      else if (x = ['a'] ∧ y = ['c']) ∨ (x = ['c'] ∧ y = ['a']) then 2 else 1 }

/-- Closed witness for `two_hop_binary_characterization`: on `gPath` the two
edges share channel 1 and meet at `b`, so the model returns 1. -/
theorem two_hop_binary_characterization_witness :
    dictGet gPath.get_edges ((['a'] : PyStr), (['b'] : PyStr)) = some (PyVal.pystr ['1']) ∧
    pyInt (PyVal.pystr ['1']) = .ok 1 ∧
    TwoHop.get_interference gPath ((['a'] : PyStr), ['b']) ((['b'] : PyStr), ['c']) = .ok 1 := by
  refine ⟨by decide, by decide, ?_⟩
  have h := two_hop_binary_characterization gPath ((['a'] : PyStr), ['b']) ((['b'] : PyStr), ['c'])
    (PyVal.pystr ['1']) (PyVal.pystr ['1']) 1 1 (by decide) (by decide) (by decide) (by decide)
  rw [h]
  decide

/-- C5 (amended): in each of the three interference models, an edge value on
which `int()` raises a `TypeError` (e.g. a list; `None` never reaches this
point because `get_edges` drops falsy values) makes `get_interference` on two
distinct edges fail with a `CHANError` carrying the edge and its raw value.
A value whose conversion raises a `ValueError` instead (a non-numeric
string) is not converted: see the counterexample theorem. -/
theorem interference_typeerror_chanerror
    (dbN : List (Int × PyStr)) (dbC : List (Int × Int × ℚ))
    (node_id : List (Int × PyStr)) (cot : List (PyStr × ℚ))
    (g : PyGraph PyStr) (e1 e2 : PyStr × PyStr) (w1 w2 : PyVal)
    (hnid : node_id ≠ []) (hne : e1 ≠ e2)
    (h1 : dictGet g.get_edges e1 = some w1)
    (h2 : dictGet g.get_edges e2 = some w2) :
    (pyInt w1 = .error .typeError →
      TwoHop.get_interference g e1 e2 = .error (.chanError e1 w1) ∧
      TwoHopFrac.get_interference g e1 e2 = .error (.chanError e1 w1) ∧
      CO.get_interference dbN dbC node_id cot g e1 e2 = .error (.chanError e1 w1)) ∧
    (∀ c1, pyInt w1 = .ok c1 → pyInt w2 = .error .typeError →
      TwoHop.get_interference g e1 e2 = .error (.chanError e2 w2) ∧
      TwoHopFrac.get_interference g e1 e2 = .error (.chanError e2 w2) ∧
      CO.get_interference dbN dbC node_id cot g e1 e2 = .error (.chanError e2 w2)) := by
  constructor
  · intro hbad
    refine ⟨?_, ?_, ?_⟩
    · simp only [TwoHop.get_interference, parseChannel, h1, hbad, if_neg hne]
    · simp only [TwoHopFrac.get_interference, parseChannel, h1, hbad, if_neg hne]
    · simp only [CO.get_interference, parseChannel, if_neg hnid, h1, hbad, if_neg hne]
  · intro c1 hok hbad
    refine ⟨?_, ?_, ?_⟩
    · simp only [TwoHop.get_interference, parseChannel, h1, h2, hok, hbad, if_neg hne]
    · simp only [TwoHopFrac.get_interference, parseChannel, h1, h2, hok, hbad, if_neg hne]
    · simp only [CO.get_interference, parseChannel, if_neg hnid, h1, h2, hok, hbad, if_neg hne]

/-- Path graph a-b-c whose edge a-b carries a truthy non-numeric object
(a list, say) and whose edge b-c carries channel "1". -/
def gObjVal : PyGraph PyStr :=
  { verts := [['a'], ['b'], ['c']],
    value := fun x y =>
      if (x = ['a'] ∧ y = ['b']) ∨ (x = ['b'] ∧ y = ['a']) then PyVal.pyobj 0
      else if (x = ['b'] ∧ y = ['c']) ∨ (x = ['c'] ∧ y = ['b']) then PyVal.pystr ['1']
      else PyVal.none,
    dist := fun x y => if x = y then 0 else 1 }

/-- Closed witness for `interference_typeerror_chanerror` on `gObjVal`. -/
theorem interference_typeerror_chanerror_witness :
    pyInt (PyVal.pyobj 0) = .error .typeError ∧
    TwoHop.get_interference gObjVal ((['a'] : PyStr), ['b']) ((['b'] : PyStr), ['c']) =
      .error (.chanError (['a'], ['b']) (PyVal.pyobj 0)) :=
  ⟨by decide,
   ((interference_typeerror_chanerror [] [] [(1, ['a'])] [] gObjVal
      ((['a'] : PyStr), ['b']) ((['b'] : PyStr), ['c']) (PyVal.pyobj 0) (PyVal.pystr ['1'])
      (by decide) (by decide) (by decide) (by decide)).1 (by decide)).1⟩

/-- Path graph a-b-c whose edge a-b carries the truthy but non-numeric string
"x" and whose edge b-c carries channel "1". -/
def gStrVal : PyGraph PyStr :=
  { verts := [['a'], ['b'], ['c']],
    value := fun x y =>
      if (x = ['a'] ∧ y = ['b']) ∨ (x = ['b'] ∧ y = ['a']) then PyVal.pystr ['x']
      else if (x = ['b'] ∧ y = ['c']) ∨ (x = ['c'] ∧ y = ['b']) then PyVal.pystr ['1']
      else PyVal.none,
    dist := fun x y => if x = y then 0 else 1 }

/-- C5 counterexample: on `gStrVal` the edge value "x" cannot be parsed as an
integer channel, yet `two_hop.get_interference` fails with the uncaught
`ValueError` from `int("x")`, not with the `CHANError` the claim demands
(`except TypeError` does not catch a `ValueError`). -/
theorem interference_nonnumeric_string_valueerror :
    TwoHop.get_interference gStrVal ((['a'] : PyStr), ['b']) ((['b'] : PyStr), ['c']) =
      .error .valueError ∧
    (Except.error IErr.valueError : Except (IErr PyStr) Nat) ≠
      .error (.chanError (['a'], ['b']) (PyVal.pystr ['x'])) := by
  constructor
  · decide
  · decide

/-- C9: in the channel-occupancy model, once the cache is populated, two
distinct edges on the same parsed channel whose four listener-sender endpoint
pairs are not all present in the sparse `cot_max` table make
`get_interference` fail with a `KeyError` instead of defaulting the missing
measurement to 0. -/
theorem co_missing_pair_keyerror
    (dbN : List (Int × PyStr)) (dbC : List (Int × Int × ℚ))
    (node_id : List (Int × PyStr)) (cot : List (PyStr × ℚ))
    (g : PyGraph PyStr) (e1 e2 : PyStr × PyStr) (w1 w2 : PyVal) (c : Int)
    (hnid : node_id ≠ []) (hne : e1 ≠ e2)
    (h1 : dictGet g.get_edges e1 = some w1) (hp1 : pyInt w1 = .ok c)
    (h2 : dictGet g.get_edges e2 = some w2) (hp2 : pyInt w2 = .ok c)
    (hmiss : dictGet cot (e1.1 ++ '-' :: e2.1) = Option.none ∨
      dictGet cot (e1.1 ++ '-' :: e2.2) = Option.none ∨
      dictGet cot (e1.2 ++ '-' :: e2.1) = Option.none ∨
      dictGet cot (e1.2 ++ '-' :: e2.2) = Option.none) :
    CO.get_interference dbN dbC node_id cot g e1 e2 = .error .keyError := by
  simp only [CO.get_interference, parseChannel, if_neg hnid, h1, h2, hp1, hp2, if_neg hne]
  rw [if_neg (show ¬c ≠ c by simp)]
  cases hA : dictGet cot (e1.1 ++ '-' :: e2.1) <;>
    cases hB : dictGet cot (e1.1 ++ '-' :: e2.2) <;>
      cases hC : dictGet cot (e1.2 ++ '-' :: e2.1) <;>
        cases hD : dictGet cot (e1.2 ++ '-' :: e2.2) <;>
          simp_all

/-- Closed witness for `co_missing_pair_keyerror`: the cache contains only
the pair a-b, so the lookup of a-c fails. -/
theorem co_missing_pair_keyerror_witness :
    dictGet [((['a', '-', 'b'] : PyStr), (5 : ℚ))] ((['a'] : PyStr) ++ '-' :: ['c']) =
      Option.none ∧
    CO.get_interference [] [] [(1, ['a'])] [(['a', '-', 'b'], 5)] gPath
      ((['a'] : PyStr), ['b']) ((['b'] : PyStr), ['c']) = .error .keyError :=
  ⟨by decide,
   co_missing_pair_keyerror [] [] [(1, ['a'])] [(['a', '-', 'b'], 5)] gPath
     ((['a'] : PyStr), ['b']) ((['b'] : PyStr), ['c']) (PyVal.pystr ['1']) (PyVal.pystr ['1']) 1
     (by decide) (by decide) (by decide) (by decide) (by decide) (by decide)
     (Or.inr (Or.inl (by decide)))⟩

/-! ### Walks, true hop distance -/

section Walks

variable {V : Type} [DecidableEq V]

/-- Two vertices are adjacent when both are in the vertex set and the stored
edge value is truthy ("None, \"\", False, and 0 correspond to no edge"). -/
def adjP (g : PyGraph V) (a b : V) : Prop :=
  a ∈ g.verts ∧ b ∈ g.verts ∧ (g.value a b).truthy

instance adjP_decidable (g : PyGraph V) (a b : V) : Decidable (adjP g a b) := by
  unfold adjP; infer_instance

/-- A walk of `n` hops from `a` to `b` along truthy edges. -/
inductive WalkN (g : PyGraph V) : Nat → V → V → Prop
  | nil (a : V) : WalkN g 0 a a
  | snoc {n : Nat} {a w b : V} : WalkN g n a w → adjP g w b → WalkN g (n + 1) a b

/-- `b` is reachable from `a`. -/
def Reach (g : PyGraph V) (a b : V) : Prop := ∃ n, WalkN g n a b

/-- Executable test for a walk of exactly `n` hops. -/
def reachN (g : PyGraph V) : Nat → V → V → Bool
  | 0, a, b => a = b
  | n + 1, a, b => g.verts.any fun w => reachN g n a w && decide (adjP g w b)

theorem reachN_iff_walkN (g : PyGraph V) (n : Nat) (a b : V) :
    reachN g n a b = true ↔ WalkN g n a b := by
  induction n generalizing b with
  | zero =>
    constructor
    · intro h
      have : a = b := by simpa [reachN] using h
      exact this ▸ WalkN.nil a
    · intro h
      cases h
      simp [reachN]
  | succ n ih =>
    constructor
    · intro h
      simp only [reachN, List.any_eq_true, Bool.and_eq_true, decide_eq_true_eq] at h
      obtain ⟨w, _, hr, ha⟩ := h
      exact WalkN.snoc ((ih w).mp hr) ha
    · intro h
      cases h with
      | snoc hw ha =>
        simp only [reachN, List.any_eq_true, Bool.and_eq_true, decide_eq_true_eq]
        exact ⟨_, ha.1, (ih _).mpr hw, ha⟩

theorem walkN_append {g : PyGraph V} {n1 n2 : Nat} {a k b : V}
    (h1 : WalkN g n1 a k) (h2 : WalkN g n2 k b) : WalkN g (n1 + n2) a b := by
  induction h2 with
  | nil _ => exact h1
  | snoc hw ha ih => exact WalkN.snoc (ih h1) ha

theorem walkN_prepend {g : PyGraph V} {n : Nat} {a w b : V}
    (ha : adjP g a w) (h : WalkN g n w b) : WalkN g (n + 1) a b := by
  have := walkN_append (WalkN.snoc (WalkN.nil a) ha) h
  simpa [Nat.add_comm] using this

/-- The vertices inside a positive-length walk lie in the vertex set. -/
theorem walkN_end_mem {g : PyGraph V} {n : Nat} {a b : V}
    (h : WalkN g (n + 1) a b) : b ∈ g.verts := by
  cases h with
  | snoc hw ha => exact ha.2.1

/-- First index below the bound satisfying `p`. -/
def firstBelow (p : Nat → Bool) : Nat → Option Nat
  | 0 => Option.none
  | n + 1 =>
    match firstBelow p n with
    | some k => some k
    | Option.none => if p n then some n else Option.none

theorem firstBelow_none {p : Nat → Bool} :
    ∀ {n : Nat}, firstBelow p n = Option.none → ∀ j < n, p j = false := by
  intro n
  induction n with
  | zero => intro _ j hj; omega
  | succ n ih =>
    intro h j hj
    simp only [firstBelow] at h
    rcases hfb : firstBelow p n with _ | k
    · rw [hfb] at h
      by_cases hp : p n
      · simp [hp] at h
      · rcases Nat.lt_succ_iff_lt_or_eq.mp hj with hlt | rfl
        · exact ih hfb j hlt
        · simpa using hp
    · rw [hfb] at h
      simp at h

theorem firstBelow_some {p : Nat → Bool} :
    ∀ {n k : Nat}, firstBelow p n = some k → k < n ∧ p k = true ∧ ∀ j < k, p j = false := by
  intro n
  induction n with
  | zero => intro k h; simp [firstBelow] at h
  | succ n ih =>
    intro k h
    simp only [firstBelow] at h
    rcases hfb : firstBelow p n with _ | k2
    · rw [hfb] at h
      by_cases hp : p n
      · simp [hp] at h
        subst h
        exact ⟨Nat.lt_succ_self n, hp, firstBelow_none hfb⟩
      · simp [hp] at h
    · rw [hfb] at h
      simp at h
      subst h
      obtain ⟨h1, h2, h3⟩ := ih hfb
      exact ⟨Nat.lt_succ_of_lt h1, h2, h3⟩

theorem firstBelow_isSome (p : Nat → Bool) {n j : Nat} (hj : j < n) (hp : p j = true) :
    ∃ k, firstBelow p n = some k ∧ k ≤ j := by
  rcases hfb : firstBelow p n with _ | k
  · exact absurd (firstBelow_none hfb j hj) (by simp [hp])
  · refine ⟨k, rfl, ?_⟩
    by_contra hlt
    exact absurd ((firstBelow_some hfb).2.2 j (by omega)) (by simp [hp])

/-- The true shortest hop count between two vertices: the least walk length
(every shortest walk is simple, hence shorter than the vertex count), or the
`sys.maxint` sentinel when no walk exists. -/
def hopDist (g : PyGraph V) (a b : V) : Nat :=
  match firstBelow (fun n => reachN g n a b) (g.verts.length + 1) with
  | some k => k
  | Option.none => MAXINT

end Walks

/-! ### Every walk shortens to one of at most `|V|` hops (pigeonhole) -/

section Pigeonhole

variable {V : Type} [DecidableEq V]

theorem walkN_to_seq {g : PyGraph V} {n : Nat} {a b : V} (h : WalkN g n a b) :
    ∃ s : List V, s.length = n + 1 ∧ List.Chain' (adjP g) s ∧
      s.head? = some a ∧ s.getLast? = some b := by
  induction h with
  | nil a => exact ⟨[a], rfl, List.chain'_singleton a, rfl, rfl⟩
  | @snoc n a w b hw ha ih =>
    obtain ⟨s, hl, hc, hh, hlast⟩ := ih
    refine ⟨s ++ [b], by simp [hl], ?_, ?_, List.getLast?_concat s⟩
    · refine List.chain'_append.mpr ⟨hc, List.chain'_singleton b, ?_⟩
      intro x hx y hy
      simp only [List.head?_cons, Option.mem_def, Option.some.injEq] at hy
      rw [hlast] at hx
      simp only [Option.mem_def, Option.some.injEq] at hx
      subst hx; subst hy
      exact ha
    · cases s with
      | nil => simp at hl
      | cons c t => simpa using hh

theorem seq_to_walkN {g : PyGraph V} :
    ∀ (s : List V) (a b : V), List.Chain' (adjP g) s → s.head? = some a →
      s.getLast? = some b → WalkN g (s.length - 1) a b := by
  intro s
  induction s using List.reverseRecOn with
  | nil => intro a b _ hh _; simp at hh
  | append_singleton s x ih =>
    intro a b hc hh hlast
    rw [List.getLast?_concat] at hlast
    injection hlast with hlast
    subst hlast
    cases hs : s with
    | nil =>
      subst hs
      simp only [List.nil_append, List.head?_cons, Option.some.injEq] at hh
      subst hh
      exact WalkN.nil x
    | cons c t =>
      subst hs
      have hc2 := List.chain'_append.mp hc
      obtain ⟨w, hw⟩ : ∃ w, (c :: t).getLast? = some w := ⟨_, rfl⟩
      have hadj : adjP g w x := by
        refine hc2.2.2 w ?_ x ?_
        · rw [hw]; rfl
        · rfl
      have hwalk := ih a w hc2.1 (by simpa using hh) hw
      have := WalkN.snoc hwalk hadj
      have hlen : (c :: t ++ [x]).length - 1 = (c :: t).length - 1 + 1 := by
        simp
      rw [hlen]
      exact this

theorem chain'_mem_verts {g : PyGraph V} :
    ∀ {s : List V}, List.Chain' (adjP g) s → 2 ≤ s.length → ∀ x ∈ s, x ∈ g.verts := by
  intro s
  induction s with
  | nil => simp
  | cons a t ih =>
    intro hc hlen x hx
    cases t with
    | nil => simp at hlen
    | cons b t2 =>
      have h1 : adjP g a b := (List.chain'_cons.mp hc).1
      have h2 : List.Chain' (adjP g) (b :: t2) := (List.chain'_cons.mp hc).2
      rcases List.mem_cons.mp hx with rfl | hx2
      · exact h1.1
      · rcases List.mem_cons.mp hx2 with rfl | hx3
        · exact h1.2.1
        · cases t2 with
          | nil => simp at hx3
          | cons d t3 => exact ih h2 (by simp) x (List.mem_cons.mpr (Or.inr hx3))

theorem not_nodup_decomp {l : List V} (h : ¬ l.Nodup) :
    ∃ p x q r, l = p ++ x :: q ++ x :: r := by
  induction l with
  | nil => simp at h
  | cons a t ih =>
    by_cases ha : a ∈ t
    · obtain ⟨q, r, rfl⟩ := List.append_of_mem ha
      exact ⟨[], a, q, r, rfl⟩
    · have ht : ¬t.Nodup := fun hn => h (List.nodup_cons.mpr ⟨ha, hn⟩)
      obtain ⟨p, x, q, r, rfl⟩ := ih ht
      exact ⟨a :: p, x, q, r, rfl⟩

theorem chain'_shorten {g : PyGraph V} {p q r : List V} {x : V}
    (h : List.Chain' (adjP g) (p ++ x :: q ++ x :: r)) :
    List.Chain' (adjP g) (p ++ x :: r) := by
  have hassoc : p ++ x :: q ++ x :: r = p ++ x :: (q ++ x :: r) := by simp
  rw [hassoc] at h
  have h1 := List.chain'_split.mp h
  have hassoc2 : x :: (q ++ x :: r) = (x :: q) ++ x :: r := by simp
  rw [hassoc2] at h1
  have h2 := List.chain'_split.mp h1.2
  exact List.chain'_split.mpr ⟨h1.1, h2.2⟩

theorem head?_shorten (p q r : List V) (x : V) :
    (p ++ x :: q ++ x :: r).head? = (p ++ x :: r).head? := by
  cases p <;> rfl

theorem getLast?_shorten (p q r : List V) (x : V) :
    (p ++ x :: q ++ x :: r).getLast? = (p ++ x :: r).getLast? := by
  have h1 : p ++ x :: q ++ x :: r = (p ++ x :: q) ++ (x :: r) := by simp
  rw [h1, List.getLast?_append_of_ne_nil _ (by simp),
    List.getLast?_append_of_ne_nil _ (by simp)]

theorem walkN_shorten {g : PyGraph V} {m : Nat} {a b : V} (h : WalkN g m a b)
    (hm : g.verts.length < m) : ∃ m2, m2 < m ∧ WalkN g m2 a b := by
  obtain ⟨s, hl, hc, hh, hlast⟩ := walkN_to_seq h
  have hmem : ∀ x ∈ s, x ∈ g.verts := chain'_mem_verts hc (by omega)
  have hnd : ¬s.Nodup := by
    intro hnd
    have := (List.subperm_of_subset hnd hmem).length_le
    omega
  obtain ⟨p, x, q, r, rfl⟩ := not_nodup_decomp hnd
  have hlen1 : (p ++ x :: r).length < (p ++ x :: q ++ x :: r).length := by
    simp only [List.length_append, List.length_cons]
    omega
  have hpos : 1 ≤ (p ++ x :: r).length := by
    simp only [List.length_append, List.length_cons]
    omega
  refine ⟨(p ++ x :: r).length - 1, by omega, ?_⟩
  exact seq_to_walkN _ a b (chain'_shorten hc) ((head?_shorten p q r x) ▸ hh)
    ((getLast?_shorten p q r x) ▸ hlast)

theorem walkN_le_vertcount {g : PyGraph V} :
    ∀ (m : Nat) (a b : V), WalkN g m a b →
      ∃ n, n ≤ g.verts.length ∧ n ≤ m ∧ WalkN g n a b := by
  intro m
  induction m using Nat.strong_induction_on with
  | _ m ih =>
    intro a b h
    by_cases hm : m ≤ g.verts.length
    · exact ⟨m, hm, le_refl m, h⟩
    · obtain ⟨m2, hlt, h2⟩ := walkN_shorten h (by omega)
      obtain ⟨n, h1, h2', h3⟩ := ih m2 hlt a b h2
      exact ⟨n, h1, by omega, h3⟩

end Pigeonhole

/-! ### Facts about `hopDist` -/

section HopDist

variable {V : Type} [DecidableEq V]

theorem hopDist_le_of_walkN {g : PyGraph V} {m : Nat} {a b : V} (h : WalkN g m a b) :
    hopDist g a b ≤ m := by
  obtain ⟨n, hn, hnm, hw⟩ := walkN_le_vertcount m a b h
  obtain ⟨k, hk, hkn⟩ := firstBelow_isSome (fun m => reachN g m a b)
    (show n < g.verts.length + 1 by omega) ((reachN_iff_walkN g n a b).mpr hw)
  unfold hopDist
  rw [hk]
  show k ≤ m
  omega

theorem hopDist_cases (g : PyGraph V) (a b : V) :
    (WalkN g (hopDist g a b) a b ∧ ∀ j < hopDist g a b, ¬WalkN g j a b) ∨
    (hopDist g a b = MAXINT ∧ ∀ m, ¬WalkN g m a b) := by
  unfold hopDist
  rcases hfb : firstBelow (fun n => reachN g n a b) (g.verts.length + 1) with _ | k
  · right
    refine ⟨rfl, fun m hw => ?_⟩
    obtain ⟨n, hn, _, hwn⟩ := walkN_le_vertcount m a b hw
    exact absurd (firstBelow_none hfb n (by omega))
      (by simp [(reachN_iff_walkN g n a b).mpr hwn])
  · left
    obtain ⟨hlt, hp, hmin⟩ := firstBelow_some hfb
    exact ⟨(reachN_iff_walkN g k a b).mp hp,
      fun j hj hw => absurd (hmin j hj) (by simp [(reachN_iff_walkN g j a b).mpr hw])⟩

theorem hopDist_self (g : PyGraph V) (a : V) : hopDist g a a = 0 :=
  Nat.le_zero.mp (hopDist_le_of_walkN (WalkN.nil a))

theorem hopDist_le_MAXINT {g : PyGraph V} (hlen : g.verts.length ≤ MAXINT) (a b : V) :
    hopDist g a b ≤ MAXINT := by
  unfold hopDist
  rcases hfb : firstBelow (fun n => reachN g n a b) (g.verts.length + 1) with _ | k
  · exact le_refl _
  · show k ≤ MAXINT
    have := (firstBelow_some hfb).1
    omega

theorem hopDist_eq_MAXINT {g : PyGraph V} {a b : V} (h : ¬Reach g a b) :
    hopDist g a b = MAXINT := by
  rcases hopDist_cases g a b with ⟨hw, _⟩ | ⟨he, _⟩
  · exact absurd ⟨_, hw⟩ h
  · exact he

theorem reach_hopDist {g : PyGraph V} {a b : V} (h : Reach g a b) :
    WalkN g (hopDist g a b) a b := by
  rcases hopDist_cases g a b with ⟨hw, _⟩ | ⟨_, hno⟩
  · exact hw
  · obtain ⟨m, hm⟩ := h
    exact absurd hm (hno m)

theorem hopDist_triangle {g : PyGraph V} (hlen : g.verts.length ≤ MAXINT) (a k b : V) :
    hopDist g a b ≤ hopDist g a k + hopDist g k b := by
  by_cases h1 : Reach g a k
  · by_cases h2 : Reach g k b
    · exact hopDist_le_of_walkN (walkN_append (reach_hopDist h1) (reach_hopDist h2))
    · have he := hopDist_eq_MAXINT h2
      have := hopDist_le_MAXINT hlen a b
      omega
  · have he := hopDist_eq_MAXINT h1
    have := hopDist_le_MAXINT hlen a b
    omega

theorem walkN_mono {g1 g2 : PyGraph V} (hadj : ∀ x y, adjP g1 x y → adjP g2 x y)
    {n : Nat} {a b : V} (h : WalkN g1 n a b) : WalkN g2 n a b := by
  induction h with
  | nil a => exact WalkN.nil a
  | snoc hw ha ih => exact WalkN.snoc ih (hadj _ _ ha)

theorem hopDist_eq_of_adj_iff {g1 g2 : PyGraph V}
    (hadj : ∀ x y, adjP g1 x y ↔ adjP g2 x y) (a b : V) :
    hopDist g1 a b = hopDist g2 a b := by
  rcases hopDist_cases g1 a b with ⟨hw1, hmin1⟩ | ⟨he1, hno1⟩
  · rcases hopDist_cases g2 a b with ⟨hw2, hmin2⟩ | ⟨he2, hno2⟩
    · have h21 : WalkN g1 (hopDist g2 a b) a b :=
        walkN_mono (fun x y h => (hadj x y).mpr h) hw2
      have h12 : WalkN g2 (hopDist g1 a b) a b :=
        walkN_mono (fun x y h => (hadj x y).mp h) hw1
      rcases Nat.lt_trichotomy (hopDist g1 a b) (hopDist g2 a b) with hlt | heq | hgt
      · exact absurd h12 (hmin2 _ hlt)
      · exact heq
      · exact absurd h21 (hmin1 _ hgt)
    · exact absurd (walkN_mono (fun x y h => (hadj x y).mp h) hw1) (hno2 _)
  · rcases hopDist_cases g2 a b with ⟨hw2, hmin2⟩ | ⟨he2, hno2⟩
    · exact absurd (walkN_mono (fun x y h => (hadj x y).mpr h) hw2) (hno1 _)
    · rw [he1, he2]

theorem hopDist_mono {g1 g2 : PyGraph V} (hlen2 : g2.verts.length ≤ MAXINT)
    (hadj : ∀ x y, adjP g1 x y → adjP g2 x y) (a b : V) :
    hopDist g2 a b ≤ hopDist g1 a b := by
  rcases hopDist_cases g1 a b with ⟨hw1, _⟩ | ⟨he1, _⟩
  · exact hopDist_le_of_walkN (walkN_mono hadj hw1)
  · rw [he1]
    exact hopDist_le_MAXINT hlen2 a b

end HopDist

/-! ### Floyd-Warshall: symmetry, monotone decrease -/

section FWBasic

variable {V : Type} [DecidableEq V]

/-- A symmetric distance table (all distance writes in `graph.py` write both
cells). -/
def SymD (d : V → V → Nat) : Prop := ∀ x y, d x y = d y x

theorem relaxPair_sym {k v1 v2 : V} {d : V → V → Nat} (h : SymD d) :
    SymD (relaxPair k v1 v2 d) := by
  intro x y
  unfold relaxPair symmSet
  by_cases h1 : (x = v1 ∧ y = v2) ∨ (x = v2 ∧ y = v1)
  · rw [if_pos h1, if_pos (by tauto)]
  · rw [if_neg h1, if_neg (by tauto)]
    exact h x y

theorem relaxPair_le {k v1 v2 : V} {d : V → V → Nat} (h : SymD d) (x y : V) :
    relaxPair k v1 v2 d x y ≤ d x y := by
  unfold relaxPair symmSet
  split
  · next hc =>
    rcases hc with ⟨rfl, rfl⟩ | ⟨rfl, rfl⟩
    · exact min_le_left _ _
    · rw [h x y]
      exact min_le_left _ _
  · exact le_refl _

theorem relaxPair_write {k v1 v2 : V} {d : V → V → Nat} :
    relaxPair k v1 v2 d v1 v2 = min (d v1 v2) (d v1 k + d k v2) ∧
    relaxPair k v1 v2 d v2 v1 = min (d v1 v2) (d v1 k + d k v2) := by
  constructor <;> simp [relaxPair, symmSet]

theorem relaxPair_other {k v1 v2 : V} {d : V → V → Nat} {x y : V}
    (h : ¬((x = v1 ∧ y = v2) ∨ (x = v2 ∧ y = v1))) :
    relaxPair k v1 v2 d x y = d x y := by
  simp [relaxPair, symmSet, if_neg h]

theorem relaxRow_cons {k v1 v2 : V} {rest : List V} {d : V → V → Nat} :
    relaxRow k v1 (v2 :: rest) d = relaxRow k v1 rest (relaxPair k v1 v2 d) := rfl

theorem relaxRow_sym_le (k v1 : V) :
    ∀ (rem : List V) (d : V → V → Nat), SymD d →
      SymD (relaxRow k v1 rem d) ∧ ∀ x y, relaxRow k v1 rem d x y ≤ d x y := by
  intro rem
  induction rem with
  | nil => exact fun d h => ⟨h, fun x y => le_refl _⟩
  | cons v2 rest ih =>
    intro d h
    obtain ⟨hs, hle⟩ := ih (relaxPair k v1 v2 d) (relaxPair_sym h)
    rw [relaxRow_cons]
    exact ⟨hs, fun x y => le_trans (hle x y) (relaxPair_le h x y)⟩

theorem fwInner_sym_le (k : V) :
    ∀ (v1s rem : List V) (d : V → V → Nat), SymD d →
      SymD (fwInner k v1s rem d) ∧ ∀ x y, fwInner k v1s rem d x y ≤ d x y := by
  intro v1s
  induction v1s with
  | nil => exact fun rem d h => ⟨h, fun x y => le_refl _⟩
  | cons v1 rest ih =>
    intro rem d h
    obtain ⟨hs1, hle1⟩ := relaxRow_sym_le k v1 rem d h
    obtain ⟨hs, hle⟩ := ih (rem.erase v1) (relaxRow k v1 rem d) hs1
    exact ⟨hs, fun x y => le_trans (hle x y) (hle1 x y)⟩

theorem foldPhases_sym_le (vs : List V) :
    ∀ (ks : List V) (d : V → V → Nat), SymD d →
      SymD (ks.foldl (fun dd k => fwPhase vs k dd) d) ∧
      ∀ x y, (ks.foldl (fun dd k => fwPhase vs k dd) d) x y ≤ d x y := by
  intro ks
  induction ks with
  | nil => exact fun d h => ⟨h, fun x y => le_refl _⟩
  | cons k kt ih =>
    intro d h
    obtain ⟨hs1, hle1⟩ := fwInner_sym_le k vs vs d h
    obtain ⟨hs, hle⟩ := ih (fwPhase vs k d) hs1
    exact ⟨hs, fun x y => le_trans (hle x y) (hle1 x y)⟩

theorem update_distances_sym_le (g : PyGraph V) (h : SymD g.dist) :
    SymD g.update_distances.dist ∧ ∀ x y, g.update_distances.dist x y ≤ g.dist x y :=
  foldPhases_sym_le g.verts g.verts g.dist h

end FWBasic

/-! ### Floyd-Warshall: the lower bound is preserved -/

section FWLower

variable {V : Type} [DecidableEq V]

/-- Every table cell between vertices stays at or above the true hop count,
with unreachable pairs staying at or above the sentinel. -/
def LBP (g0 : PyGraph V) (vs : List V) (d : V → V → Nat) : Prop :=
  ∀ a ∈ vs, ∀ b ∈ vs,
    (Reach g0 a b → hopDist g0 a b ≤ d a b) ∧ (¬Reach g0 a b → MAXINT ≤ d a b)

theorem relaxPair_LB {g0 : PyGraph V} {vs : List V} {d : V → V → Nat} {k v1 v2 : V}
    (hlen : g0.verts.length ≤ MAXINT) (hsym : SymD d) (hlb : LBP g0 vs d)
    (hk : k ∈ vs) : LBP g0 vs (relaxPair k v1 v2 d) := by
  intro a ha b hb
  by_cases hw : (a = v1 ∧ b = v2) ∨ (a = v2 ∧ b = v1)
  · have hval : relaxPair k v1 v2 d a b = min (d a b) (d a k + d k b) := by
      rcases hw with ⟨rfl, rfl⟩ | ⟨rfl, rfl⟩
      · exact relaxPair_write.1
      · rw [relaxPair_write.2, hsym b a, hsym b k, hsym k a, Nat.add_comm]
    rw [hval]
    constructor
    · intro hr
      refine le_min ((hlb a ha b hb).1 hr) ?_
      by_cases h1 : Reach g0 a k
      · by_cases h2 : Reach g0 k b
        · calc hopDist g0 a b ≤ hopDist g0 a k + hopDist g0 k b :=
            hopDist_triangle hlen a k b
          _ ≤ d a k + d k b :=
            Nat.add_le_add ((hlb a ha k hk).1 h1) ((hlb k hk b hb).1 h2)
        · have hm := (hlb k hk b hb).2 h2
          have := hopDist_le_MAXINT hlen a b
          omega
      · have hm := (hlb a ha k hk).2 h1
        have := hopDist_le_MAXINT hlen a b
        omega
    · intro hnr
      refine le_min ((hlb a ha b hb).2 hnr) ?_
      by_cases h1 : Reach g0 a k
      · by_cases h2 : Reach g0 k b
        · obtain ⟨n1, w1⟩ := h1
          obtain ⟨n2, w2⟩ := h2
          exact absurd ⟨n1 + n2, walkN_append w1 w2⟩ hnr
        · have := (hlb k hk b hb).2 h2
          omega
      · have := (hlb a ha k hk).2 h1
        omega
  · rw [relaxPair_other hw]
    exact hlb a ha b hb

theorem relaxRow_LB {g0 : PyGraph V} {vs : List V} {k v1 : V}
    (hlen : g0.verts.length ≤ MAXINT) (hk : k ∈ vs) :
    ∀ (rem : List V) (d : V → V → Nat), SymD d → LBP g0 vs d →
      LBP g0 vs (relaxRow k v1 rem d) := by
  intro rem
  induction rem with
  | nil => exact fun d _ h => h
  | cons v2 rest ih =>
    intro d hsym hlb
    rw [relaxRow_cons]
    exact ih (relaxPair k v1 v2 d) (relaxPair_sym hsym) (relaxPair_LB hlen hsym hlb hk)

theorem fwInner_LB {g0 : PyGraph V} {vs : List V} {k : V}
    (hlen : g0.verts.length ≤ MAXINT) (hk : k ∈ vs) :
    ∀ (v1s rem : List V) (d : V → V → Nat), SymD d → LBP g0 vs d →
      LBP g0 vs (fwInner k v1s rem d) := by
  intro v1s
  induction v1s with
  | nil => exact fun rem d _ h => h
  | cons v1 rest ih =>
    intro rem d hsym hlb
    exact ih (rem.erase v1) (relaxRow k v1 rem d) (relaxRow_sym_le k v1 rem d hsym).1
      (relaxRow_LB hlen hk rem d hsym hlb)

theorem foldPhases_LB {g0 : PyGraph V} {vs : List V}
    (hlen : g0.verts.length ≤ MAXINT) :
    ∀ (ks : List V) (d : V → V → Nat), (∀ x ∈ ks, x ∈ vs) → SymD d → LBP g0 vs d →
      LBP g0 vs (ks.foldl (fun dd k => fwPhase vs k dd) d) := by
  intro ks
  induction ks with
  | nil => exact fun d _ _ h => h
  | cons k kt ih =>
    intro d hsub hsym hlb
    exact ih (fwPhase vs k d) (fun x hx => hsub x (List.mem_cons_of_mem k hx))
      (fwInner_sym_le k vs vs d hsym).1
      (fwInner_LB hlen (hsub k (List.mem_cons_self k kt)) vs vs d hsym hlb)

theorem update_distances_LB (g : PyGraph V) (hlen : g.verts.length ≤ MAXINT)
    (hsym : SymD g.dist) (hlb : LBP g g.verts g.dist) :
    LBP g g.verts g.update_distances.dist :=
  foldPhases_LB hlen g.verts g.dist (fun _ hx => hx) hsym hlb

end FWLower

/-! ### Floyd-Warshall: the upper bound is reached -/

section FWUpper

variable {V : Type} [DecidableEq V]

/-- The one-phase bound: what one `k`-phase guarantees about a table. -/
def fwBound (d : V → V → Nat) (k : V) : V → V → Nat :=
  fun a b => min (d a b) (d a k + d k b)

/-- The iterated phase bound (the classic Floyd-Warshall functional). -/
def fwIter (d : V → V → Nat) : List V → V → V → Nat
  | [] => d
  | k :: ks => fwIter (fwBound d k) ks

theorem fwIter_append (d : V → V → Nat) (ks : List V) (k : V) :
    fwIter d (ks ++ [k]) = fwBound (fwIter d ks) k := by
  induction ks generalizing d with
  | nil => rfl
  | cons k0 kt ih => exact ih (fwBound d k0)

theorem fwIter_le_self (ks : List V) (d : V → V → Nat) (a b : V) :
    fwIter d ks a b ≤ d a b := by
  induction ks generalizing d with
  | nil => exact le_refl _
  | cons k kt ih => exact le_trans (ih (fwBound d k)) (min_le_left _ _)

theorem relaxRow_bound (k v1 : V) {d0 : V → V → Nat} (hs0 : SymD d0) :
    ∀ (rem : List V) (d : V → V → Nat), SymD d → (∀ x y, d x y ≤ d0 x y) →
      ∀ b ∈ rem, relaxRow k v1 rem d v1 b ≤ fwBound d0 k v1 b ∧
        relaxRow k v1 rem d b v1 ≤ fwBound d0 k b v1 := by
  intro rem
  induction rem with
  | nil => intro d _ _ b hb; simp at hb
  | cons v2 rest ih =>
    intro d hsym hle b hb
    have hsym2 : SymD (relaxPair k v1 v2 d) := relaxPair_sym hsym
    have hle2 : ∀ x y, relaxPair k v1 v2 d x y ≤ d0 x y :=
      fun x y => le_trans (relaxPair_le hsym x y) (hle x y)
    rw [relaxRow_cons]
    rcases List.mem_cons.mp hb with rfl | hb2
    · have hrle := (relaxRow_sym_le k v1 rest (relaxPair k v1 b d) hsym2).2
      constructor
      · refine le_trans (hrle v1 b) ?_
        rw [relaxPair_write.1]
        exact min_le_min (hle v1 b) (Nat.add_le_add (hle v1 k) (hle k b))
      · refine le_trans (hrle b v1) ?_
        rw [relaxPair_write.2]
        have : min (d0 v1 b) (d0 v1 k + d0 k b) = fwBound d0 k b v1 := by
          unfold fwBound
          rw [hs0 v1 b, hs0 v1 k, hs0 k b, Nat.add_comm]
        rw [← this]
        exact min_le_min (hle v1 b) (Nat.add_le_add (hle v1 k) (hle k b))
    · exact ih (relaxPair k v1 v2 d) hsym2 hle2 b hb2

theorem fwInner_bound {k : V} {d0 : V → V → Nat} (hs0 : SymD d0) :
    ∀ (v1s rem : List V) (d : V → V → Nat), v1s.Nodup → (∀ x ∈ v1s, x ∈ rem) →
      SymD d → (∀ x y, d x y ≤ d0 x y) →
      ∀ a ∈ v1s, ∀ b ∈ rem, fwInner k v1s rem d a b ≤ fwBound d0 k a b ∧
        fwInner k v1s rem d b a ≤ fwBound d0 k b a := by
  intro v1s
  induction v1s with
  | nil => intro rem d _ _ _ _ a ha; simp at ha
  | cons v1 rest ih =>
    intro rem d hnd hsub hsym hle a ha b hb
    have hsym1 : SymD (relaxRow k v1 rem d) := (relaxRow_sym_le k v1 rem d hsym).1
    have hle1 : ∀ x y, relaxRow k v1 rem d x y ≤ d0 x y :=
      fun x y => le_trans ((relaxRow_sym_le k v1 rem d hsym).2 x y) (hle x y)
    show fwInner k rest (rem.erase v1) (relaxRow k v1 rem d) a b ≤ _ ∧ _
    rcases List.mem_cons.mp ha with rfl | ha2
    · have hbnd := relaxRow_bound k a hs0 rem d hsym hle b hb
      have hfle := (fwInner_sym_le k rest (rem.erase a) (relaxRow k a rem d) hsym1).2
      exact ⟨le_trans (hfle a b) hbnd.1, le_trans (hfle b a) hbnd.2⟩
    · by_cases hbv : b = v1
      · subst hbv
        have hbnd := relaxRow_bound k b hs0 rem d hsym hle a
          (hsub a (List.mem_cons_of_mem b ha2))
        have hfle := (fwInner_sym_le k rest (rem.erase b) (relaxRow k b rem d) hsym1).2
        exact ⟨le_trans (hfle a b) hbnd.2, le_trans (hfle b a) hbnd.1⟩
      · have hnd2 := List.nodup_cons.mp hnd
        refine ih (rem.erase v1) (relaxRow k v1 rem d) hnd2.2 ?_ hsym1 hle1 a ha2 b
          ((List.mem_erase_of_ne hbv).mpr hb)
        intro x hx
        exact (List.mem_erase_of_ne (fun hxv => hnd2.1 (by rw [← hxv]; exact hx))).mpr
          (hsub x (List.mem_cons_of_mem v1 hx))

theorem fwPhase_bound (vs : List V) (k : V) (d : V → V → Nat) (hnd : vs.Nodup)
    (hsym : SymD d) :
    ∀ a ∈ vs, ∀ b ∈ vs, fwPhase vs k d a b ≤ fwBound d k a b := by
  intro a ha b hb
  exact (fwInner_bound hsym vs vs d hnd (fun x hx => hx) hsym (fun x y => le_refl _)
    a ha b hb).1

theorem foldPhases_fwIter (vs : List V) (hnd : vs.Nodup) :
    ∀ (ks : List V) (d D : V → V → Nat), (∀ x ∈ ks, x ∈ vs) → SymD d →
      (∀ a ∈ vs, ∀ b ∈ vs, d a b ≤ D a b) →
      ∀ a ∈ vs, ∀ b ∈ vs,
        (ks.foldl (fun dd k => fwPhase vs k dd) d) a b ≤ fwIter D ks a b := by
  intro ks
  induction ks with
  | nil => exact fun d D _ _ hle a ha b hb => hle a ha b hb
  | cons k kt ih =>
    intro d D hsub hsym hle a ha b hb
    have hk : k ∈ vs := hsub k (List.mem_cons_self k kt)
    refine ih (fwPhase vs k d) (fwBound D k)
      (fun x hx => hsub x (List.mem_cons_of_mem k hx))
      (fwInner_sym_le k vs vs d hsym).1 ?_ a ha b hb
    intro x hx y hy
    refine le_trans (fwPhase_bound vs k d hnd hsym x hx y hy) ?_
    exact min_le_min (hle x hx y hy) (Nat.add_le_add (hle x hx k hk) (hle k hk y hy))

/-- Walks whose inner vertices satisfy `P`. -/
inductive WalkViaP (g : PyGraph V) (P : V → Prop) : Nat → V → V → Prop
  | nil (a : V) : WalkViaP g P 0 a a
  | single {a b : V} (h : adjP g a b) : WalkViaP g P 1 a b
  | cons {a w b : V} {n : Nat} (h : adjP g a w) (hw : P w)
      (rest : WalkViaP g P (n + 1) w b) : WalkViaP g P (n + 2) a b

theorem walkViaP_mono {g : PyGraph V} {P Q : V → Prop} (hPQ : ∀ x, P x → Q x)
    {n : Nat} {a b : V} (h : WalkViaP g P n a b) : WalkViaP g Q n a b := by
  induction h with
  | nil a => exact .nil a
  | single hadj => exact .single hadj
  | cons hadj hw _ ih => exact .cons hadj (hPQ _ hw) ih

theorem walkViaP_snoc {g : PyGraph V} {P : V → Prop} {n : Nat} {a w b : V}
    (h : WalkViaP g P n a w) (ha : adjP g w b) (hp : n = 0 ∨ P w) :
    WalkViaP g P (n + 1) a b := by
  induction h with
  | nil a => exact .single ha
  | single hadj =>
    rcases hp with h0 | hw
    · omega
    · exact .cons hadj hw (.single ha)
  | @cons x y z m hadj hy rest ih =>
    rcases hp with h0 | hw
    · omega
    · exact .cons hadj hy (ih ha (Or.inr hw))

theorem walkViaP_of_walkN {g : PyGraph V} {n : Nat} {a b : V} (h : WalkN g n a b) :
    WalkViaP g (fun x => x ∈ g.verts) n a b := by
  induction h with
  | nil a => exact .nil a
  | snoc hw ha ih => exact walkViaP_snoc ih ha (Or.inr ha.1)

theorem walkViaP_split {g : PyGraph V} {P : V → Prop} (k : V) :
    ∀ {n : Nat} {a b : V}, WalkViaP g P n a b →
      WalkViaP g (fun x => P x ∧ x ≠ k) n a b ∨
      ∃ n1 n2, n1 + n2 = n ∧ 1 ≤ n1 ∧ 1 ≤ n2 ∧ WalkViaP g P n1 a k ∧
        WalkViaP g (fun x => P x ∧ x ≠ k) n2 k b := by
  intro n a b h
  induction h with
  | nil a => exact Or.inl (.nil a)
  | single hadj => exact Or.inl (.single hadj)
  | @cons a w b n hadj hw rest ih =>
    rcases ih with hleft | ⟨n1, n2, hsum, h1, h2, p1, p2⟩
    · by_cases hwk : w = k
      · subst hwk
        exact Or.inr ⟨1, n + 1, by omega, le_refl 1, by omega, .single hadj, hleft⟩
      · exact Or.inl (.cons hadj ⟨hw, hwk⟩ hleft)
    · obtain ⟨n1', rfl⟩ : ∃ n1', n1 = n1' + 1 := ⟨n1 - 1, by omega⟩
      exact Or.inr ⟨n1' + 2, n2, by omega, by omega, h2, .cons hadj hw p1, p2⟩

theorem walkViaP_false {g : PyGraph V} {n : Nat} {a b : V}
    (h : WalkViaP g (fun _ => False) n a b) : (n = 0 ∧ a = b) ∨ (n = 1 ∧ adjP g a b) := by
  cases h with
  | nil a => exact Or.inl ⟨rfl, rfl⟩
  | single hadj => exact Or.inr ⟨rfl, hadj⟩
  | cons _ hw _ => exact absurd hw (fun h => h)

/-- The 0/1/sentinel seed corresponding to a graph's direct edges. -/
def baseF (g : PyGraph V) : V → V → Nat :=
  fun a b => if a = b then 0 else if adjP g a b then 1 else MAXINT

theorem baseF_sym (g : PyGraph V) (hval : ∀ x y, g.value x y = g.value y x) :
    SymD (baseF g) := by
  intro x y
  unfold baseF
  have : adjP g x y ↔ adjP g y x := by
    unfold adjP
    rw [hval x y]
    tauto
  by_cases hxy : x = y
  · simp [hxy]
  · rw [if_neg hxy, if_neg (Ne.symm hxy)]
    by_cases ha : adjP g x y
    · rw [if_pos ha, if_pos (this.mp ha)]
    · rw [if_neg ha, if_neg (fun h => ha (this.mpr h))]

theorem fwIter_le_walk {g : PyGraph V} :
    ∀ (ks : List V) (D : V → V → Nat), ks.Nodup → (∀ a b, D a b ≤ baseF g a b) →
      ∀ (n : Nat) (a b : V), WalkViaP g (fun x => x ∈ ks) n a b →
        fwIter D ks a b ≤ n := by
  intro ks
  induction ks using List.reverseRecOn with
  | nil =>
    intro D _ hD n a b hw
    rcases walkViaP_false (walkViaP_mono (fun x hx => by simp at hx) hw) with
      ⟨rfl, rfl⟩ | ⟨rfl, hadj⟩
    · refine le_trans (hD a a) ?_
      simp [baseF]
    · refine le_trans (hD a b) ?_
      unfold baseF
      split
      · omega
      · simp [hadj]
  | append_singleton ks k ih =>
    intro D hnd hD n a b hw
    have hknotin : k ∉ ks := by
      have := List.nodup_append.mp hnd
      intro hk
      exact this.2.2 hk (List.mem_singleton_self k)
    have hndks : ks.Nodup := (List.nodup_append.mp hnd).1
    have hFkk : fwIter D ks k k = 0 := by
      have h1 := fwIter_le_self ks D k k
      have h2 : D k k ≤ 0 := by
        refine le_trans (hD k k) ?_
        simp [baseF]
      omega
    have key : ∀ (n : Nat) (a b : V), WalkViaP g (fun x => x ∈ ks ++ [k]) n a b →
        fwBound (fwIter D ks) k a b ≤ n := by
      intro n
      induction n using Nat.strong_induction_on with
      | _ n ihn =>
        intro a b hw
        rcases walkViaP_split k hw with hleft | ⟨n1, n2, hsum, h1, h2, p1, p2⟩
        · have hw2 : WalkViaP g (fun x => x ∈ ks) n a b := by
            refine walkViaP_mono ?_ hleft
            intro x hx
            rcases List.mem_append.mp hx.1 with h | h
            · exact h
            · exact absurd (List.mem_singleton.mp h) hx.2
          exact le_trans (min_le_left _ _) (ih D hndks hD n a b hw2)
        · have hp2 : WalkViaP g (fun x => x ∈ ks) n2 k b := by
            refine walkViaP_mono ?_ p2
            intro x hx
            rcases List.mem_append.mp hx.1 with h | h
            · exact h
            · exact absurd (List.mem_singleton.mp h) hx.2
          have hFkb : fwIter D ks k b ≤ n2 := ih D hndks hD n2 k b hp2
          have hFak : fwIter D ks a k ≤ n1 := by
            have := ihn n1 (by omega) a k p1
            unfold fwBound at this
            rw [hFkk] at this
            simpa using this
          calc fwBound (fwIter D ks) k a b ≤ fwIter D ks a k + fwIter D ks k b :=
            min_le_right _ _
          _ ≤ n1 + n2 := Nat.add_le_add hFak hFkb
          _ = n := hsum
    rw [fwIter_append]
    exact key n a b hw

end FWUpper

/-! ### Floyd-Warshall: full correctness from an admissible start -/

section FWMain

variable {V : Type} [DecidableEq V]

/-- `update_distances` computes the true all-pairs shortest hop counts
whenever it starts from a symmetric table that everywhere dominates the true
distances and is dominated by the direct-edge seed. -/
theorem update_distances_correct (g : PyGraph V)
    (hnd : g.verts.Nodup) (hlen : g.verts.length ≤ MAXINT) (hsym : SymD g.dist)
    (hlb : LBP g g.verts g.dist)
    (hub : ∀ a ∈ g.verts, ∀ b ∈ g.verts, g.dist a b ≤ baseF g a b) :
    ∀ a ∈ g.verts, ∀ b ∈ g.verts, g.update_distances.dist a b = hopDist g a b := by
  intro a ha b hb
  have hple : g.update_distances.dist a b ≤ fwIter (baseF g) g.verts a b :=
    foldPhases_fwIter g.verts hnd g.verts g.dist (baseF g) (fun x hx => hx) hsym hub
      a ha b hb
  have hlbf := update_distances_LB g hlen hsym hlb a ha b hb
  by_cases hr : Reach g a b
  · have hwv : WalkViaP g (fun x => x ∈ g.verts) (hopDist g a b) a b :=
      walkViaP_of_walkN (reach_hopDist hr)
    have hub2 : fwIter (baseF g) g.verts a b ≤ hopDist g a b :=
      fwIter_le_walk g.verts (baseF g) hnd (fun x y => le_refl _) _ a b hwv
    have hge := hlbf.1 hr
    omega
  · have hge := hlbf.2 hr
    have heq := hopDist_eq_MAXINT hr
    have hne : a ≠ b := fun h => hr (h ▸ ⟨0, WalkN.nil a⟩)
    have hnadj : ¬adjP g a b := fun h => hr ⟨1, WalkN.snoc (WalkN.nil a) h⟩
    have hbase : baseF g a b = MAXINT := by simp [baseF, hne, hnadj]
    have hself := fwIter_le_self g.verts (baseF g) a b
    omega

end FWMain

/-! ### Claim C8 -/

/-- C8 (amended): for every Graph whose distance table is symmetric (every
distance write in the class writes both cells, so all reachable tables are),
`update_distances` preserves a zero diagonal, preserves symmetry, and never
increases any distance entry.  An all-zero diagonal cannot be concluded
unconditionally: a truthy self-loop write puts 1 on the diagonal and
Floyd-Warshall keeps it (see the counterexample theorem). -/
theorem update_distances_basic_properties {V : Type} [DecidableEq V] (g : PyGraph V)
    (hsym : SymD g.dist) (hdiag : ∀ v, g.dist v v = 0) :
    (∀ v, g.update_distances.dist v v = 0) ∧
    (∀ a b, g.update_distances.dist a b = g.update_distances.dist b a) ∧
    (∀ x y, g.update_distances.dist x y ≤ g.dist x y) := by
  obtain ⟨hs, hle⟩ := update_distances_sym_le g hsym
  exact ⟨fun v => Nat.le_zero.mp (le_trans (hle v v) (le_of_eq (hdiag v))), hs, hle⟩

/-- Closed witness for `update_distances_basic_properties` on a two-vertex
graph with one edge. -/
theorem update_distances_basic_properties_witness :
    SymD (PyGraph.mk [0, 1] (fun x y => if x ≠ y then PyVal.pyint 7 else PyVal.none)
      (fun x y => if x = y then 0 else 1) : PyGraph Nat).dist ∧
    (PyGraph.mk [0, 1] (fun x y => if x ≠ y then PyVal.pyint 7 else PyVal.none)
      (fun x y => if x = y then 0 else 1) : PyGraph Nat).update_distances.dist 0 0 = 0 := by
  refine ⟨?_, ?_⟩
  · intro x y
    by_cases hxy : x = y <;> simp [hxy, eq_comm]
  · refine (update_distances_basic_properties _ ?_ ?_).1 0
    · intro x y
      by_cases hxy : x = y <;> simp [hxy, eq_comm]
    · intro v
      simp

/-- C8 counterexample: writing a truthy value on the self-pair `(0,0)` sets
`distance(0,0) = 1`, and a subsequent `update_distances()` leaves it at 1,
not 0. -/
theorem update_distances_selfloop_diag :
    (((PyGraph.mkGraph [0] : PyGraph Nat).set_edge_value (0, 0) (PyVal.pyint 1)
        true).update_distances).dist 0 0 = 1 ∧
    (((PyGraph.mkGraph [0] : PyGraph Nat).set_edge_value (0, 0) (PyVal.pyint 1)
        true).update_distances).dist 0 0 ≠ 0 := by
  constructor
  · rfl
  · decide

/-! ### Claim C2: mutation sequences and the distance invariant -/

section Ops

variable {V : Type} [DecidableEq V]

/-- The public mutations of claim C2: `add_vertex`, `set_edge_value` with
recompute enabled, and `remove_vertex`. -/
inductive GOp (V : Type) : Type
  | addV : V → GOp V
  | setE : V → V → PyVal → GOp V
  | remV : V → GOp V
deriving DecidableEq

/-- Run one mutation. -/
def runOp (g : PyGraph V) : GOp V → PyGraph V
  | .addV v => g.add_vertex v
  | .setE v1 v2 w => g.set_edge_value (v1, v2) w true
  | .remV v => g.remove_vertex v

/-- Run a sequence of mutations. -/
def runOps (g : PyGraph V) (ops : List (GOp V)) : PyGraph V :=
  ops.foldl runOp g

/-- The restriction of the amended claim: edge writes touch two distinct
existing vertices with a truthy value, and no vertex is removed. -/
def goodOps : PyGraph V → List (GOp V) → Prop
  | _, [] => True
  | g, op :: rest =>
    (match op with
      | .addV _ => True
      | .setE v1 v2 w => v1 ∈ g.verts ∧ v2 ∈ g.verts ∧ v1 ≠ v2 ∧ w.truthy = true
      | .remV _ => False) ∧ goodOps (runOp g op) rest

instance goodOps_decidable : ∀ (g : PyGraph V) (ops : List (GOp V)),
    Decidable (goodOps g ops)
  | _, [] => .isTrue trivial
  | g, op :: rest => by
    unfold goodOps
    have := goodOps_decidable (runOp g op) rest
    cases op <;> exact instDecidableAnd

/-- The state invariant maintained by the amended mutation sequences. -/
structure GInv (g : PyGraph V) : Prop where
  nodup : g.verts.Nodup
  hlen : g.verts.length ≤ MAXINT
  valsym : ∀ x y, g.value x y = g.value y x
  valmem : ∀ x y, (g.value x y).truthy → x ∈ g.verts ∧ y ∈ g.verts ∧ x ≠ y
  dsym : SymD g.dist
  deq : ∀ a ∈ g.verts, ∀ b ∈ g.verts, g.dist a b = hopDist g a b

theorem foldl_symmSet_char {α : Type} (v : V) (a : α) :
    ∀ (l : List V) (f : V → V → α) (x y : V),
      (l.foldl (fun f old => symmSet f old v a) f) x y =
      if (y = v ∧ x ∈ l) ∨ (x = v ∧ y ∈ l) then a else f x y := by
  intro l
  induction l with
  | nil => simp
  | cons o t ih =>
    intro f x y
    rw [List.foldl_cons, ih]
    by_cases ht : (y = v ∧ x ∈ t) ∨ (x = v ∧ y ∈ t)
    · rw [if_pos ht, if_pos ?_]
      rcases ht with ⟨h1, h2⟩ | ⟨h1, h2⟩
      · exact Or.inl ⟨h1, List.mem_cons_of_mem o h2⟩
      · exact Or.inr ⟨h1, List.mem_cons_of_mem o h2⟩
    · rw [if_neg ht]
      unfold symmSet
      by_cases ho : (x = o ∧ y = v) ∨ (x = v ∧ y = o)
      · rw [if_pos ho, if_pos ?_]
        rcases ho with ⟨h1, h2⟩ | ⟨h1, h2⟩
        · exact Or.inl ⟨h2, h1 ▸ List.mem_cons_self o t⟩
        · exact Or.inr ⟨h1, h2 ▸ List.mem_cons_self o t⟩
      · rw [if_neg ho, if_neg ?_]
        intro hc
        rcases hc with ⟨h1, h2⟩ | ⟨h1, h2⟩
        · rcases List.mem_cons.mp h2 with rfl | h3
          · exact ho (Or.inl ⟨rfl, h1⟩)
          · exact ht (Or.inl ⟨h1, h3⟩)
        · rcases List.mem_cons.mp h2 with rfl | h3
          · exact ho (Or.inr ⟨h1, rfl⟩)
          · exact ht (Or.inr ⟨h1, h3⟩)

theorem add_vertex_new {g : PyGraph V} {v : V} (hv : v ∉ g.verts) :
    (g.add_vertex v).verts = g.verts ++ [v] ∧
    (∀ x y, (g.add_vertex v).value x y =
      if (y = v ∧ x ∈ g.verts ++ [v]) ∨ (x = v ∧ y ∈ g.verts ++ [v]) then PyVal.none
      else g.value x y) ∧
    (∀ x y, (g.add_vertex v).dist x y =
      if x = v ∧ y = v then 0
      else if (y = v ∧ x ∈ g.verts ++ [v]) ∨ (x = v ∧ y ∈ g.verts ++ [v]) then MAXINT
      else g.dist x y) := by
  unfold PyGraph.add_vertex
  rw [if_neg hv]
  refine ⟨rfl, fun x y => foldl_symmSet_char v PyVal.none _ g.value x y, fun x y => ?_⟩
  show symmSet _ v v 0 x y = _
  unfold symmSet
  by_cases hd : x = v ∧ y = v
  · rw [if_pos (Or.inl hd), if_pos hd]
  · rw [if_neg (by tauto), if_neg hd]
    exact foldl_symmSet_char v MAXINT _ g.dist x y

theorem adjP_add_vertex {g : PyGraph V} {v : V} (hv : v ∉ g.verts)
    (hmem : ∀ x y, (g.value x y).truthy → x ∈ g.verts ∧ y ∈ g.verts ∧ x ≠ y) :
    ∀ x y, adjP (g.add_vertex v) x y ↔ adjP g x y := by
  obtain ⟨hverts, hval, _⟩ := add_vertex_new hv
  intro x y
  unfold adjP
  rw [hverts, hval]
  constructor
  · rintro ⟨hx, hy, htr⟩
    split at htr
    · simp [PyVal.truthy] at htr
    · next hcond =>
      have hxv : x ≠ v := by
        intro hxx
        exact hcond (Or.inr ⟨hxx, hy⟩)
      have hyv : y ≠ v := by
        intro hyy
        exact hcond (Or.inl ⟨hyy, hx⟩)
      refine ⟨?_, ?_, htr⟩
      · rcases List.mem_append.mp hx with h | h
        · exact h
        · exact absurd (List.mem_singleton.mp h) hxv
      · rcases List.mem_append.mp hy with h | h
        · exact h
        · exact absurd (List.mem_singleton.mp h) hyv
  · rintro ⟨hx, hy, htr⟩
    refine ⟨List.mem_append.mpr (Or.inl hx), List.mem_append.mpr (Or.inl hy), ?_⟩
    rw [if_neg ?_]
    · exact htr
    · intro hc
      rcases hc with ⟨h1, _⟩ | ⟨h1, _⟩
      · exact hv (h1 ▸ hy)
      · exact hv (h1 ▸ hx)

theorem walkN_first_step {g : PyGraph V} :
    ∀ {n : Nat} {a b : V}, WalkN g (n + 1) a b → ∃ w, adjP g a w := by
  intro n
  induction n with
  | zero =>
    intro a b h
    cases h with
    | snoc hw ha =>
      cases hw
      exact ⟨_, ha⟩
  | succ n ih =>
    intro a b h
    cases h with
    | snoc hw ha => exact ih hw

theorem GInv_add (g : PyGraph V) (v : V) (h : GInv g)
    (hlen2 : (g.add_vertex v).verts.length ≤ MAXINT) : GInv (g.add_vertex v) := by
  by_cases hv : v ∈ g.verts
  · have : g.add_vertex v = g := by unfold PyGraph.add_vertex; rw [if_pos hv]
    rw [this]
    exact h
  · obtain ⟨hverts, hval, hdst⟩ := add_vertex_new hv
    have hadj := adjP_add_vertex hv h.valmem
    have hnov : ∀ x, ¬adjP (g.add_vertex v) v x := by
      intro x hx
      exact hv ((hadj v x).mp hx).1
    have hnov2 : ∀ x, ¬adjP (g.add_vertex v) x v := by
      intro x hx
      exact hv ((hadj x v).mp hx).2.1
    refine ⟨?_, hlen2, ?_, ?_, ?_, ?_⟩
    · rw [hverts]
      exact List.Nodup.append h.nodup (List.nodup_singleton v)
        (by simpa using fun hvv => hv hvv)
    · intro x y
      rw [hval, hval]
      by_cases hc : (y = v ∧ x ∈ g.verts ++ [v]) ∨ (x = v ∧ y ∈ g.verts ++ [v])
      · rw [if_pos hc, if_pos (by tauto)]
      · rw [if_neg hc, if_neg (by tauto)]
        exact h.valsym x y
    · intro x y htr
      rw [hval] at htr
      rw [hverts]
      split at htr
      · simp [PyVal.truthy] at htr
      · next hcond =>
        obtain ⟨hx, hy, hne⟩ := h.valmem x y htr
        exact ⟨List.mem_append.mpr (Or.inl hx), List.mem_append.mpr (Or.inl hy), hne⟩
    · intro x y
      rw [hdst x y, hdst y x]
      by_cases hd : x = v ∧ y = v
      · rw [if_pos hd, if_pos (show y = v ∧ x = v from ⟨hd.2, hd.1⟩)]
      · rw [if_neg hd, if_neg (show ¬(y = v ∧ x = v) from fun hcc => hd ⟨hcc.2, hcc.1⟩)]
        by_cases hc : (y = v ∧ x ∈ g.verts ++ [v]) ∨ (x = v ∧ y ∈ g.verts ++ [v])
        · rw [if_pos hc, if_pos (show (x = v ∧ y ∈ g.verts ++ [v]) ∨
            (y = v ∧ x ∈ g.verts ++ [v]) from hc.symm)]
        · rw [if_neg hc, if_neg (show ¬((x = v ∧ y ∈ g.verts ++ [v]) ∨
            (y = v ∧ x ∈ g.verts ++ [v])) from fun hcc => hc hcc.symm)]
          exact h.dsym x y
    · intro a ha b hb
      rw [hverts] at ha hb
      have hhop : ∀ p q, p ∈ g.verts → q ∈ g.verts →
          hopDist (g.add_vertex v) p q = hopDist g p q := by
        intro p q _ _
        exact hopDist_eq_of_adj_iff hadj p q
      rcases List.mem_append.mp ha with hav | hav
      · rcases List.mem_append.mp hb with hbv | hbv
        · rw [hdst, if_neg (by rintro ⟨rfl, _⟩; exact hv hav),
            if_neg (by rintro (⟨rfl, _⟩ | ⟨rfl, _⟩); exacts [hv hbv, hv hav]),
            h.deq a hav b hbv, hhop a b hav hbv]
        · have hbv2 : b = v := List.mem_singleton.mp hbv
          subst hbv2
          have hne : a ≠ b := fun hab => hv (hab ▸ hav)
          rw [hdst, if_neg (by rintro ⟨rfl, _⟩; exact hv hav),
            if_pos (Or.inl ⟨rfl, List.mem_append.mpr (Or.inl hav)⟩)]
          refine (hopDist_eq_MAXINT ?_).symm
          rintro ⟨n, hw⟩
          cases n with
          | zero => cases hw; exact hv hav
          | succ n =>
            cases hw with
            | snoc hsub hstep => exact hnov2 _ hstep
      · have hav2 : a = v := List.mem_singleton.mp hav
        subst hav2
        rcases List.mem_append.mp hb with hbv | hbv
        · rw [hdst, if_neg (show ¬(a = a ∧ b = a) from fun hcc => hv (hcc.2 ▸ hbv)),
            if_pos (Or.inr ⟨rfl, List.mem_append.mpr (Or.inl hbv)⟩)]
          refine (hopDist_eq_MAXINT ?_).symm
          rintro ⟨n, hw⟩
          cases n with
          | zero => cases hw; exact hv hbv
          | succ n =>
            obtain ⟨w, hww⟩ := walkN_first_step hw
            exact hnov w hww
        · have hbv2 : b = a := List.mem_singleton.mp hbv
          subst hbv2
          rw [hdst, if_pos ⟨rfl, rfl⟩, hopDist_self]

theorem symmSet_symm {α : Type} {f : V → V → α} (hf : ∀ x y, f x y = f y x)
    (u v : V) (a : α) : ∀ x y, symmSet f u v a x y = symmSet f u v a y x := by
  intro x y
  unfold symmSet
  by_cases hc : (x = u ∧ y = v) ∨ (x = v ∧ y = u)
  · rw [if_pos hc, if_pos (show (y = u ∧ x = v) ∨ (y = v ∧ x = u) from hc.symm.imp
      (fun hh => ⟨hh.2, hh.1⟩) (fun hh => ⟨hh.2, hh.1⟩))]
  · rw [if_neg hc, if_neg (show ¬((y = u ∧ x = v) ∨ (y = v ∧ x = u)) from
      fun hh => hc (hh.symm.imp (fun p => ⟨p.2, p.1⟩) (fun p => ⟨p.2, p.1⟩)))]
    exact hf x y

theorem set_edge_value_truthy_unfold {g : PyGraph V} {v1 v2 : V} {w : PyVal}
    (ht : w.truthy = true) :
    g.set_edge_value (v1, v2) w true =
      (PyGraph.mk g.verts (symmSet g.value v1 v2 w)
        (symmSet g.dist v1 v2 1)).update_distances := by
  simp only [PyGraph.set_edge_value, PyGraph.set_distance, ht, if_true]

theorem hopDist_update_distances (g : PyGraph V) (a b : V) :
    hopDist g.update_distances a b = hopDist g a b := by
  apply hopDist_eq_of_adj_iff
  intro x y
  constructor
  · rintro ⟨hx, hy, ht⟩
    exact ⟨hx, hy, ht⟩
  · rintro ⟨hx, hy, ht⟩
    exact ⟨hx, hy, ht⟩

theorem GInv_set (g : PyGraph V) (v1 v2 : V) (w : PyVal) (h : GInv g)
    (h1 : v1 ∈ g.verts) (h2 : v2 ∈ g.verts) (hne : v1 ≠ v2) (ht : w.truthy = true) :
    GInv (g.set_edge_value (v1, v2) w true) := by
  rw [set_edge_value_truthy_unfold ht]
  set g2 : PyGraph V := PyGraph.mk g.verts (symmSet g.value v1 v2 w)
    (symmSet g.dist v1 v2 1) with hg2
  have hvsym2 : ∀ x y, g2.value x y = g2.value y x := symmSet_symm h.valsym v1 v2 w
  have hdsym2 : SymD g2.dist := symmSet_symm h.dsym v1 v2 1
  have hvalchar : ∀ x y, ¬((x = v1 ∧ y = v2) ∨ (x = v2 ∧ y = v1)) →
      g2.value x y = g.value x y := by
    intro x y hc
    show symmSet g.value v1 v2 w x y = g.value x y
    unfold symmSet
    rw [if_neg hc]
  have hvalw : ∀ x y, ((x = v1 ∧ y = v2) ∨ (x = v2 ∧ y = v1)) → g2.value x y = w := by
    intro x y hc
    show symmSet g.value v1 v2 w x y = w
    unfold symmSet
    rw [if_pos hc]
  have hdchar : ∀ x y, ¬((x = v1 ∧ y = v2) ∨ (x = v2 ∧ y = v1)) →
      g2.dist x y = g.dist x y := by
    intro x y hc
    show symmSet g.dist v1 v2 1 x y = g.dist x y
    unfold symmSet
    rw [if_neg hc]
  have hdw : ∀ x y, ((x = v1 ∧ y = v2) ∨ (x = v2 ∧ y = v1)) → g2.dist x y = 1 := by
    intro x y hc
    show symmSet g.dist v1 v2 1 x y = 1
    unfold symmSet
    rw [if_pos hc]
  have hadjmono : ∀ x y, adjP g x y → adjP g2 x y := by
    rintro x y ⟨hx, hy, htr⟩
    refine ⟨hx, hy, ?_⟩
    by_cases hc : (x = v1 ∧ y = v2) ∨ (x = v2 ∧ y = v1)
    · rw [hvalw x y hc]; exact ht
    · rw [hvalchar x y hc]; exact htr
  have hadjw : adjP g2 v1 v2 ∧ adjP g2 v2 v1 := by
    constructor
    · exact ⟨h1, h2, by rw [hvalw v1 v2 (Or.inl ⟨rfl, rfl⟩)]; exact ht⟩
    · exact ⟨h2, h1, by rw [hvalw v2 v1 (Or.inr ⟨rfl, rfl⟩)]; exact ht⟩
  have hlb : LBP g2 g2.verts g2.dist := by
    intro a ha b hb
    by_cases hwcell : (a = v1 ∧ b = v2) ∨ (a = v2 ∧ b = v1)
    · have hadj2 : adjP g2 a b := by
        rcases hwcell with ⟨rfl, rfl⟩ | ⟨rfl, rfl⟩
        · exact hadjw.1
        · exact hadjw.2
      rw [hdw a b hwcell]
      constructor
      · intro _
        exact hopDist_le_of_walkN (WalkN.snoc (WalkN.nil a) hadj2)
      · intro hnr
        exact absurd ⟨1, WalkN.snoc (WalkN.nil a) hadj2⟩ hnr
    · rw [hdchar a b hwcell, h.deq a ha b hb]
      constructor
      · intro _
        exact hopDist_mono (show g2.verts.length ≤ MAXINT from h.hlen) hadjmono a b
      · intro hnr
        have hng : ¬Reach g a b := fun hr =>
          hnr (hr.elim fun n hw => ⟨n, walkN_mono hadjmono hw⟩)
        rw [hopDist_eq_MAXINT hng]
  have hub : ∀ a ∈ g2.verts, ∀ b ∈ g2.verts, g2.dist a b ≤ baseF g2 a b := by
    intro a ha b hb
    by_cases hab : a = b
    · subst hab
      have hcell : g2.dist a a = g.dist a a := hdchar a a (by
        rintro (⟨rfl, rfl⟩ | ⟨rfl, rfl⟩) <;> exact hne rfl)
      rw [hcell, h.deq a ha a ha, hopDist_self]
      simp [baseF]
    · by_cases hwcell : (a = v1 ∧ b = v2) ∨ (a = v2 ∧ b = v1)
      · have hadj2 : adjP g2 a b := by
          rcases hwcell with ⟨rfl, rfl⟩ | ⟨rfl, rfl⟩
          · exact hadjw.1
          · exact hadjw.2
        rw [hdw a b hwcell]
        unfold baseF
        rw [if_neg hab, if_pos hadj2]
      · rw [hdchar a b hwcell, h.deq a ha b hb]
        by_cases hadj2 : adjP g2 a b
        · have hadjg : adjP g a b := by
            refine ⟨hadj2.1, hadj2.2.1, ?_⟩
            have := hadj2.2.2
            rw [hvalchar a b hwcell] at this
            exact this
          have hle1 : hopDist g a b ≤ 1 :=
            hopDist_le_of_walkN (WalkN.snoc (WalkN.nil a) hadjg)
          unfold baseF
          rw [if_neg hab, if_pos hadj2]
          exact hle1
        · unfold baseF
          rw [if_neg hab, if_neg hadj2]
          exact hopDist_le_MAXINT h.hlen a b
  refine ⟨h.nodup, h.hlen, hvsym2, ?_, (update_distances_sym_le g2 hdsym2).1, ?_⟩
  · intro x y htr
    have htr2 : (g2.value x y).truthy = true := htr
    by_cases hc : (x = v1 ∧ y = v2) ∨ (x = v2 ∧ y = v1)
    · rcases hc with ⟨rfl, rfl⟩ | ⟨rfl, rfl⟩
      · exact ⟨h1, h2, hne⟩
      · exact ⟨h2, h1, fun hh => hne hh.symm⟩
    · rw [hvalchar x y hc] at htr2
      exact h.valmem x y htr2
  · intro a ha b hb
    have hgoal := update_distances_correct g2 h.nodup h.hlen hdsym2 hlb hub a ha b hb
    rw [hopDist_update_distances]
    exact hgoal

theorem add_vertex_length (g : PyGraph V) (v : V) :
    (g.add_vertex v).verts.length ≤ g.verts.length + 1 := by
  unfold PyGraph.add_vertex
  split
  · omega
  · simp

theorem runOps_GInv : ∀ (ops : List (GOp V)) (g : PyGraph V), GInv g →
    g.verts.length + ops.length ≤ MAXINT → goodOps g ops → GInv (runOps g ops) := by
  intro ops
  induction ops with
  | nil => exact fun g h _ _ => h
  | cons op rest ih =>
    intro g hg hlen hok
    obtain ⟨hop, hrest⟩ := hok
    show GInv (runOps (runOp g op) rest)
    cases op with
    | addV v =>
      have hal := add_vertex_length g v
      have hgi := GInv_add g v hg (by simp only [List.length_cons] at hlen; omega)
      exact ih (g.add_vertex v) hgi (by simp only [List.length_cons] at hlen; omega) hrest
    | setE v1 v2 w =>
      obtain ⟨hm1, hm2, hne, ht⟩ := hop
      have hgi := GInv_set g v1 v2 w hg hm1 hm2 hne ht
      have hv : (g.set_edge_value (v1, v2) w true).verts = g.verts :=
        set_edge_value_verts g (v1, v2) w true
      refine ih _ hgi ?_ hrest
      rw [show (runOp g (GOp.setE v1 v2 w)) = g.set_edge_value (v1, v2) w true from rfl, hv]
      simp only [List.length_cons] at hlen
      omega
    | remV v => exact hop.elim

theorem GInv_empty : GInv (PyGraph.mkGraph [] : PyGraph V) := by
  refine ⟨List.nodup_nil, ?_, fun _ _ => rfl, ?_, fun _ _ => rfl, ?_⟩
  · show (0 : Nat) ≤ MAXINT
    exact Nat.zero_le _
  · intro x y htr
    simp [PyGraph.mkGraph, PyVal.truthy] at htr
  · intro a ha
    simp [PyGraph.mkGraph] at ha

/-- C2 (amended): after any sequence of `add_vertex` calls and
`set_edge_value` writes of truthy values on pairs of distinct existing
vertices (with recompute enabled, and at most `sys.maxint` operations), the
stored distance matrix equals the true all-pairs shortest hop count of the
graph whose edges are the truthy pairs — 0 on the diagonal, the `sys.maxint`
sentinel for unreachable pairs.  Overwriting an edge with a falsy value (see
the counterexample theorem) or removing a vertex leaves stale distances, so
those mutations are excluded. -/
theorem graph_distance_invariant {V : Type} [DecidableEq V] (ops : List (GOp V))
    (hlen : ops.length ≤ MAXINT) (hok : goodOps (PyGraph.mkGraph []) ops) :
    ∀ a ∈ (runOps (PyGraph.mkGraph [] : PyGraph V) ops).verts,
      ∀ b ∈ (runOps (PyGraph.mkGraph [] : PyGraph V) ops).verts,
        (runOps (PyGraph.mkGraph [] : PyGraph V) ops).dist a b =
          hopDist (runOps (PyGraph.mkGraph [] : PyGraph V) ops) a b :=
  (runOps_GInv ops (PyGraph.mkGraph []) GInv_empty
    (by show 0 + ops.length ≤ MAXINT; omega) hok).deq

/-- The mutation sequence of the C2 counterexample: build an edge 0-1, then
overwrite it with `None`. -/
def c2ops : List (GOp Nat) :=
  [GOp.addV 0, GOp.addV 1, GOp.setE 0 1 (PyVal.pyint 1), GOp.setE 0 1 PyVal.none]

/-- C2 counterexample: after overwriting edge (0,1) with the falsy `None`
(recompute enabled), the stored distance is still 1 while the true hop count
is the unreachable sentinel — `set_edge_value` skips all distance work for
falsy values and Floyd-Warshall never increases an entry. -/
theorem set_edge_falsy_stale_distance :
    (runOps (PyGraph.mkGraph [] : PyGraph Nat) c2ops).dist 0 1 = 1 ∧
    hopDist (runOps (PyGraph.mkGraph [] : PyGraph Nat) c2ops) 0 1 = MAXINT ∧
    (runOps (PyGraph.mkGraph [] : PyGraph Nat) c2ops).dist 0 1 ≠
      hopDist (runOps (PyGraph.mkGraph [] : PyGraph Nat) c2ops) 0 1 := by
  refine ⟨by decide, by decide, by decide⟩

/-- The mutation sequence of the C2 witness: a path graph 0-1-2. -/
def c2wops : List (GOp Nat) :=
  [GOp.addV 0, GOp.addV 1, GOp.addV 2,
   GOp.setE 0 1 (PyVal.pystr ['1']), GOp.setE 1 2 (PyVal.pystr ['1'])]

/-- Closed witness for `graph_distance_invariant` on the path 0-1-2: the
stored distance of the non-adjacent pair (0,2) is its true hop count 2. -/
theorem graph_distance_invariant_witness :
    goodOps (PyGraph.mkGraph [] : PyGraph Nat) c2wops ∧
    (runOps (PyGraph.mkGraph [] : PyGraph Nat) c2wops).dist 0 2 =
      hopDist (runOps (PyGraph.mkGraph [] : PyGraph Nat) c2wops) 0 2 :=
  ⟨by decide, graph_distance_invariant c2wops (by decide) (by decide) 0 (by decide)
    2 (by decide)⟩

end Ops

/-! ### Claim C1: incremental conflict-graph update -/

section ConflictUpdate

variable {V : Type} [DecidableEq V]

theorem rowfold_value_preserved (v : V × V) (μ : (V × V) → PyVal) :
    ∀ (l : List (V × V)) (h : PyGraph (V × V)) (x y : V × V),
      (∀ v2 ∈ l, ¬((x = v ∧ y = v2) ∨ (x = v2 ∧ y = v))) →
      (l.foldl (fun h v2 => h.set_edge_value (v, v2) (μ v2) false) h).value x y =
        h.value x y := by
  intro l
  induction l with
  | nil => intro h x y _; rfl
  | cons v2 rest ih =>
    intro h x y hc
    rw [List.foldl_cons, ih _ x y (fun v2' hv2 => hc v2' (List.mem_cons_of_mem v2 hv2)),
      set_edge_value_value]
    unfold symmSet
    rw [if_neg (hc v2 (List.mem_cons_self v2 rest))]

theorem rowfold_value_mem (v : V × V) (μ : (V × V) → PyVal) :
    ∀ (l : List (V × V)) (h : PyGraph (V × V)), ∀ b ∈ l,
      (l.foldl (fun h v2 => h.set_edge_value (v, v2) (μ v2) false) h).value v b = μ b ∧
      (l.foldl (fun h v2 => h.set_edge_value (v, v2) (μ v2) false) h).value b v = μ b := by
  intro l
  induction l with
  | nil => intro h b hb; simp at hb
  | cons v2 rest ih =>
    intro h b hb
    by_cases hbr : b ∈ rest
    · exact ih _ b hbr
    · have hbv2 : b = v2 := by
        rcases List.mem_cons.mp hb with h1 | h1
        · exact h1
        · exact absurd h1 hbr
      subst hbv2
      rw [List.foldl_cons]
      constructor
      · rw [rowfold_value_preserved v μ rest _ v b ?_, set_edge_value_value]
        · unfold symmSet
          rw [if_pos (Or.inl ⟨rfl, rfl⟩)]
        · intro v2' hv2'
          rintro (⟨_, rfl⟩ | ⟨rfl, rfl⟩)
          · exact hbr hv2'
          · exact hbr hv2'
      · rw [rowfold_value_preserved v μ rest _ b v ?_, set_edge_value_value]
        · unfold symmSet
          rw [if_pos (Or.inr ⟨rfl, rfl⟩)]
        · intro v2' hv2'
          rintro (⟨rfl, rfl⟩ | ⟨rfl, _⟩)
          · exact hbr hv2'
          · exact hbr hv2'

theorem updateEdgesAux_protect (m : IModel V) (net : PyGraph V) :
    ∀ (v1s rem : List (V × V)) (h : PyGraph (V × V)) (x : V × V),
      (∀ a ∈ v1s, a ≠ x) → x ∉ rem →
      ∀ y, (updateEdgesAux m net v1s rem h).value x y = h.value x y ∧
        (updateEdgesAux m net v1s rem h).value y x = h.value y x := by
  intro v1s
  induction v1s with
  | nil => intro rem h x _ _ y; exact ⟨rfl, rfl⟩
  | cons v1 rest ih =>
    intro rem h x hne hxr y
    have hv1x : v1 ≠ x := hne v1 (List.mem_cons_self v1 rest)
    have hrec := ih (rem.erase v1)
      (rem.foldl (fun hh v2 => hh.set_edge_value (v1, v2) (m net v1 v2) false) h) x
      (fun a ha => hne a (List.mem_cons_of_mem v1 ha))
      (fun hmem => hxr (List.mem_of_mem_erase hmem)) y
    have hun : updateEdgesAux m net (v1 :: rest) rem h = updateEdgesAux m net rest (rem.erase v1)
      (rem.foldl (fun hh v2 => hh.set_edge_value (v1, v2) (m net v1 v2) false) h) := rfl
    rw [hun, hrec.1, hrec.2]
    constructor
    · rw [rowfold_value_preserved v1 (m net v1) rem h x y ?_]
      intro v2 hv2
      rintro (⟨rfl, _⟩ | ⟨rfl, _⟩)
      · exact hv1x rfl
      · exact hxr hv2
    · rw [rowfold_value_preserved v1 (m net v1) rem h y x ?_]
      intro v2 hv2
      rintro (⟨_, rfl⟩ | ⟨_, rfl⟩)
      · exact hxr hv2
      · exact hv1x rfl

theorem updateEdgesAux_char (m : IModel V) (net : PyGraph V)
    (hm : ∀ e f, m net e f = m net f e) :
    ∀ (v1s rem : List (V × V)) (h : PyGraph (V × V)), v1s.Nodup → rem.Nodup →
      (∀ x ∈ v1s, x ∈ rem) →
      ∀ a ∈ v1s, ∀ b ∈ rem,
        (updateEdgesAux m net v1s rem h).value a b = m net a b ∧
        (updateEdgesAux m net v1s rem h).value b a = m net b a := by
  intro v1s
  induction v1s with
  | nil => intro rem h _ _ _ a ha; simp at ha
  | cons v1 rest ih =>
    intro rem h hnd hndr hsub a ha b hb
    have hnd2 := List.nodup_cons.mp hnd
    rcases List.mem_cons.mp ha with rfl | ha2
    · have hrow := rowfold_value_mem a (m net a) rem h b hb
      have hprot := updateEdgesAux_protect m net rest (rem.erase a)
        (rem.foldl (fun hh v2 => hh.set_edge_value (a, v2) (m net a v2) false) h) a
        (fun x hx hxa => hnd2.1 (hxa ▸ hx)) (hndr.not_mem_erase) b
      have hun : updateEdgesAux m net (a :: rest) rem h = updateEdgesAux m net rest (rem.erase a)
        (rem.foldl (fun hh v2 => hh.set_edge_value (a, v2) (m net a v2) false) h) := rfl
      rw [hun, hprot.1, hprot.2, hrow.1, hrow.2]
      exact ⟨rfl, hm a b⟩
    · by_cases hbv : b = v1
      · subst hbv
        have hrow := rowfold_value_mem b (m net b) rem h a
          (hsub a (List.mem_cons_of_mem b ha2))
        have hprot := updateEdgesAux_protect m net rest (rem.erase b)
          (rem.foldl (fun hh v2 => hh.set_edge_value (b, v2) (m net b v2) false) h) b
          (fun x hx hxb => hnd2.1 (hxb ▸ hx)) (hndr.not_mem_erase) a
        have hun : updateEdgesAux m net (b :: rest) rem h =
          updateEdgesAux m net rest (rem.erase b)
            (rem.foldl (fun hh v2 => hh.set_edge_value (b, v2) (m net b v2) false) h) := rfl
        rw [hun, hprot.2, hprot.1, hrow.1, hrow.2]
        exact ⟨hm b a, rfl⟩
      · refine ih (rem.erase v1) _ hnd2.2 (hndr.erase v1) ?_ a ha2 b
          ((List.mem_erase_of_ne hbv).mpr hb)
        intro x hx
        exact (List.mem_erase_of_ne
          (fun hxv : x = v1 => hnd2.1 (show v1 ∈ rest from hxv ▸ hx))).mpr
          (hsub x (List.mem_cons_of_mem v1 hx))

theorem update_edges_value (m : IModel V) (cg : CGraph V)
    (hm : ∀ e f, m cg.network_graph e f = m cg.network_graph f e)
    (hnd : cg.graph.verts.Nodup) :
    ∀ a ∈ cg.graph.verts, ∀ b ∈ cg.graph.verts,
      (cg.update_edges m).graph.value a b = m cg.network_graph a b := by
  intro a ha b hb
  exact (updateEdgesAux_char m cg.network_graph hm cg.graph.verts cg.graph.verts
    cg.graph hnd hnd (fun x hx => hx) a ha b hb).1

theorem intToPyStr_truthy (c : Int) : (PyVal.pystr (intToPyStr c)).truthy = true := by
  have h : intToPyStr c ≠ [] := by
    unfold intToPyStr
    split
    · simp
    · exact natDigits_ne_nil _
  simp [PyVal.truthy, h]

/-- C1 (amended): `set_channel(c)` on a conflict-graph vertex `v` produces the
same weights as a full `update_edges()` on the post-change network graph,
for every pair of conflict-graph vertices — provided the interference model
is (i) symmetric in its two edge arguments and (ii) local: it reads only the
vertex list, the two argument edges' stored value cells, and the distances
between existing vertices (all three repo models are of this shape). Further
the network graph must be in a reachable consistent state (`GInv`), the
changed vertex must wrap a currently truthy link, no other conflict vertex
may wrap the same unordered link, and the current weights must satisfy the
conflict-graph invariant. Without locality the claim is false
(`set_channel_nonlocal_model_differs`): `update_edge` recomputes only pairs
touching `v`, so a weight that depends on a third link's value goes stale. -/
theorem update_edge_matches_update_edges (m : IModel V) (cg : CGraph V) (v : V × V)
    (c : Int)
    (hm : ∀ (g : PyGraph V) (e f : V × V), m g e f = m g f e)
    (hlocal : ∀ (g g2 : PyGraph V) (e f : V × V), g.verts = g2.verts →
      g.value e.1 e.2 = g2.value e.1 e.2 → g.value e.2 e.1 = g2.value e.2 e.1 →
      g.value f.1 f.2 = g2.value f.1 f.2 → g.value f.2 f.1 = g2.value f.2 f.1 →
      (∀ x ∈ g.verts, ∀ y ∈ g.verts, g.dist x y = g2.dist x y) →
      m g e f = m g2 e f)
    (hnd : cg.graph.verts.Nodup)
    (hnet : GInv cg.network_graph)
    (htruthy : (cg.network_graph.value v.1 v.2).truthy = true)
    (hdistinct : ∀ a ∈ cg.graph.verts, a ≠ v → a ≠ (v.2, v.1))
    (hw : ∀ a ∈ cg.graph.verts, ∀ b ∈ cg.graph.verts,
      cg.graph.value a b = m cg.network_graph a b) :
    ∀ a ∈ cg.graph.verts, ∀ b ∈ cg.graph.verts,
      (CGraph.set_channel m cg v c).graph.value a b =
      (CGraph.update_edges m { cg with network_graph :=
          cg.network_graph.set_edge_value v (PyVal.pystr (intToPyStr c)) true
        }).graph.value a b := by
  intro a ha b hb
  obtain ⟨hv1, hv2, hvne⟩ := hnet.valmem v.1 v.2 htruthy
  set net : PyGraph V := cg.network_graph with hnetdef
  set w : PyVal := PyVal.pystr (intToPyStr c) with hwdef
  set net2 : PyGraph V := net.set_edge_value v w true with hnet2
  have hG2 : GInv net2 :=
    GInv_set net v.1 v.2 w hnet hv1 hv2 hvne (intToPyStr_truthy c)
  have hverts2 : net2.verts = net.verts := set_edge_value_verts net v w true
  have hval2 : net2.value = symmSet net.value v.1 v.2 w := set_edge_value_value net v w true
  have hadj : ∀ x y, adjP net x y ↔ adjP net2 x y := by
    intro x y
    unfold adjP
    rw [hverts2]
    by_cases hc : (x = v.1 ∧ y = v.2) ∨ (x = v.2 ∧ y = v.1)
    · have h1 : (net2.value x y).truthy = true := by
        rw [hval2]
        unfold symmSet
        rw [if_pos hc]
        exact intToPyStr_truthy c
      have h2 : (net.value x y).truthy = true := by
        rcases hc with ⟨rfl, rfl⟩ | ⟨rfl, rfl⟩
        · exact htruthy
        · rw [hnet.valsym]
          exact htruthy
      simp [h1, h2]
    · have heq : net2.value x y = net.value x y := by
        rw [hval2]
        unfold symmSet
        rw [if_neg hc]
      rw [heq]
  have hdist : ∀ x ∈ net.verts, ∀ y ∈ net.verts, net.dist x y = net2.dist x y := by
    intro x hx y hy
    rw [hnet.deq x hx y hy,
      hG2.deq x (by rw [hverts2]; exact hx) y (by rw [hverts2]; exact hy)]
    exact hopDist_eq_of_adj_iff hadj x y
  have hcell : ∀ p q : V, ¬((p = v.1 ∧ q = v.2) ∨ (p = v.2 ∧ q = v.1)) →
      net.value p q = net2.value p q := by
    intro p q hc
    rw [hval2]
    unfold symmSet
    rw [if_neg hc]
  have hrhs : (CGraph.update_edges m { cg with network_graph := net2 }).graph.value a b =
      m net2 a b :=
    update_edges_value m { cg with network_graph := net2 }
      (fun e f => hm net2 e f) hnd a ha b hb
  have hlhs : (CGraph.set_channel m cg v c).graph =
      cg.graph.verts.foldl
        (fun h v2 => h.set_edge_value (v, v2) (m net2 v v2) false) cg.graph := rfl
  rw [hrhs, hlhs]
  by_cases hav : a = v
  · subst hav
    exact (rowfold_value_mem a (fun v2 => m net2 a v2) cg.graph.verts cg.graph b hb).1
  · by_cases hbv : b = v
    · subst hbv
      rw [(rowfold_value_mem b (fun v2 => m net2 b v2) cg.graph.verts cg.graph a ha).2]
      exact hm net2 b a
    · have hpres : (cg.graph.verts.foldl
          (fun h v2 => h.set_edge_value (v, v2) (m net2 v v2) false) cg.graph).value a b =
          cg.graph.value a b := by
        refine rowfold_value_preserved v (fun v2 => m net2 v v2) cg.graph.verts cg.graph a b ?_
        intro v2 hv2
        rintro (⟨h1, _⟩ | ⟨_, h2⟩)
        · exact hav h1
        · exact hbv h2
      rw [hpres, hw a ha b hb]
      have haswap : a ≠ (v.2, v.1) := hdistinct a ha hav
      have hbswap : b ≠ (v.2, v.1) := hdistinct b hb hbv
      refine hlocal net net2 a b hverts2.symm ?_ ?_ ?_ ?_ hdist
      · refine hcell a.1 a.2 ?_
        rintro (⟨h1, h2⟩ | ⟨h1, h2⟩)
        · exact hav (Prod.ext_iff.mpr ⟨h1, h2⟩)
        · exact haswap (Prod.ext_iff.mpr ⟨h1, h2⟩)
      · refine hcell a.2 a.1 ?_
        rintro (⟨h1, h2⟩ | ⟨h1, h2⟩)
        · exact haswap (Prod.ext_iff.mpr ⟨h2, h1⟩)
        · exact hav (Prod.ext_iff.mpr ⟨h2, h1⟩)
      · refine hcell b.1 b.2 ?_
        rintro (⟨h1, h2⟩ | ⟨h1, h2⟩)
        · exact hbv (Prod.ext_iff.mpr ⟨h1, h2⟩)
        · exact hbswap (Prod.ext_iff.mpr ⟨h1, h2⟩)
      · refine hcell b.2 b.1 ?_
        rintro (⟨h1, h2⟩ | ⟨h1, h2⟩)
        · exact hbswap (Prod.ext_iff.mpr ⟨h2, h1⟩)
        · exact hbv (Prod.ext_iff.mpr ⟨h2, h1⟩)

/-- The unordered edges of the path 0 - 1 - 2 - 3 (both orientations). -/
def c1edges : List (Nat × Nat) := [(0,1),(1,0),(1,2),(2,1),(2,3),(3,2)]

/-- A consistent network graph: the path 0 - 1 - 2 - 3 with every link on
channel "5" and the correct hop-count distance matrix. -/
def c1net : PyGraph Nat :=
  { verts := [0, 1, 2, 3]
  , value := fun x y => if (x, y) ∈ c1edges then PyVal.pystr ['5'] else PyVal.none
  , dist := fun x y =>
      if x = y then 0
      else if (x, y) ∈ c1edges then 1
      else if (x, y) ∈ [(0,2),(2,0),(1,3),(3,1)] then 2
      else if (x, y) ∈ [(0,3),(3,0)] then 3
      else MAXINT }

/-- An interference model that is a function of the graph and the two edges,
but not a local one: it reads the stored value of the fixed third link
(1,2) rather than only its two arguments. -/
def c1m : IModel Nat := fun g _ _ => g.value 1 2

/-- The conflict graph over `c1net`: one vertex per link, every weight equal
to the model value `c1net.value 1 2 = "5"`, so the conflict-graph invariant
holds before the channel change. -/
def c1cg : CGraph Nat :=
  { network_graph := c1net
  , graph :=
    { verts := [(0,1),(1,2),(2,3)]
    , value := fun _ _ => PyVal.pystr ['5']
    , dist := fun _ _ => 1 } }

/-- The post-change network graph: link (1,2) rewritten to `str(7)`. -/
def c1net2 : PyGraph Nat :=
  c1net.set_edge_value (1, 2) (PyVal.pystr (intToPyStr 7)) true

/-- The conflict graph with the post-change network installed (the state on
which the full `update_edges()` of the claim runs). -/
def c1cg2 : CGraph Nat := { c1cg with network_graph := c1net2 }

/-- C1, counterexample to the literal claim: for an arbitrary interference
model the weights after `set_channel` do **not** match a full
`update_edges()` on the post-change network graph. Starting from a state
satisfying the conflict-graph invariant (first conjunct) and the network
distance invariant (second conjunct), `set_channel` on vertex (1,2) only
recomputes pairs touching (1,2): the weight of the pair (0,1)-(2,3) keeps
the stale value "5", while `update_edges()` on the same post-change network
recomputes it to "7". The claim quantifies over *every* interference model;
it fails for any model that is not local in its two edge arguments. -/
theorem set_channel_nonlocal_model_differs :
    (∀ a ∈ c1cg.graph.verts, ∀ b ∈ c1cg.graph.verts,
      c1cg.graph.value a b = c1m c1cg.network_graph a b) ∧
    (∀ a ∈ c1net.verts, ∀ b ∈ c1net.verts, c1net.dist a b = hopDist c1net a b) ∧
    (CGraph.set_channel c1m c1cg (1, 2) 7).graph.value (0, 1) (2, 3) =
      PyVal.pystr ['5'] ∧
    (CGraph.update_edges c1m c1cg2).graph.value (0, 1) (2, 3) = PyVal.pystr ['7'] ∧
    (CGraph.set_channel c1m c1cg (1, 2) 7).graph.value (0, 1) (2, 3) ≠
      (CGraph.update_edges c1m c1cg2).graph.value (0, 1) (2, 3) := by
  have h7 : intToPyStr 7 = ['7'] := by simp [intToPyStr, natDigits]
  have hpv : PyVal.pystr (intToPyStr 7) = PyVal.pystr ['7'] := by rw [h7]
  have hs : CGraph.set_channel c1m c1cg (1, 2) 7 =
      CGraph.update_edge c1m { c1cg with
        network_graph := c1net.set_edge_value (1, 2) (PyVal.pystr ['7']) true } (1, 2) := by
    show CGraph.update_edge c1m { c1cg with
      network_graph := c1cg.network_graph.set_edge_value (1, 2)
        (PyVal.pystr (intToPyStr 7)) true } (1, 2) = _
    rw [hpv]
    rfl
  have hcg2 : c1cg2 = { c1cg with
      network_graph := c1net.set_edge_value (1, 2) (PyVal.pystr ['7']) true } := by
    show { c1cg with
      network_graph := c1net.set_edge_value (1, 2) (PyVal.pystr (intToPyStr 7)) true } = _
    rw [hpv]
  have h3 : (CGraph.set_channel c1m c1cg (1, 2) 7).graph.value (0, 1) (2, 3) =
      PyVal.pystr ['5'] := by
    rw [hs]
    decide
  have h4 : (CGraph.update_edges c1m c1cg2).graph.value (0, 1) (2, 3) =
      PyVal.pystr ['7'] := by
    rw [hcg2]
    decide
  refine ⟨by decide, by decide, h3, h4, ?_⟩
  rw [h3, h4]
  decide

/-- Mutations building the witness network: the path 0 - 1 - 2 with both
links on channel "1". -/
def c1wops : List (GOp Nat) :=
  [GOp.addV 0, GOp.addV 1, GOp.addV 2,
   GOp.setE 0 1 (PyVal.pystr ['1']), GOp.setE 1 2 (PyVal.pystr ['1'])]

/-- The witness network graph. -/
def c1wnet : PyGraph Nat := runOps (PyGraph.mkGraph []) c1wops

/-- A symmetric, local interference model: two links interfere (weight
`True`) exactly when their stored channel values are equal. -/
def c1wm : IModel Nat :=
  fun g e f => PyVal.pybool (decide (g.value e.1 e.2 = g.value f.1 f.2))

/-- The witness conflict graph: both links are on channel "1", so every
weight is `True` and the conflict-graph invariant holds. -/
def c1wcg : CGraph Nat :=
  { network_graph := c1wnet
  , graph :=
    { verts := [(0,1),(1,2)]
    , value := fun _ _ => PyVal.pybool true
    , dist := fun _ _ => 1 } }

/-- The witness conflict graph with the post-change network installed. -/
def c1wcg2 : CGraph Nat :=
  { c1wcg with network_graph :=
      c1wnet.set_edge_value (0, 1) (PyVal.pystr (intToPyStr 7)) true }

theorem update_edge_matches_update_edges_witness :
    (CGraph.set_channel c1wm c1wcg (0, 1) 7).graph.value (0, 1) (1, 2) =
    (CGraph.update_edges c1wm c1wcg2).graph.value (0, 1) (1, 2) :=
  update_edge_matches_update_edges c1wm c1wcg (0, 1) 7
    (fun g e f => congrArg PyVal.pybool (decide_eq_decide.mpr ⟨Eq.symm, Eq.symm⟩))
    (fun g g2 e f hv h1 h2 h3 h4 hd => by
      show PyVal.pybool _ = PyVal.pybool _
      rw [h1, h3])
    (by decide)
    (runOps_GInv c1wops (PyGraph.mkGraph []) GInv_empty (by decide) (by decide))
    (by decide)
    (by decide)
    (by decide)
    (0, 1) (by decide) (1, 2) (by decide)

/-! ### Claim C6: copy and copy_fast -/

section CopyOps

variable {V : Type} [DecidableEq V]

/-- The loop body of `Graph.copy` for one pair: `set_edge_value` (default
`update=True`, so a truthy value triggers a full `update_distances`)
followed by `set_distance` with the original distance. -/
def copyStep (orig : PyGraph V) (v1 v2 : V) (h : PyGraph V) : PyGraph V :=
  (h.set_edge_value (v1, v2) (orig.get_edge_value (v1, v2)) true).set_distance v1 v2
    (orig.get_distance v1 v2)

/-- The inner `for v2 in remaining_vertices` loop of `Graph.copy`. -/
def copyInner (orig : PyGraph V) (v1 : V) (rem : List V) (h : PyGraph V) : PyGraph V :=
  rem.foldl (fun h v2 => copyStep orig v1 v2 h) h

/-- The outer loop of `Graph.copy` with its `remaining_vertices` erase. -/
def copyAux (orig : PyGraph V) : List V → List V → PyGraph V → PyGraph V
  | [], _, h => h
  | v1 :: rest, rem, h => copyAux orig rest (rem.erase v1) (copyInner orig v1 rem h)

/-- `Graph.copy()`: a fresh `Graph(list(vertices))` filled in pair by pair. -/
def PyGraph.copy (g : PyGraph V) : PyGraph V :=
  copyAux g g.verts g.verts (PyGraph.mkGraph g.verts)

/-- The loop body of `Graph.copy_fast` for one `get_edges()` entry:
`set_edge_value(..., update=False)` plus `set_distance` with the original
distance (the entry's stored value is ignored; the value is re-read). -/
def copyFastStep (orig : PyGraph V) (e : V × V) (h : PyGraph V) : PyGraph V :=
  (h.set_edge_value e (orig.get_edge_value e) false).set_distance e.1 e.2
    (orig.get_distance e.1 e.2)

/-- `Graph.copy_fast()`: a fresh `Graph(list(vertices))`, then one
`copyFastStep` per entry of `get_edges()` (only truthy edges, one
orientation each). -/
def PyGraph.copy_fast (g : PyGraph V) : PyGraph V :=
  g.get_edges.foldl (fun h ev => copyFastStep g ev.1 h) (PyGraph.mkGraph g.verts)

end CopyOps

/-- The C6 counterexample graph: the path 0 - 1 - 2 built by the public
mutation API (both edges truthy, distances recomputed on each write). -/
def c6net : PyGraph Nat :=
  runOps (PyGraph.mkGraph [])
    [GOp.addV 0, GOp.addV 1, GOp.addV 2,
     GOp.setE 0 1 (PyVal.pystr ['1']), GOp.setE 1 2 (PyVal.pystr ['1'])]

/-- C6, counterexample: `copy_fast()` does **not** reproduce the distance
matrix. On the consistent path graph 0 - 1 - 2 (stored distances equal the
true hop counts, first conjunct) the original records distance(0,2) = 2,
but `copy_fast()` only replays `get_edges()` - the two direct links - with
`update=False` and never recomputes, so the copied graph keeps the fresh
`sys.maxint` initialization for the multi-hop pair (0,2). -/
theorem copy_fast_loses_multihop_distance :
    (∀ a ∈ c6net.verts, ∀ b ∈ c6net.verts, c6net.dist a b = hopDist c6net a b) ∧
    c6net.dist 0 2 = 2 ∧
    c6net.copy_fast.dist 0 2 = MAXINT ∧
    c6net.copy_fast.dist 0 2 ≠ c6net.dist 0 2 := by
  refine ⟨by decide, by decide, by decide, by decide⟩

section MkGraphFacts

variable {V : Type} [DecidableEq V]

theorem foldl_add_vertex_verts :
    ∀ (l : List V) (g : PyGraph V), l.Nodup → (∀ v ∈ l, v ∉ g.verts) →
      (l.foldl (fun g v => g.add_vertex v) g).verts = g.verts ++ l := by
  intro l
  induction l with
  | nil => intro g _ _; simp
  | cons v t ih =>
    intro g hnd hfresh
    have hv : v ∉ g.verts := hfresh v (List.mem_cons_self v t)
    have hverts := (add_vertex_new hv).1
    rw [List.foldl_cons, ih (g.add_vertex v) (List.nodup_cons.mp hnd).2 ?_, hverts]
    · simp
    · intro u hu
      rw [hverts, List.mem_append]
      rintro (hmem | hmem)
      · exact hfresh u (List.mem_cons_of_mem v hu) hmem
      · exact (List.nodup_cons.mp hnd).1 (List.mem_singleton.mp hmem ▸ hu)

theorem mkGraph_verts (l : List V) (hnd : l.Nodup) : (PyGraph.mkGraph l).verts = l := by
  show (l.foldl (fun (g : PyGraph V) v => g.add_vertex v)
    (PyGraph.mk [] (fun _ _ => PyVal.none) (fun _ _ => 0))).verts = l
  rw [foldl_add_vertex_verts l _ hnd (fun v _ hmem => (List.not_mem_nil v) hmem)]
  rfl

theorem foldl_add_vertex_value_none :
    ∀ (l : List V) (g : PyGraph V), (∀ x y, g.value x y = PyVal.none) →
      ∀ x y, (l.foldl (fun g v => g.add_vertex v) g).value x y = PyVal.none := by
  intro l
  induction l with
  | nil => exact fun g hg => hg
  | cons v t ih =>
    intro g hg
    refine ih (g.add_vertex v) ?_
    intro x y
    unfold PyGraph.add_vertex
    by_cases hv : v ∈ g.verts
    · rw [if_pos hv]
      exact hg x y
    · rw [if_neg hv]
      show (g.verts ++ [v]).foldl (fun f old => symmSet f old v PyVal.none) g.value x y =
        PyVal.none
      rw [foldl_symmSet_char]
      split
      · rfl
      · exact hg x y

theorem mkGraph_value (l : List V) (x y : V) :
    (PyGraph.mkGraph l).value x y = PyVal.none :=
  foldl_add_vertex_value_none l _ (fun _ _ => rfl) x y

end MkGraphFacts

section MkGraphInv

variable {V : Type} [DecidableEq V]

theorem goodOps_addVs : ∀ (l : List V) (g : PyGraph V), goodOps g (l.map GOp.addV) := by
  intro l
  induction l with
  | nil => exact fun g => trivial
  | cons v t ih => exact fun g => ⟨trivial, ih (g.add_vertex v)⟩

theorem mkGraph_eq_runOps (l : List V) :
    PyGraph.mkGraph l = runOps (PyGraph.mkGraph []) (l.map GOp.addV) := by
  unfold runOps
  rw [List.foldl_map]
  rfl

theorem GInv_mkGraph (l : List V) (hlen : l.length ≤ MAXINT) :
    GInv (PyGraph.mkGraph l) := by
  rw [mkGraph_eq_runOps]
  refine runOps_GInv (l.map GOp.addV) _ GInv_empty ?_ (goodOps_addVs l _)
  show (PyGraph.mkGraph ([] : List V)).verts.length + (l.map GOp.addV).length ≤ MAXINT
  show 0 + (l.map GOp.addV).length ≤ MAXINT
  simpa using hlen

theorem hopDist_no_edges {g : PyGraph V} (hno : ∀ x y, ¬adjP g x y) {a b : V}
    (hab : a ≠ b) : hopDist g a b = MAXINT := by
  apply hopDist_eq_MAXINT
  rintro ⟨n, hw⟩
  cases hw with
  | nil => exact hab rfl
  | snoc hsub hstep => exact hno _ _ hstep

theorem mkGraph_no_adj (l : List V) : ∀ x y, ¬adjP (PyGraph.mkGraph l) x y := by
  rintro x y ⟨_, _, ht⟩
  rw [mkGraph_value] at ht
  exact absurd ht (by simp [PyVal.truthy])

theorem mkGraph_dist (l : List V) (hnd : l.Nodup) (hlen : l.length ≤ MAXINT) :
    ∀ a ∈ l, ∀ b ∈ l,
      (PyGraph.mkGraph l).dist a b = if a = b then 0 else MAXINT := by
  intro a ha b hb
  have hG := GInv_mkGraph l hlen
  have hv := mkGraph_verts l hnd
  rw [hG.deq a (by rw [hv]; exact ha) b (by rw [hv]; exact hb)]
  by_cases hab : a = b
  · subst hab
    rw [if_pos rfl]
    exact hopDist_self _ a
  · rw [if_neg hab]
    exact hopDist_no_edges (mkGraph_no_adj l) hab

theorem mkGraph_LBP (g : PyGraph V) (hG : GInv g) :
    LBP g g.verts (PyGraph.mkGraph g.verts).dist := by
  intro a ha b hb
  rw [mkGraph_dist g.verts hG.nodup hG.hlen a ha b hb]
  by_cases hab : a = b
  · subst hab
    rw [if_pos rfl]
    constructor
    · intro _
      rw [hopDist_self]
    · intro hnr
      exact absurd ⟨0, WalkN.nil a⟩ hnr
  · rw [if_neg hab]
    exact ⟨fun _ => hopDist_le_MAXINT hG.hlen a b, fun _ => le_refl _⟩

theorem LBP_symmSet {g0 : PyGraph V} {vs : List V} {d : V → V → Nat}
    (hlb : LBP g0 vs d) (p q : V) (c : Nat)
    (h1 : Reach g0 p q → hopDist g0 p q ≤ c) (h2 : ¬Reach g0 p q → MAXINT ≤ c)
    (h3 : Reach g0 q p → hopDist g0 q p ≤ c) (h4 : ¬Reach g0 q p → MAXINT ≤ c) :
    LBP g0 vs (symmSet d p q c) := by
  intro a ha b hb
  unfold symmSet
  by_cases hc : (a = p ∧ b = q) ∨ (a = q ∧ b = p)
  · rw [if_pos hc]
    rcases hc with ⟨rfl, rfl⟩ | ⟨rfl, rfl⟩
    · exact ⟨h1, h2⟩
    · exact ⟨h3, h4⟩
  · rw [if_neg hc]
    exact hlb a ha b hb

end MkGraphInv

section CopyValue

variable {V : Type} [DecidableEq V]

theorem copyStep_value (orig : PyGraph V) (v1 v2 : V) (h : PyGraph V) :
    (copyStep orig v1 v2 h).value = symmSet h.value v1 v2 (orig.value v1 v2) := by
  show (h.set_edge_value (v1, v2) (orig.get_edge_value (v1, v2)) true).value = _
  exact set_edge_value_value h (v1, v2) (orig.get_edge_value (v1, v2)) true

theorem copyInner_cons (orig : PyGraph V) (v1 v2 : V) (rest : List V) (h : PyGraph V) :
    copyInner orig v1 (v2 :: rest) h = copyInner orig v1 rest (copyStep orig v1 v2 h) := rfl

theorem copyrow_value_preserved (orig : PyGraph V) (v1 : V) :
    ∀ (rem : List V) (h : PyGraph V) (x y : V),
      (∀ v2 ∈ rem, ¬((x = v1 ∧ y = v2) ∨ (x = v2 ∧ y = v1))) →
      (copyInner orig v1 rem h).value x y = h.value x y := by
  intro rem
  induction rem with
  | nil => intro h x y _; rfl
  | cons v2 rest ih =>
    intro h x y hc
    rw [copyInner_cons,
      ih _ x y (fun v2h hv2 => hc v2h (List.mem_cons_of_mem v2 hv2)), copyStep_value]
    unfold symmSet
    rw [if_neg (hc v2 (List.mem_cons_self v2 rest))]

theorem copyrow_value_mem (orig : PyGraph V) (v1 : V) :
    ∀ (rem : List V) (h : PyGraph V), ∀ b ∈ rem,
      (copyInner orig v1 rem h).value v1 b = orig.value v1 b ∧
      (copyInner orig v1 rem h).value b v1 = orig.value v1 b := by
  intro rem
  induction rem with
  | nil => intro h b hb; simp at hb
  | cons v2 rest ih =>
    intro h b hb
    by_cases hbr : b ∈ rest
    · exact ih _ b hbr
    · have hbv2 : b = v2 := by
        rcases List.mem_cons.mp hb with h1 | h1
        · exact h1
        · exact absurd h1 hbr
      subst hbv2
      rw [copyInner_cons]
      constructor
      · rw [copyrow_value_preserved orig v1 rest _ v1 b ?_, copyStep_value]
        · unfold symmSet
          rw [if_pos (Or.inl ⟨rfl, rfl⟩)]
        · intro v2h hv2
          rintro (⟨_, rfl⟩ | ⟨rfl, rfl⟩)
          · exact hbr hv2
          · exact hbr hv2
      · rw [copyrow_value_preserved orig v1 rest _ b v1 ?_, copyStep_value]
        · unfold symmSet
          rw [if_pos (Or.inr ⟨rfl, rfl⟩)]
        · intro v2h hv2
          rintro (⟨rfl, rfl⟩ | ⟨rfl, _⟩)
          · exact hbr hv2
          · exact hbr hv2

theorem copyAux_cons (orig : PyGraph V) (v1 : V) (rest rem : List V) (h : PyGraph V) :
    copyAux orig (v1 :: rest) rem h =
    copyAux orig rest (rem.erase v1) (copyInner orig v1 rem h) := rfl

theorem copyAux_value_protect (orig : PyGraph V) :
    ∀ (v1s rem : List V) (h : PyGraph V) (x : V),
      (∀ a ∈ v1s, a ≠ x) → x ∉ rem →
      ∀ y, (copyAux orig v1s rem h).value x y = h.value x y ∧
        (copyAux orig v1s rem h).value y x = h.value y x := by
  intro v1s
  induction v1s with
  | nil => intro rem h x _ _ y; exact ⟨rfl, rfl⟩
  | cons v1 rest ih =>
    intro rem h x hne hxr y
    have hv1x : v1 ≠ x := hne v1 (List.mem_cons_self v1 rest)
    have hrec := ih (rem.erase v1) (copyInner orig v1 rem h) x
      (fun a ha => hne a (List.mem_cons_of_mem v1 ha))
      (fun hmem => hxr (List.mem_of_mem_erase hmem)) y
    rw [copyAux_cons, hrec.1, hrec.2]
    constructor
    · rw [copyrow_value_preserved orig v1 rem h x y ?_]
      intro v2 hv2
      rintro (⟨rfl, _⟩ | ⟨rfl, _⟩)
      · exact hv1x rfl
      · exact hxr hv2
    · rw [copyrow_value_preserved orig v1 rem h y x ?_]
      intro v2 hv2
      rintro (⟨_, rfl⟩ | ⟨_, rfl⟩)
      · exact hxr hv2
      · exact hv1x rfl

theorem copyAux_value_char (orig : PyGraph V)
    (hvs : ∀ x y, orig.value x y = orig.value y x) :
    ∀ (v1s rem : List V) (h : PyGraph V), v1s.Nodup → rem.Nodup →
      (∀ x ∈ v1s, x ∈ rem) →
      ∀ a ∈ v1s, ∀ b ∈ rem,
        (copyAux orig v1s rem h).value a b = orig.value a b ∧
        (copyAux orig v1s rem h).value b a = orig.value b a := by
  intro v1s
  induction v1s with
  | nil => intro rem h _ _ _ a ha; simp at ha
  | cons v1 rest ih =>
    intro rem h hnd hndr hsub a ha b hb
    have hnd2 := List.nodup_cons.mp hnd
    rcases List.mem_cons.mp ha with rfl | ha2
    · have hrow := copyrow_value_mem orig a rem h b hb
      have hprot := copyAux_value_protect orig rest (rem.erase a) (copyInner orig a rem h) a
        (fun x hx hxa => hnd2.1 (hxa ▸ hx)) (hndr.not_mem_erase) b
      rw [copyAux_cons, hprot.1, hprot.2, hrow.1, hrow.2]
      exact ⟨rfl, hvs a b⟩
    · by_cases hbv : b = v1
      · subst hbv
        have hrow := copyrow_value_mem orig b rem h a (hsub a (List.mem_cons_of_mem b ha2))
        have hprot := copyAux_value_protect orig rest (rem.erase b) (copyInner orig b rem h) b
          (fun x hx hxb => hnd2.1 (hxb ▸ hx)) (hndr.not_mem_erase) a
        rw [copyAux_cons, hprot.2, hprot.1, hrow.1, hrow.2]
        exact ⟨hvs b a, rfl⟩
      · refine ih (rem.erase v1) _ hnd2.2 (hndr.erase v1) ?_ a ha2 b
          ((List.mem_erase_of_ne hbv).mpr hb)
        intro x hx
        exact (List.mem_erase_of_ne
          (fun hxv : x = v1 => hnd2.1 (show v1 ∈ rest from hxv ▸ hx))).mpr
          (hsub x (List.mem_cons_of_mem v1 hx))

end CopyValue

section CopyDist

variable {V : Type} [DecidableEq V]

theorem set_edge_value_falsy_dist {g : PyGraph V} {e : V × V} {w : PyVal} {u : Bool}
    (hw : ¬w.truthy = true) : (g.set_edge_value e w u).dist = g.dist := by
  unfold PyGraph.set_edge_value
  rw [if_neg hw]

theorem walkN_zero {g : PyGraph V} {a b : V} (h : WalkN g 0 a b) : a = b := by
  cases h
  rfl

theorem hopDist_eq_one {g : PyGraph V} {a b : V} (hadj : adjP g a b) (hne : a ≠ b) :
    hopDist g a b = 1 := by
  have hle : hopDist g a b ≤ 1 := hopDist_le_of_walkN (WalkN.snoc (WalkN.nil a) hadj)
  have hw := reach_hopDist ⟨1, WalkN.snoc (WalkN.nil a) hadj⟩
  by_cases h0 : hopDist g a b = 0
  · rw [h0] at hw
    exact absurd (walkN_zero hw) hne
  · omega

theorem copyStep_dist (g : PyGraph V) (hG : GInv g) (v1 v2 : V)
    (h1v : v1 ∈ g.verts) (h2v : v2 ∈ g.verts) (h : PyGraph V)
    (hverts : h.verts = g.verts) (hsym : SymD h.dist) (hlb : LBP g g.verts h.dist) :
    (copyStep g v1 v2 h).verts = g.verts ∧ SymD (copyStep g v1 v2 h).dist ∧
    LBP g g.verts (copyStep g v1 v2 h).dist ∧
    (copyStep g v1 v2 h).dist v1 v2 = g.dist v1 v2 ∧
    (copyStep g v1 v2 h).dist v2 v1 = g.dist v2 v1 ∧
    (∀ x ∈ g.verts, ∀ y ∈ g.verts, h.dist x y = g.dist x y →
      (copyStep g v1 v2 h).dist x y = g.dist x y) := by
  have hδ1 : g.dist v1 v2 = hopDist g v1 v2 := hG.deq v1 h1v v2 h2v
  have hδ2 : g.dist v1 v2 = hopDist g v2 v1 := by
    rw [hG.dsym v1 v2]
    exact hG.deq v2 h2v v1 h1v
  have hcell1 : Reach g v1 v2 → hopDist g v1 v2 ≤ g.dist v1 v2 := fun _ => by rw [hδ1]
  have hcell2 : ¬Reach g v1 v2 → MAXINT ≤ g.dist v1 v2 := fun hnr => by
    rw [hδ1, hopDist_eq_MAXINT hnr]
  have hcell3 : Reach g v2 v1 → hopDist g v2 v1 ≤ g.dist v1 v2 := fun _ => by rw [hδ2]
  have hcell4 : ¬Reach g v2 v1 → MAXINT ≤ g.dist v1 v2 := fun hnr => by
    rw [hδ2, hopDist_eq_MAXINT hnr]
  by_cases hw : (g.get_edge_value (v1, v2)).truthy = true
  · have hadj12 : adjP g v1 v2 := ⟨h1v, h2v, hw⟩
    have hadj21 : adjP g v2 v1 := ⟨h2v, h1v, by
      show (g.value v2 v1).truthy = true
      rw [hG.valsym v2 v1]
      exact hw⟩
    have hr12 : Reach g v1 v2 := ⟨1, WalkN.snoc (WalkN.nil v1) hadj12⟩
    have hr21 : Reach g v2 v1 := ⟨1, WalkN.snoc (WalkN.nil v2) hadj21⟩
    have hhop12 : hopDist g v1 v2 ≤ 1 :=
      hopDist_le_of_walkN (WalkN.snoc (WalkN.nil v1) hadj12)
    have hhop21 : hopDist g v2 v1 ≤ 1 :=
      hopDist_le_of_walkN (WalkN.snoc (WalkN.nil v2) hadj21)
    have hunf : copyStep g v1 v2 h =
        ((PyGraph.mk h.verts (symmSet h.value v1 v2 (g.get_edge_value (v1, v2)))
          (symmSet h.dist v1 v2 1)).update_distances).set_distance v1 v2
          (g.get_distance v1 v2) := by
      unfold copyStep
      rw [set_edge_value_truthy_unfold hw]
    set ht : PyGraph V := PyGraph.mk h.verts
      (symmSet h.value v1 v2 (g.get_edge_value (v1, v2)))
      (symmSet h.dist v1 v2 1) with hht
    have hsym1 : SymD ht.dist := symmSet_symm hsym v1 v2 1
    have hlb1 : LBP g g.verts ht.dist :=
      LBP_symmSet hlb v1 v2 1 (fun _ => hhop12) (fun hnr => absurd hr12 hnr)
        (fun _ => hhop21) (fun hnr => absurd hr21 hnr)
    have hud := update_distances_sym_le ht hsym1
    have hlb2 : LBP g g.verts ht.update_distances.dist := by
      show LBP g g.verts (ht.verts.foldl (fun d k => fwPhase ht.verts k d) ht.dist)
      have he : ht.verts = g.verts := hverts
      rw [he]
      exact foldPhases_LB hG.hlen g.verts ht.dist (fun x hx => hx) hsym1 hlb1
    have hdist_eq : (copyStep g v1 v2 h).dist =
        symmSet ht.update_distances.dist v1 v2 (g.get_distance v1 v2) := by
      rw [hunf]
      rfl
    refine ⟨?_, ?_, ?_, ?_, ?_, ?_⟩
    · rw [hunf]
      exact hverts
    · rw [hdist_eq]
      exact symmSet_symm hud.1 v1 v2 _
    · rw [hdist_eq]
      exact LBP_symmSet hlb2 v1 v2 _ hcell1 hcell2 hcell3 hcell4
    · rw [hdist_eq]
      show symmSet _ v1 v2 _ v1 v2 = _
      rw [symmSet_left]
      rfl
    · rw [hdist_eq]
      show symmSet _ v1 v2 _ v2 v1 = _
      unfold symmSet
      rw [if_pos (Or.inr ⟨rfl, rfl⟩)]
      exact hG.dsym v1 v2
    · intro x hx y hy hxy
      rw [hdist_eq]
      unfold symmSet
      by_cases hcc : (x = v1 ∧ y = v2) ∨ (x = v2 ∧ y = v1)
      · rw [if_pos hcc]
        rcases hcc with ⟨rfl, rfl⟩ | ⟨rfl, rfl⟩
        · rfl
        · exact hG.dsym _ _
      · rw [if_neg hcc]
        have hle : ht.update_distances.dist x y ≤ ht.dist x y := hud.2 x y
        have hto : ht.dist x y = g.dist x y := by
          show symmSet h.dist v1 v2 1 x y = _
          unfold symmSet
          rw [if_neg hcc]
          exact hxy
        have hdeq : g.dist x y = hopDist g x y := hG.deq x hx y hy
        obtain ⟨hre, hnre⟩ := hlb2 x hx y hy
        by_cases hr : Reach g x y
        · have h1 := hre hr
          omega
        · have h1 := hnre hr
          have h4 : hopDist g x y = MAXINT := hopDist_eq_MAXINT hr
          omega
  · have hd1 : (h.set_edge_value (v1, v2) (g.get_edge_value (v1, v2)) true).dist = h.dist :=
      set_edge_value_falsy_dist hw
    have hdist_eq : (copyStep g v1 v2 h).dist =
        symmSet h.dist v1 v2 (g.get_distance v1 v2) := by
      show symmSet (h.set_edge_value (v1, v2) (g.get_edge_value (v1, v2)) true).dist
        v1 v2 (g.get_distance v1 v2) = _
      rw [hd1]
    refine ⟨?_, ?_, ?_, ?_, ?_, ?_⟩
    · show (h.set_edge_value (v1, v2) (g.get_edge_value (v1, v2)) true).verts = g.verts
      rw [set_edge_value_verts]
      exact hverts
    · rw [hdist_eq]
      exact symmSet_symm hsym v1 v2 _
    · rw [hdist_eq]
      exact LBP_symmSet hlb v1 v2 _ hcell1 hcell2 hcell3 hcell4
    · rw [hdist_eq]
      show symmSet _ v1 v2 _ v1 v2 = _
      rw [symmSet_left]
      rfl
    · rw [hdist_eq]
      show symmSet _ v1 v2 _ v2 v1 = _
      unfold symmSet
      rw [if_pos (Or.inr ⟨rfl, rfl⟩)]
      exact hG.dsym v1 v2
    · intro x hx y hy hxy
      rw [hdist_eq]
      unfold symmSet
      by_cases hcc : (x = v1 ∧ y = v2) ∨ (x = v2 ∧ y = v1)
      · rw [if_pos hcc]
        rcases hcc with ⟨rfl, rfl⟩ | ⟨rfl, rfl⟩
        · rfl
        · exact hG.dsym _ _
      · rw [if_neg hcc]
        exact hxy

end CopyDist

theorem copyInner_dist {V : Type} [DecidableEq V] (g : PyGraph V) (hG : GInv g)
    (v1 : V) (h1v : v1 ∈ g.verts) :
    ∀ (rem : List V) (h : PyGraph V), (∀ x ∈ rem, x ∈ g.verts) →
      h.verts = g.verts → SymD h.dist → LBP g g.verts h.dist →
      (copyInner g v1 rem h).verts = g.verts ∧ SymD (copyInner g v1 rem h).dist ∧
      LBP g g.verts (copyInner g v1 rem h).dist ∧
      (∀ b ∈ rem, (copyInner g v1 rem h).dist v1 b = g.dist v1 b ∧
        (copyInner g v1 rem h).dist b v1 = g.dist b v1) ∧
      (∀ x ∈ g.verts, ∀ y ∈ g.verts, h.dist x y = g.dist x y →
        (copyInner g v1 rem h).dist x y = g.dist x y) := by
  intro rem
  induction rem with
  | nil =>
    intro h _ hverts hsym hlb
    exact ⟨hverts, hsym, hlb, fun b hb => absurd hb (List.not_mem_nil b),
      fun x _ y _ hxy => hxy⟩
  | cons v2 rest ih =>
    intro h hremg hverts hsym hlb
    have hv2g : v2 ∈ g.verts := hremg v2 (List.mem_cons_self v2 rest)
    obtain ⟨hsv, hss, hsl, hs12, hs21, hspre⟩ :=
      copyStep_dist g hG v1 v2 h1v hv2g h hverts hsym hlb
    have hrec := ih (copyStep g v1 v2 h)
      (fun x hx => hremg x (List.mem_cons_of_mem v2 hx)) hsv hss hsl
    rw [copyInner_cons]
    refine ⟨hrec.1, hrec.2.1, hrec.2.2.1, ?_, ?_⟩
    · intro b hb
      by_cases hbr : b ∈ rest
      · exact hrec.2.2.2.1 b hbr
      · have hbv2 : b = v2 := by
          rcases List.mem_cons.mp hb with h1 | h1
          · exact h1
          · exact absurd h1 hbr
        subst hbv2
        exact ⟨hrec.2.2.2.2 v1 h1v b hv2g hs12, hrec.2.2.2.2 b hv2g v1 h1v hs21⟩
    · intro x hx y hy hxy
      exact hrec.2.2.2.2 x hx y hy (hspre x hx y hy hxy)

theorem copyAux_dist {V : Type} [DecidableEq V] (g : PyGraph V) (hG : GInv g) :
    ∀ (v1s rem : List V) (h : PyGraph V), v1s.Nodup → rem.Nodup →
      (∀ x ∈ v1s, x ∈ rem) → (∀ x ∈ rem, x ∈ g.verts) →
      h.verts = g.verts → SymD h.dist → LBP g g.verts h.dist →
      (copyAux g v1s rem h).verts = g.verts ∧
      (∀ a ∈ v1s, ∀ b ∈ rem, (copyAux g v1s rem h).dist a b = g.dist a b ∧
        (copyAux g v1s rem h).dist b a = g.dist b a) ∧
      (∀ x ∈ g.verts, ∀ y ∈ g.verts, h.dist x y = g.dist x y →
        (copyAux g v1s rem h).dist x y = g.dist x y) := by
  intro v1s
  induction v1s with
  | nil =>
    intro rem h _ _ _ _ hverts _ _
    exact ⟨hverts, fun a ha => absurd ha (List.not_mem_nil a), fun x _ y _ hxy => hxy⟩
  | cons v1 rest ih =>
    intro rem h hnd hndr hsub hremg hverts hsym hlb
    have hnd2 := List.nodup_cons.mp hnd
    have hv1r : v1 ∈ rem := hsub v1 (List.mem_cons_self v1 rest)
    have hv1g : v1 ∈ g.verts := hremg v1 hv1r
    obtain ⟨hiv, his, hil, hipair, hipre⟩ :=
      copyInner_dist g hG v1 hv1g rem h hremg hverts hsym hlb
    have hrec := ih (rem.erase v1) (copyInner g v1 rem h) hnd2.2 (hndr.erase v1)
      (fun x hx => (List.mem_erase_of_ne
        (fun hxv : x = v1 => hnd2.1 (show v1 ∈ rest from hxv ▸ hx))).mpr
        (hsub x (List.mem_cons_of_mem v1 hx)))
      (fun x hx => hremg x (List.mem_of_mem_erase hx)) hiv his hil
    rw [copyAux_cons]
    refine ⟨hrec.1, ?_, ?_⟩
    · intro a ha b hb
      rcases List.mem_cons.mp ha with rfl | ha2
      · have hbg : b ∈ g.verts := hremg b hb
        exact ⟨hrec.2.2 a hv1g b hbg (hipair b hb).1,
          hrec.2.2 b hbg a hv1g (hipair b hb).2⟩
      · by_cases hbv : b = v1
        · subst hbv
          have hag : a ∈ g.verts := hremg a (hsub a (List.mem_cons_of_mem b ha2))
          exact ⟨hrec.2.2 a hag b hv1g (hipair a (hsub a (List.mem_cons_of_mem b ha2))).2,
            hrec.2.2 b hv1g a hag (hipair a (hsub a (List.mem_cons_of_mem b ha2))).1⟩
        · exact hrec.2.1 a ha2 b ((List.mem_erase_of_ne hbv).mpr hb)
    · intro x hx y hy hxy
      exact hrec.2.2 x hx y hy (hipre x hx y hy hxy)

section CopyFast

variable {V : Type} [DecidableEq V]

theorem set_edge_value_truthy_false_dist {g : PyGraph V} {e : V × V} {w : PyVal}
    (hw : w.truthy = true) :
    (g.set_edge_value e w false).dist = symmSet g.dist e.1 e.2 1 := by
  unfold PyGraph.set_edge_value
  rw [if_pos hw]
  rfl

theorem copyFastStep_value (orig : PyGraph V) (e : V × V) (h : PyGraph V) :
    (copyFastStep orig e h).value = symmSet h.value e.1 e.2 (orig.value e.1 e.2) := by
  show (h.set_edge_value e (orig.get_edge_value e) false).value = _
  exact set_edge_value_value h e (orig.get_edge_value e) false

theorem copyFastStep_dist_truthy (orig : PyGraph V) (e : V × V) (h : PyGraph V)
    (hw : (orig.value e.1 e.2).truthy = true) :
    (copyFastStep orig e h).dist =
      symmSet (symmSet h.dist e.1 e.2 1) e.1 e.2 (orig.dist e.1 e.2) := by
  show symmSet (h.set_edge_value e (orig.get_edge_value e) false).dist e.1 e.2
    (orig.get_distance e.1 e.2) = _
  rw [set_edge_value_truthy_false_dist
    (show (orig.get_edge_value e).truthy = true from hw)]
  rfl

theorem copyFastStep_other (orig : PyGraph V) (e : V × V) (h : PyGraph V) (x y : V)
    (hc : ¬((x = e.1 ∧ y = e.2) ∨ (x = e.2 ∧ y = e.1))) :
    (copyFastStep orig e h).value x y = h.value x y ∧
    (copyFastStep orig e h).dist x y = h.dist x y := by
  constructor
  · rw [copyFastStep_value]
    unfold symmSet
    rw [if_neg hc]
  · by_cases hw : (orig.value e.1 e.2).truthy = true
    · rw [copyFastStep_dist_truthy orig e h hw]
      unfold symmSet
      rw [if_neg hc, if_neg hc]
    · have hd : (h.set_edge_value e (orig.get_edge_value e) false).dist = h.dist :=
        set_edge_value_falsy_dist hw
      show symmSet (h.set_edge_value e (orig.get_edge_value e) false).dist e.1 e.2
        (orig.get_distance e.1 e.2) x y = _
      rw [hd]
      unfold symmSet
      rw [if_neg hc]

theorem copyFast_fold_untouched (orig : PyGraph V) :
    ∀ (l : List ((V × V) × PyVal)) (h : PyGraph V) (x y : V),
      (∀ ev ∈ l, ¬((x = ev.1.1 ∧ y = ev.1.2) ∨ (x = ev.1.2 ∧ y = ev.1.1))) →
      (l.foldl (fun h ev => copyFastStep orig ev.1 h) h).value x y = h.value x y ∧
      (l.foldl (fun h ev => copyFastStep orig ev.1 h) h).dist x y = h.dist x y := by
  intro l
  induction l with
  | nil => intro h x y _; exact ⟨rfl, rfl⟩
  | cons ev t ih =>
    intro h x y hc
    rw [List.foldl_cons]
    have hstep := copyFastStep_other orig ev.1 h x y (hc ev (List.mem_cons_self ev t))
    have hrec := ih (copyFastStep orig ev.1 h) x y
      (fun ev2 hev2 => hc ev2 (List.mem_cons_of_mem ev hev2))
    exact ⟨hrec.1.trans hstep.1, hrec.2.trans hstep.2⟩

theorem copyFast_fold_touched (orig : PyGraph V)
    (hvs : ∀ x y, orig.value x y = orig.value y x) (hds : SymD orig.dist) :
    ∀ (l : List ((V × V) × PyVal)) (h : PyGraph V) (x y : V),
      (∀ ev ∈ l, (orig.value ev.1.1 ev.1.2).truthy = true) →
      (∃ ev ∈ l, (ev.1.1 = x ∧ ev.1.2 = y) ∨ (ev.1.1 = y ∧ ev.1.2 = x)) →
      (l.foldl (fun h ev => copyFastStep orig ev.1 h) h).value x y = orig.value x y ∧
      (l.foldl (fun h ev => copyFastStep orig ev.1 h) h).dist x y = orig.dist x y := by
  intro l
  induction l with
  | nil =>
    intro h x y _ hex
    obtain ⟨ev, hev, _⟩ := hex
    exact absurd hev (List.not_mem_nil ev)
  | cons ev t ih =>
    intro h x y hsound hex
    rw [List.foldl_cons]
    by_cases hext : ∃ ev2 ∈ t, (ev2.1.1 = x ∧ ev2.1.2 = y) ∨ (ev2.1.1 = y ∧ ev2.1.2 = x)
    · exact ih (copyFastStep orig ev.1 h) x y
        (fun ev2 hev2 => hsound ev2 (List.mem_cons_of_mem ev hev2)) hext
    · obtain ⟨ev0, hev0, hm⟩ := hex
      have hev0h : ev0 = ev := by
        rcases List.mem_cons.mp hev0 with h1 | h1
        · exact h1
        · exact absurd ⟨ev0, h1, hm⟩ hext
      subst hev0h
      have hw := hsound ev0 (List.mem_cons_self ev0 t)
      have hunt := copyFast_fold_untouched orig t (copyFastStep orig ev0.1 h) x y
        (fun ev2 hev2 => fun hcc => hext ⟨ev2, hev2, by tauto⟩)
      refine ⟨hunt.1.trans ?_, hunt.2.trans ?_⟩
      · rw [copyFastStep_value]
        unfold symmSet
        rcases hm with ⟨h1, h2⟩ | ⟨h1, h2⟩
        · rw [if_pos (Or.inl ⟨h1.symm, h2.symm⟩), h1, h2]
        · rw [if_pos (Or.inr ⟨h2.symm, h1.symm⟩), h1, h2]
          exact hvs y x
      · rw [copyFastStep_dist_truthy orig ev0.1 h hw]
        unfold symmSet
        rcases hm with ⟨h1, h2⟩ | ⟨h1, h2⟩
        · rw [if_pos (Or.inl ⟨h1.symm, h2.symm⟩), h1, h2]
        · rw [if_pos (Or.inr ⟨h2.symm, h1.symm⟩), h1, h2]
          exact hds y x

theorem copyFastStep_verts (orig : PyGraph V) (e : V × V) (h : PyGraph V) :
    (copyFastStep orig e h).verts = h.verts := by
  show (h.set_edge_value e (orig.get_edge_value e) false).verts = h.verts
  exact set_edge_value_verts h e (orig.get_edge_value e) false

theorem copyFast_fold_verts (orig : PyGraph V) :
    ∀ (l : List ((V × V) × PyVal)) (h : PyGraph V),
      (l.foldl (fun h ev => copyFastStep orig ev.1 h) h).verts = h.verts := by
  intro l
  induction l with
  | nil => intro h; rfl
  | cons ev t ih =>
    intro h
    rw [List.foldl_cons, ih (copyFastStep orig ev.1 h), copyFastStep_verts]

theorem getEdgesAux_cons (val : V → V → PyVal) (v1 : V) (rest rem : List V) :
    getEdgesAux val (v1 :: rest) rem =
    (rem.filterMap fun v2 =>
      if (val v1 v2).truthy then some ((v1, v2), val v1 v2) else Option.none)
      ++ getEdgesAux val rest (rem.erase v1) := rfl

theorem getEdgesAux_sound (val : V → V → PyVal) :
    ∀ (v1s rem : List V), ∀ ev ∈ getEdgesAux val v1s rem,
      (val ev.1.1 ev.1.2).truthy = true := by
  intro v1s
  induction v1s with
  | nil => intro rem ev hev; simp [getEdgesAux] at hev
  | cons v1 rest ih =>
    intro rem ev hev
    rw [getEdgesAux_cons] at hev
    rcases List.mem_append.mp hev with hmem | hmem
    · obtain ⟨v2, hv2, heq⟩ := List.mem_filterMap.mp hmem
      split at heq
      · obtain rfl := Option.some.inj heq
        assumption
      · exact absurd heq (by simp)
    · exact ih (rem.erase v1) ev hmem

theorem getEdgesAux_coverage (val : V → V → PyVal)
    (hvs : ∀ x y, val x y = val y x) :
    ∀ (v1s rem : List V), v1s.Nodup → (∀ x ∈ v1s, x ∈ rem) →
      ∀ a ∈ v1s, ∀ b ∈ rem, (val a b).truthy = true →
      ∃ ev ∈ getEdgesAux val v1s rem,
        (ev.1.1 = a ∧ ev.1.2 = b) ∨ (ev.1.1 = b ∧ ev.1.2 = a) := by
  intro v1s
  induction v1s with
  | nil => intro rem _ _ a ha; simp at ha
  | cons v1 rest ih =>
    intro rem hnd hsub a ha b hb ht
    have hnd2 := List.nodup_cons.mp hnd
    rw [getEdgesAux_cons]
    rcases List.mem_cons.mp ha with rfl | ha2
    · refine ⟨((a, b), val a b), List.mem_append_left _ ?_, Or.inl ⟨rfl, rfl⟩⟩
      exact List.mem_filterMap.mpr ⟨b, hb, by rw [if_pos ht]⟩
    · by_cases hbv : b = v1
      · subst hbv
        have har : a ∈ rem := hsub a (List.mem_cons_of_mem b ha2)
        have ht2 : (val b a).truthy = true := by
          rw [hvs b a]
          exact ht
        refine ⟨((b, a), val b a), List.mem_append_left _ ?_, Or.inr ⟨rfl, rfl⟩⟩
        exact List.mem_filterMap.mpr ⟨a, har, by rw [if_pos ht2]⟩
      · obtain ⟨ev, hev, hm⟩ := ih (rem.erase v1) hnd2.2
          (fun x hx => (List.mem_erase_of_ne
            (fun hxv : x = v1 => hnd2.1 (show v1 ∈ rest from hxv ▸ hx))).mpr
            (hsub x (List.mem_cons_of_mem v1 hx)))
          a ha2 b ((List.mem_erase_of_ne hbv).mpr hb) ht
        exact ⟨ev, List.mem_append_right _ hev, hm⟩

end CopyFast

/-- C6 (amended): on every consistent Graph state (`GInv`: symmetric values
and distances, distances equal to true hop counts - every state the class
builds by truthy writes), `copy()` returns a graph with the same vertices
and, on every pair of vertices, the same edge values and the same
distances: the interleaved `update_distances` runs can only lower a cell,
never below the true hop count, and every finalized cell equals it.
`copy_fast()`, by contrast, reproduces the vertices and the truthy edge
values but resets every other value to `None` and keeps a distance entry
only for direct edges: distance(v,v) = 0, distance = 1 across each truthy
edge, and the `sys.maxint` sentinel for *every* other pair - multi-hop
distances of the original are lost (`copy_fast_loses_multihop_distance`),
so the two copies are not equivalent and only `copy()` is a deep copy. -/
theorem copy_and_copy_fast_characterization (g : PyGraph V) (hG : GInv g) :
    g.copy.verts = g.verts ∧
    (∀ a ∈ g.verts, ∀ b ∈ g.verts, g.copy.value a b = g.value a b) ∧
    (∀ a ∈ g.verts, ∀ b ∈ g.verts, g.copy.dist a b = g.dist a b) ∧
    g.copy_fast.verts = g.verts ∧
    (∀ a ∈ g.verts, ∀ b ∈ g.verts,
      g.copy_fast.value a b =
        if (g.value a b).truthy then g.value a b else PyVal.none) ∧
    (∀ a ∈ g.verts, ∀ b ∈ g.verts,
      g.copy_fast.dist a b =
        if a = b then 0 else if (g.value a b).truthy then 1 else MAXINT) := by
  have hGm := GInv_mkGraph g.verts hG.hlen
  have hmv := mkGraph_verts g.verts hG.nodup
  have hml := mkGraph_LBP g hG
  have hcd := copyAux_dist g hG g.verts g.verts (PyGraph.mkGraph g.verts) hG.nodup
    hG.nodup (fun x hx => hx) (fun x hx => hx) hmv hGm.dsym hml
  have hcv := copyAux_value_char g hG.valsym g.verts g.verts (PyGraph.mkGraph g.verts)
    hG.nodup hG.nodup (fun x hx => hx)
  refine ⟨hcd.1, ?_, ?_, ?_, ?_, ?_⟩
  · intro a ha b hb
    exact (hcv a ha b hb).1
  · intro a ha b hb
    exact (hcd.2.1 a ha b hb).1
  · exact (copyFast_fold_verts g g.get_edges (PyGraph.mkGraph g.verts)).trans hmv
  · intro a ha b hb
    by_cases ht : (g.value a b).truthy = true
    · rw [if_pos ht]
      obtain ⟨ev, hev, hm⟩ := getEdgesAux_coverage g.value hG.valsym g.verts g.verts
        hG.nodup (fun x hx => hx) a ha b hb ht
      exact (copyFast_fold_touched g hG.valsym hG.dsym g.get_edges
        (PyGraph.mkGraph g.verts) a b
        (fun ev2 hev2 => getEdgesAux_sound g.value g.verts g.verts ev2 hev2)
        ⟨ev, hev, hm⟩).1
    · rw [if_neg ht]
      have huntouched : ∀ ev ∈ g.get_edges,
          ¬((a = ev.1.1 ∧ b = ev.1.2) ∨ (a = ev.1.2 ∧ b = ev.1.1)) := by
        intro ev hev hcc
        have hs := getEdgesAux_sound g.value g.verts g.verts ev hev
        rcases hcc with ⟨h1, h2⟩ | ⟨h1, h2⟩
        · rw [← h1, ← h2] at hs
          exact ht hs
        · rw [← h1, ← h2] at hs
          exact ht (by rw [hG.valsym a b]; exact hs)
      have hu := copyFast_fold_untouched g g.get_edges (PyGraph.mkGraph g.verts)
        a b huntouched
      exact hu.1.trans (mkGraph_value g.verts a b)
  · intro a ha b hb
    by_cases hab : a = b
    · subst hab
      rw [if_pos rfl]
      have huntouched : ∀ ev ∈ g.get_edges,
          ¬((a = ev.1.1 ∧ a = ev.1.2) ∨ (a = ev.1.2 ∧ a = ev.1.1)) := by
        intro ev hev hcc
        have hs := getEdgesAux_sound g.value g.verts g.verts ev hev
        have hne := (hG.valmem ev.1.1 ev.1.2 hs).2.2
        rcases hcc with ⟨h1, h2⟩ | ⟨h1, h2⟩
        · exact hne (h1.symm.trans h2)
        · exact hne (h2.symm.trans h1)
      have hu := copyFast_fold_untouched g g.get_edges (PyGraph.mkGraph g.verts)
        a a huntouched
      have hz : (PyGraph.mkGraph g.verts).dist a a = 0 := by
        rw [mkGraph_dist g.verts hG.nodup hG.hlen a ha a ha]
        simp
      exact hu.2.trans hz
    · rw [if_neg hab]
      by_cases ht : (g.value a b).truthy = true
      · rw [if_pos ht]
        obtain ⟨ev, hev, hm⟩ := getEdgesAux_coverage g.value hG.valsym g.verts g.verts
          hG.nodup (fun x hx => hx) a ha b hb ht
        have htouch := copyFast_fold_touched g hG.valsym hG.dsym g.get_edges
          (PyGraph.mkGraph g.verts) a b
          (fun ev2 hev2 => getEdgesAux_sound g.value g.verts g.verts ev2 hev2)
          ⟨ev, hev, hm⟩
        have h1 : g.dist a b = 1 := by
          rw [hG.deq a ha b hb]
          exact hopDist_eq_one ⟨ha, hb, ht⟩ hab
        exact htouch.2.trans h1
      · rw [if_neg ht]
        have huntouched : ∀ ev ∈ g.get_edges,
            ¬((a = ev.1.1 ∧ b = ev.1.2) ∨ (a = ev.1.2 ∧ b = ev.1.1)) := by
          intro ev hev hcc
          have hs := getEdgesAux_sound g.value g.verts g.verts ev hev
          rcases hcc with ⟨h1, h2⟩ | ⟨h1, h2⟩
          · rw [← h1, ← h2] at hs
            exact ht hs
          · rw [← h1, ← h2] at hs
            exact ht (by rw [hG.valsym a b]; exact hs)
        have hu := copyFast_fold_untouched g g.get_edges (PyGraph.mkGraph g.verts)
          a b huntouched
        have hmx : (PyGraph.mkGraph g.verts).dist a b = MAXINT := by
          rw [mkGraph_dist g.verts hG.nodup hG.hlen a ha b hb, if_neg hab]
        exact hu.2.trans hmx

theorem copy_and_copy_fast_characterization_witness :
    c6net.copy.verts = c6net.verts ∧
    c6net.copy.dist 0 2 = c6net.dist 0 2 ∧
    c6net.copy_fast.value 0 1 =
      (if (c6net.value 0 1).truthy then c6net.value 0 1 else PyVal.none) ∧
    c6net.copy_fast.dist 0 2 =
      (if (0 : Nat) = 2 then 0 else if (c6net.value 0 2).truthy then 1 else MAXINT) := by
  have hG : GInv c6net :=
    runOps_GInv [GOp.addV 0, GOp.addV 1, GOp.addV 2,
      GOp.setE 0 1 (PyVal.pystr ['1']), GOp.setE 1 2 (PyVal.pystr ['1'])]
      (PyGraph.mkGraph []) GInv_empty (by decide) (by decide)
  have h := copy_and_copy_fast_characterization c6net hG
  exact ⟨h.1, (h.2.2.1 0 (by decide) 2 (by decide)),
    (h.2.2.2.2.1 0 (by decide) 1 (by decide)),
    (h.2.2.2.2.2 0 (by decide) 2 (by decide))⟩

/-! ### Claim C7: text serialization round-trips -/

section Serialization

/-- Python `str(value)` for the embedded value types (`str` of a Python
object is a `<...>` repr placeholder; it only ever appears for truthy
non-string values, which the amended round-trip excludes anyway). -/
def pyValStr : PyVal → PyStr
  | PyVal.none => ['N', 'o', 'n', 'e']
  | PyVal.pybool b => if b then ['T', 'r', 'u', 'e'] else ['F', 'a', 'l', 's', 'e']
  | PyVal.pyint n => intToPyStr n
  | PyVal.pystr s => s
  | PyVal.pyobj _ => ['<', 'o', 'b', 'j', '>']

/-- Python `s.rjust(n)` (pad with spaces on the left). -/
def pyRjust (n : Nat) (s : PyStr) : PyStr := List.replicate (n - s.length) ' ' ++ s

/-- Python `s.ljust(n)` (pad with spaces on the right). -/
def pyLjust (n : Nat) (s : PyStr) : PyStr := s ++ List.replicate (n - s.length) ' '

/-- Python `s.split(sep)` for a one-character separator: split at every
occurrence, empty chunks preserved, `"".split(sep) = [""]`. -/
def pySplit (sep : Char) : PyStr → List PyStr
  | [] => [[]]
  | c :: rest =>
    if c = sep then [] :: pySplit sep rest
    else
      match pySplit sep rest with
      | h :: t => (c :: h) :: t
      | [] => [[c]]

/-- `Graph._get_edge_value_as_text`: `""` for a falsy value, `str(value)`
otherwise. -/
def edgeText (g : PyGraph PyStr) (v1 v2 : PyStr) : PyStr :=
  if (g.value v1 v2).truthy then pyValStr (g.value v1 v2) else []

/-- The `maxlen` computation of `get_adjacency_matrix`: at least 4, at
least every vertex-name length. -/
def matrixMaxlen (verts : List PyStr) : Nat :=
  verts.foldl (fun m v => max m v.length) 4

/-- `Graph.get_adjacency_matrix`, one list entry per emitted line (the
source joins them with the newlines it appends after dropping each line's
trailing separator character). -/
def PyGraph.get_adjacency_matrix (g : PyGraph PyStr) : List PyStr :=
  let m := matrixMaxlen g.verts
  let header := (g.verts.foldl
    (fun acc v => acc ++ (' ' :: pyRjust m v ++ [' ']) ++ ['|'])
    ((pyRjust m [] ++ [' ']) ++ ['|'])).dropLast
  let sepLine := (g.verts.foldl
    (fun acc _ => acc ++ ('-' :: List.replicate m '-' ++ ['-']) ++ ['+'])
    ((List.replicate m '-' ++ ['-']) ++ ['+'])).dropLast
  let rows := g.verts.map (fun v1 =>
    (g.verts.foldl
      (fun acc v2 => acc ++ (' ' :: pyRjust m (edgeText g v1 v2) ++ [' ']) ++ ['|'])
      ((pyLjust m v1 ++ [' ']) ++ ['|'])).dropLast)
  header :: sepLine :: rows

/-- Python `list.index(a)`: the first index holding `a`. -/
def listIndex {α : Type} [DecidableEq α] (a : α) : List α → Nat
  | [] => 0
  | b :: t => if b = a then 0 else listIndex a t + 1

/-- One `i > 2` iteration of `Graph.read_from_file`: split the row on `|`,
strip the leading vertex name, then write one edge value per header vertex
(`''` becomes `None`), without recompute. -/
def readRow (verts : List PyStr) (row : PyStr) (g : PyGraph PyStr) : PyGraph PyStr :=
  let parts := pySplit '|' row
  let v1 := pyStrip (parts.headD [])
  let cells := parts.drop 1
  verts.foldl (fun g v2 =>
    let w := pyStrip (cells.getD (listIndex v2 verts) [])
    g.set_edge_value (v1, v2)
      (if w = [] then PyVal.none else PyVal.pystr w) false) g

/-- `Graph.read_from_file` over the file's lines: line 1 gives the vertex
names (re-initializing the graph), line 2 is the separator, later lines are
rows; ends with `update_distances()`. (On an empty file the source leaves
the previous vertex set in place; generated files are never empty, and the
empty case is modeled as the empty graph.) -/
def PyGraph.read_from_file (lines : List PyStr) : PyGraph PyStr :=
  match lines with
  | [] => (PyGraph.mkGraph ([] : List PyStr)).update_distances
  | header :: rest =>
    let verts := ((pySplit '|' header).drop 1).map pyStrip
    ((rest.drop 1).foldl (fun g row => readRow verts row g)
      (PyGraph.mkGraph verts)).update_distances

end Serialization

section SplitLemmas

/-- The chunks of a bar-separated line, as the emitters build them. -/
def joinBar : List PyStr → PyStr
  | [] => []
  | [c] => c
  | c :: c2 :: rest => c ++ '|' :: joinBar (c2 :: rest)

theorem pySplit_notin {sep : Char} {s : PyStr} (h : sep ∉ s) : pySplit sep s = [s] := by
  induction s with
  | nil => rfl
  | cons c t ih =>
    conv_lhs => rw [pySplit]
    rw [if_neg (fun hc : c = sep => h (hc ▸ List.mem_cons_self c t)),
      ih (fun hm => h (List.mem_cons_of_mem c hm))]

theorem pySplit_notin_append {sep : Char} {s : PyStr} (t : PyStr) (h : sep ∉ s) :
    pySplit sep (s ++ sep :: t) = s :: pySplit sep t := by
  induction s with
  | nil =>
    show pySplit sep (sep :: t) = [] :: pySplit sep t
    conv_lhs => rw [pySplit]
    rw [if_pos rfl]
  | cons c s2 ih =>
    show pySplit sep (c :: (s2 ++ sep :: t)) = (c :: s2) :: pySplit sep t
    conv_lhs => rw [pySplit]
    rw [if_neg (fun hc : c = sep => h (hc ▸ List.mem_cons_self c s2)),
      ih (fun hm => h (List.mem_cons_of_mem c hm))]

theorem pySplit_joinBar :
    ∀ (cs : List PyStr), cs ≠ [] → (∀ c ∈ cs, '|' ∉ c) →
      pySplit '|' (joinBar cs) = cs := by
  intro cs
  induction cs with
  | nil => intro h _; exact absurd rfl h
  | cons c rest ih =>
    intro _ hfree
    cases rest with
    | nil =>
      show pySplit '|' c = [c]
      exact pySplit_notin (hfree c (List.mem_cons_self c []))
    | cons c2 rest2 =>
      show pySplit '|' (c ++ '|' :: joinBar (c2 :: rest2)) = c :: c2 :: rest2
      rw [pySplit_notin_append _ (hfree c (List.mem_cons_self c _)),
        ih (by simp) (fun x hx => hfree x (List.mem_cons_of_mem c hx))]

theorem joinBar_cons_append (a b : PyStr) (rest : List PyStr) :
    joinBar ((a ++ '|' :: b) :: rest) = a ++ '|' :: joinBar (b :: rest) := by
  cases rest with
  | nil => rfl
  | cons r rs =>
    show (a ++ '|' :: b) ++ '|' :: joinBar (r :: rs) = a ++ '|' :: joinBar (b :: r :: rs)
    rw [List.append_assoc]
    rfl

theorem foldl_bar_blocks {α : Type} (f : α → PyStr) :
    ∀ (l : List α) (acc : PyStr),
      (l.foldl (fun acc v => acc ++ f v ++ ['|']) (acc ++ ['|'])).dropLast =
      joinBar (acc :: l.map f) := by
  intro l
  induction l with
  | nil =>
    intro acc
    show (acc ++ ['|']).dropLast = acc
    exact List.dropLast_concat
  | cons v t ih =>
    intro acc
    rw [List.foldl_cons]
    have hstep : (acc ++ ['|']) ++ f v ++ ['|'] = (acc ++ '|' :: f v) ++ ['|'] := by
      simp [List.append_assoc]
    rw [hstep, ih (acc ++ '|' :: f v), List.map_cons, joinBar_cons_append]
    rfl

end SplitLemmas

section StripLemmas

theorem length_dropWhile_le_sp (p : Char → Bool) (l : List Char) :
    (l.dropWhile p).length ≤ l.length :=
  (List.dropWhile_sublist p).length_le

theorem dropWhile_replicate_sp (t : PyStr) :
    ∀ k, (List.replicate k ' ' ++ t).dropWhile pyWhite = t.dropWhile pyWhite := by
  intro k
  induction k with
  | zero => rfl
  | succ n ih =>
    rw [List.replicate_succ]
    show ((' ' :: (List.replicate n ' ' ++ t)).dropWhile pyWhite) = _
    rw [List.dropWhile_cons]
    rw [if_pos (by rfl)]
    exact ih

theorem strip_self_parts {s : PyStr} (hs : pyStrip s = s) :
    s.dropWhile pyWhite = s ∧ s.reverse.dropWhile pyWhite = s.reverse := by
  have h1 : (s.dropWhile pyWhite).length ≤ s.length := length_dropWhile_le_sp _ _
  have h2 : ((s.dropWhile pyWhite).reverse.dropWhile pyWhite).length ≤
      (s.dropWhile pyWhite).length := by
    have := length_dropWhile_le_sp pyWhite (s.dropWhile pyWhite).reverse
    simpa using this
  have hlen : (pyStrip s).length = s.length := by rw [hs]
  have hlen2 : (pyStrip s).length =
      ((s.dropWhile pyWhite).reverse.dropWhile pyWhite).length := by
    unfold pyStrip
    simp
  have hdw : s.dropWhile pyWhite = s := by
    refine (List.dropWhile_suffix pyWhite).eq_of_length ?_
    omega
  refine ⟨hdw, ?_⟩
  have hrev : (s.reverse.dropWhile pyWhite).reverse = s := by
    have hx := hs
    unfold pyStrip at hx
    rw [hdw] at hx
    exact hx
  calc s.reverse.dropWhile pyWhite
      = ((s.reverse.dropWhile pyWhite).reverse).reverse := by rw [List.reverse_reverse]
    _ = s.reverse := by rw [hrev]

theorem pyStrip_pad (k m : Nat) (s : PyStr) (hs : pyStrip s = s) :
    pyStrip (List.replicate k ' ' ++ s ++ List.replicate m ' ') = s := by
  obtain ⟨hdw, hdwr⟩ := strip_self_parts hs
  unfold pyStrip
  rw [List.append_assoc, dropWhile_replicate_sp]
  cases s with
  | nil =>
    show (((List.replicate m ' ' : PyStr).dropWhile pyWhite).reverse.dropWhile
      pyWhite).reverse = ([] : PyStr)
    have hz : (List.replicate m ' ' : PyStr).dropWhile pyWhite = ([] : PyStr) := by
      have := dropWhile_replicate_sp [] m
      simpa using this
    rw [hz]
    rfl
  | cons c t =>
    have hc : pyWhite c = false := by
      by_cases hcw : pyWhite c = true
      · rw [List.dropWhile_cons, if_pos hcw] at hdw
        have := length_dropWhile_le_sp pyWhite t
        have h2 := congrArg List.length hdw
        simp at h2
        omega
      · exact eq_false_of_ne_true hcw
    show ((((c :: t) ++ List.replicate m ' ').dropWhile pyWhite).reverse.dropWhile
      pyWhite).reverse = c :: t
    rw [show ((c :: t) ++ List.replicate m ' ') = c :: (t ++ List.replicate m ' ')
      from rfl, List.dropWhile_cons, if_neg (by rw [hc]; simp)]
    rw [show (c :: (t ++ List.replicate m ' ')).reverse =
      List.replicate m ' ' ++ (c :: t).reverse from by
        rw [show c :: (t ++ List.replicate m ' ') = (c :: t) ++ List.replicate m ' '
          from rfl, List.reverse_append, List.reverse_replicate]]
    rw [dropWhile_replicate_sp, hdwr, List.reverse_reverse]

end StripLemmas

section MatrixLines

theorem map_eq_self_of {α : Type} (l : List α) (f : α → α) (h : ∀ a ∈ l, f a = a) :
    l.map f = l := by
  induction l with
  | nil => rfl
  | cons a t ih =>
    rw [List.map_cons, h a (List.mem_cons_self a t),
      ih (fun x hx => h x (List.mem_cons_of_mem a hx))]

theorem foldl_ext_mem {α β : Type} (f g : β → α → β) (l : List α)
    (h : ∀ a ∈ l, ∀ b, f b a = g b a) : ∀ i, l.foldl f i = l.foldl g i := by
  induction l with
  | nil => intro i; rfl
  | cons a t ih =>
    intro i
    rw [List.foldl_cons, List.foldl_cons, h a (List.mem_cons_self a t)]
    exact ih (fun x hx b => h x (List.mem_cons_of_mem a hx) b) (g i a)

theorem strip_rjust_cell (mm : Nat) (v : PyStr) (hv : pyStrip v = v) :
    pyStrip (' ' :: pyRjust mm v ++ [' ']) = v := by
  have h := pyStrip_pad (1 + (mm - v.length)) 1 v hv
  have hsh : (' ' :: pyRjust mm v ++ [' ']) =
      List.replicate (1 + (mm - v.length)) ' ' ++ v ++ List.replicate 1 ' ' := by
    unfold pyRjust
    rw [List.replicate_add]
    simp [List.append_assoc]
  rw [hsh]
  exact h

theorem strip_ljust_cell (mm : Nat) (v : PyStr) (hv : pyStrip v = v) :
    pyStrip (pyLjust mm v ++ [' ']) = v := by
  have h := pyStrip_pad 0 ((mm - v.length) + 1) v hv
  have hsh : (pyLjust mm v ++ [' ']) =
      List.replicate 0 ' ' ++ v ++ List.replicate ((mm - v.length) + 1) ' ' := by
    unfold pyLjust
    rw [List.replicate_add]
    simp [List.append_assoc]
  rw [hsh]
  exact h

theorem barfree_rjust_cell (mm : Nat) (v : PyStr) (hv : '|' ∉ v) :
    '|' ∉ (' ' :: pyRjust mm v ++ [' ']) := by
  simp [pyRjust, List.mem_replicate, hv]

theorem barfree_ljust_cell (mm : Nat) (v : PyStr) (hv : '|' ∉ v) :
    '|' ∉ (pyLjust mm v ++ [' ']) := by
  simp [pyLjust, List.mem_replicate, hv]

theorem barfree_lead (mm : Nat) : '|' ∉ (pyRjust mm ([] : PyStr) ++ [' ']) := by
  simp [pyRjust, List.mem_replicate]

theorem header_parse (verts : List PyStr) (mm : Nat)
    (hnames : ∀ v ∈ verts, pyStrip v = v ∧ '|' ∉ v) :
    ((pySplit '|' ((verts.foldl
      (fun acc v => acc ++ (' ' :: pyRjust mm v ++ [' ']) ++ ['|'])
      ((pyRjust mm [] ++ [' ']) ++ ['|'])).dropLast)).drop 1).map pyStrip = verts := by
  rw [foldl_bar_blocks (fun v => ' ' :: pyRjust mm v ++ [' ']) verts
    (pyRjust mm [] ++ [' ']), pySplit_joinBar _ (by simp) ?_]
  · rw [List.drop_one, List.tail_cons, List.map_map]
    exact map_eq_self_of verts _ (fun v hv => strip_rjust_cell mm v (hnames v hv).1)
  · intro c hc
    rcases List.mem_cons.mp hc with rfl | hc2
    · exact barfree_lead mm
    · obtain ⟨v, hv, rfl⟩ := List.mem_map.mp hc2
      exact barfree_rjust_cell mm v (hnames v hv).2

end MatrixLines

section RowParse

theorem getD_map_listIndex {α β : Type} [DecidableEq α] (f : α → β) (d : β) :
    ∀ (l : List α) (a : α), a ∈ l → (l.map f).getD (listIndex a l) d = f a := by
  intro l
  induction l with
  | nil => intro a ha; simp at ha
  | cons b t ih =>
    intro a ha
    by_cases hb : b = a
    · subst hb
      have hz : listIndex b (b :: t) = 0 := by
        show (if b = b then 0 else listIndex b t + 1) = 0
        rw [if_pos rfl]
      rw [hz, List.map_cons]
      rfl
    · have hs : listIndex a (b :: t) = listIndex a t + 1 := by
        show (if b = a then 0 else listIndex a t + 1) = listIndex a t + 1
        rw [if_neg hb]
      have hat : a ∈ t := by
        rcases List.mem_cons.mp ha with h1 | h1
        · exact absurd h1.symm hb
        · exact h1
      rw [hs, List.map_cons, List.getD_cons_succ]
      exact ih a hat

end RowParse

/-- The string discipline of the amended round-trip claim: an edge value is
either `None` or a non-empty, strip-stable string without the column
separator. -/
def strDisc (g : PyGraph PyStr) (v1 v2 : PyStr) : Prop :=
  g.value v1 v2 = PyVal.none ∨
  ∃ w, g.value v1 v2 = PyVal.pystr w ∧ w ≠ [] ∧ pyStrip w = w ∧ '|' ∉ w

theorem cell_roundtrip (g : PyGraph PyStr) (v1 v2 : PyStr) (hd : strDisc g v1 v2) :
    pyStrip (edgeText g v1 v2) = edgeText g v1 v2 ∧ '|' ∉ edgeText g v1 v2 ∧
    (if edgeText g v1 v2 = [] then PyVal.none else PyVal.pystr (edgeText g v1 v2)) =
      g.value v1 v2 := by
  rcases hd with hnone | ⟨w, hw, hne, hst, hbar⟩
  · have he : edgeText g v1 v2 = [] := by
      unfold edgeText
      rw [hnone]
      rfl
    rw [he]
    exact ⟨rfl, by simp, by rw [if_pos rfl, hnone]⟩
  · have htr : (PyVal.pystr w).truthy = true := by simp [PyVal.truthy, hne]
    have he : edgeText g v1 v2 = w := by
      unfold edgeText
      rw [hw, if_pos htr]
      rfl
    rw [he]
    refine ⟨hst, hbar, ?_⟩
    rw [if_neg hne, hw]

theorem readRow_eq (verts : List PyStr) (row : PyStr) (g : PyGraph PyStr) :
    readRow verts row g = verts.foldl (fun g v2 =>
      g.set_edge_value (pyStrip ((pySplit '|' row).headD []), v2)
        (if pyStrip (((pySplit '|' row).drop 1).getD (listIndex v2 verts) []) = []
         then PyVal.none
         else PyVal.pystr (pyStrip (((pySplit '|' row).drop 1).getD (listIndex v2 verts) [])))
        false) g := rfl

theorem row_parse (g : PyGraph PyStr) (mm : Nat) (v1 : PyStr)
    (hv1s : pyStrip v1 = v1) (hv1b : '|' ∉ v1)
    (hdisc : ∀ v2 ∈ g.verts, strDisc g v1 v2) (h : PyGraph PyStr) :
    readRow g.verts
      ((g.verts.foldl
        (fun acc v2 => acc ++ (' ' :: pyRjust mm (edgeText g v1 v2) ++ [' ']) ++ ['|'])
        ((pyLjust mm v1 ++ [' ']) ++ ['|'])).dropLast) h =
    g.verts.foldl (fun h v2 => h.set_edge_value (v1, v2) (g.value v1 v2) false) h := by
  have hsplit : pySplit '|' ((g.verts.foldl
      (fun acc v2 => acc ++ (' ' :: pyRjust mm (edgeText g v1 v2) ++ [' ']) ++ ['|'])
      ((pyLjust mm v1 ++ [' ']) ++ ['|'])).dropLast) =
      (pyLjust mm v1 ++ [' ']) ::
      g.verts.map (fun v2 => ' ' :: pyRjust mm (edgeText g v1 v2) ++ [' ']) := by
    rw [foldl_bar_blocks (fun v2 => ' ' :: pyRjust mm (edgeText g v1 v2) ++ [' '])
      g.verts (pyLjust mm v1 ++ [' '])]
    refine pySplit_joinBar _ (by simp) ?_
    intro c hc
    rcases List.mem_cons.mp hc with rfl | hc2
    · exact barfree_ljust_cell mm v1 hv1b
    · obtain ⟨v2, hv2, rfl⟩ := List.mem_map.mp hc2
      exact barfree_rjust_cell mm _ (cell_roundtrip g v1 v2 (hdisc v2 hv2)).2.1
  rw [readRow_eq]
  refine foldl_ext_mem _ _ g.verts ?_ h
  intro v2 hv2 gg
  have hrt := cell_roundtrip g v1 v2 (hdisc v2 hv2)
  have hhead : pyStrip ((pySplit '|' ((g.verts.foldl
      (fun acc v2 => acc ++ (' ' :: pyRjust mm (edgeText g v1 v2) ++ [' ']) ++ ['|'])
      ((pyLjust mm v1 ++ [' ']) ++ ['|'])).dropLast)).headD []) = v1 := by
    rw [hsplit]
    exact strip_ljust_cell mm v1 hv1s
  have hcell : pyStrip (((pySplit '|' ((g.verts.foldl
      (fun acc v2 => acc ++ (' ' :: pyRjust mm (edgeText g v1 v2) ++ [' ']) ++ ['|'])
      ((pyLjust mm v1 ++ [' ']) ++ ['|'])).dropLast)).drop 1).getD
        (listIndex v2 g.verts) []) = edgeText g v1 v2 := by
    rw [hsplit, List.drop_one, List.tail_cons,
      getD_map_listIndex (fun v2 => ' ' :: pyRjust mm (edgeText g v1 v2) ++ [' '])
        [] g.verts v2 hv2]
    exact strip_rjust_cell mm _ hrt.1
  rw [hhead, hcell, hrt.2.2]

section ReadState

theorem writeStep_other (g : PyGraph PyStr) (p : PyStr × PyStr) (h : PyGraph PyStr)
    (x y : PyStr) (hc : ¬((x = p.1 ∧ y = p.2) ∨ (x = p.2 ∧ y = p.1))) :
    (h.set_edge_value p (g.value p.1 p.2) false).value x y = h.value x y ∧
    (h.set_edge_value p (g.value p.1 p.2) false).dist x y = h.dist x y := by
  constructor
  · rw [set_edge_value_value]
    unfold symmSet
    rw [if_neg hc]
  · by_cases hw : (g.value p.1 p.2).truthy = true
    · rw [set_edge_value_truthy_false_dist hw]
      unfold symmSet
      rw [if_neg hc]
    · rw [set_edge_value_falsy_dist hw]

theorem readfold_untouched (g : PyGraph PyStr) :
    ∀ (l : List (PyStr × PyStr)) (h : PyGraph PyStr) (x y : PyStr),
      (∀ p ∈ l, ¬((x = p.1 ∧ y = p.2) ∨ (x = p.2 ∧ y = p.1))) →
      (l.foldl (fun h p => h.set_edge_value p (g.value p.1 p.2) false) h).value x y =
        h.value x y ∧
      (l.foldl (fun h p => h.set_edge_value p (g.value p.1 p.2) false) h).dist x y =
        h.dist x y := by
  intro l
  induction l with
  | nil => intro h x y _; exact ⟨rfl, rfl⟩
  | cons p t ih =>
    intro h x y hc
    rw [List.foldl_cons]
    have hstep := writeStep_other g p h x y (hc p (List.mem_cons_self p t))
    have hrec := ih (h.set_edge_value p (g.value p.1 p.2) false) x y
      (fun q hq => hc q (List.mem_cons_of_mem p hq))
    exact ⟨hrec.1.trans hstep.1, hrec.2.trans hstep.2⟩

theorem readfold_value_touched (g : PyGraph PyStr)
    (hvs : ∀ x y, g.value x y = g.value y x) :
    ∀ (l : List (PyStr × PyStr)) (h : PyGraph PyStr) (x y : PyStr),
      (∃ p ∈ l, (p.1 = x ∧ p.2 = y) ∨ (p.1 = y ∧ p.2 = x)) →
      (l.foldl (fun h p => h.set_edge_value p (g.value p.1 p.2) false) h).value x y =
        g.value x y := by
  intro l
  induction l with
  | nil =>
    intro h x y hex
    obtain ⟨p, hp, _⟩ := hex
    exact absurd hp (List.not_mem_nil p)
  | cons p t ih =>
    intro h x y hsex
    rw [List.foldl_cons]
    by_cases hext : ∃ q ∈ t, (q.1 = x ∧ q.2 = y) ∨ (q.1 = y ∧ q.2 = x)
    · exact ih _ x y hext
    · obtain ⟨p0, hp0, hm⟩ := hsex
      have hp0p : p0 = p := by
        rcases List.mem_cons.mp hp0 with h1 | h1
        · exact h1
        · exact absurd ⟨p0, h1, hm⟩ hext
      subst hp0p
      have hunt := readfold_untouched g t
        (h.set_edge_value p0 (g.value p0.1 p0.2) false) x y
        (fun q hq hcc => hext ⟨q, hq, by tauto⟩)
      refine hunt.1.trans ?_
      rw [set_edge_value_value]
      unfold symmSet
      rcases hm with ⟨h1, h2⟩ | ⟨h1, h2⟩
      · rw [if_pos (Or.inl ⟨h1.symm, h2.symm⟩), h1, h2]
      · rw [if_pos (Or.inr ⟨h2.symm, h1.symm⟩), h1, h2]
        exact hvs y x

theorem readfold_dist_touched (g : PyGraph PyStr)
    (hvs : ∀ x y, g.value x y = g.value y x) :
    ∀ (l : List (PyStr × PyStr)) (h : PyGraph PyStr) (x y : PyStr),
      (g.value x y).truthy = true →
      (∃ p ∈ l, (p.1 = x ∧ p.2 = y) ∨ (p.1 = y ∧ p.2 = x)) →
      (l.foldl (fun h p => h.set_edge_value p (g.value p.1 p.2) false) h).dist x y =
        1 := by
  intro l
  induction l with
  | nil =>
    intro h x y _ hex
    obtain ⟨p, hp, _⟩ := hex
    exact absurd hp (List.not_mem_nil p)
  | cons p t ih =>
    intro h x y htr hsex
    rw [List.foldl_cons]
    by_cases hext : ∃ q ∈ t, (q.1 = x ∧ q.2 = y) ∨ (q.1 = y ∧ q.2 = x)
    · exact ih _ x y htr hext
    · obtain ⟨p0, hp0, hm⟩ := hsex
      have hp0p : p0 = p := by
        rcases List.mem_cons.mp hp0 with h1 | h1
        · exact h1
        · exact absurd ⟨p0, h1, hm⟩ hext
      subst hp0p
      have hunt := readfold_untouched g t
        (h.set_edge_value p0 (g.value p0.1 p0.2) false) x y
        (fun q hq hcc => hext ⟨q, hq, by tauto⟩)
      refine hunt.2.trans ?_
      have hw : (g.value p0.1 p0.2).truthy = true := by
        rcases hm with ⟨h1, h2⟩ | ⟨h1, h2⟩
        · rw [h1, h2]
          exact htr
        · rw [h1, h2, hvs y x]
          exact htr
      rw [set_edge_value_truthy_false_dist hw]
      unfold symmSet
      rcases hm with ⟨h1, h2⟩ | ⟨h1, h2⟩
      · rw [if_pos (Or.inl ⟨h1.symm, h2.symm⟩)]
      · rw [if_pos (Or.inr ⟨h2.symm, h1.symm⟩)]

theorem readfold_dist_falsy (g : PyGraph PyStr)
    (hvs : ∀ x y, g.value x y = g.value y x) :
    ∀ (l : List (PyStr × PyStr)) (h : PyGraph PyStr) (x y : PyStr),
      (g.value x y).truthy = false →
      (l.foldl (fun h p => h.set_edge_value p (g.value p.1 p.2) false) h).dist x y =
        h.dist x y := by
  intro l
  induction l with
  | nil => intro h x y _; rfl
  | cons p t ih =>
    intro h x y hf
    rw [List.foldl_cons, ih _ x y hf]
    by_cases hm : (x = p.1 ∧ y = p.2) ∨ (x = p.2 ∧ y = p.1)
    · have hw : (g.value p.1 p.2).truthy = false := by
        rcases hm with ⟨h1, h2⟩ | ⟨h1, h2⟩
        · rw [← h1, ← h2]
          exact hf
        · rw [← h2, ← h1, hvs y x]
          exact hf
      rw [set_edge_value_falsy_dist (by rw [hw]; simp)]
    · exact (writeStep_other g p h x y hm).2

theorem readfold_verts (g : PyGraph PyStr) :
    ∀ (l : List (PyStr × PyStr)) (h : PyGraph PyStr),
      (l.foldl (fun h p => h.set_edge_value p (g.value p.1 p.2) false) h).verts =
        h.verts := by
  intro l
  induction l with
  | nil => intro h; rfl
  | cons p t ih =>
    intro h
    rw [List.foldl_cons, ih, set_edge_value_verts]

theorem readfold_symD (g : PyGraph PyStr) :
    ∀ (l : List (PyStr × PyStr)) (h : PyGraph PyStr), SymD h.dist →
      SymD (l.foldl (fun h p => h.set_edge_value p (g.value p.1 p.2) false) h).dist := by
  intro l
  induction l with
  | nil => exact fun h hs => hs
  | cons p t ih =>
    intro h hs
    rw [List.foldl_cons]
    refine ih _ ?_
    by_cases hw : (g.value p.1 p.2).truthy = true
    · rw [set_edge_value_truthy_false_dist hw]
      exact symmSet_symm hs p.1 p.2 1
    · rw [set_edge_value_falsy_dist hw]
      exact hs

theorem nested_write_fold (g : PyGraph PyStr) :
    ∀ (v1s v2s : List PyStr) (h : PyGraph PyStr),
      v1s.foldl (fun h v1 =>
        v2s.foldl (fun h v2 => h.set_edge_value (v1, v2) (g.value v1 v2) false) h) h =
      (v1s.flatMap fun v1 => v2s.map fun v2 => ((v1, v2) : PyStr × PyStr)).foldl
        (fun h p => h.set_edge_value p (g.value p.1 p.2) false) h := by
  intro v1s
  induction v1s with
  | nil => intro v2s h; rfl
  | cons v1 rest ih =>
    intro v2s h
    rw [List.foldl_cons, List.flatMap_cons, List.foldl_append, List.foldl_map]
    exact ih v2s _

end ReadState

section MatrixRoundtrip

theorem read_from_file_cons2 (header sepl : PyStr) (rows : List PyStr) :
    PyGraph.read_from_file (header :: sepl :: rows) =
    (rows.foldl (fun gg row =>
      readRow (((pySplit '|' header).drop 1).map pyStrip) row gg)
      (PyGraph.mkGraph (((pySplit '|' header).drop 1).map pyStrip))).update_distances :=
  rfl

theorem read_matrix_props (g : PyGraph PyStr) (hG : GInv g)
    (hnames : ∀ v ∈ g.verts, pyStrip v = v ∧ '|' ∉ v)
    (hdisc : ∀ a ∈ g.verts, ∀ b ∈ g.verts, strDisc g a b) :
    (PyGraph.read_from_file g.get_adjacency_matrix).verts = g.verts ∧
    (∀ a ∈ g.verts, ∀ b ∈ g.verts,
      (PyGraph.read_from_file g.get_adjacency_matrix).value a b = g.value a b) ∧
    (∀ a ∈ g.verts, ∀ b ∈ g.verts,
      (PyGraph.read_from_file g.get_adjacency_matrix).dist a b = g.dist a b) := by
  have hverts_parse := header_parse g.verts (matrixMaxlen g.verts) hnames
  have h1 : PyGraph.read_from_file g.get_adjacency_matrix =
      ((g.verts.map (fun v1 => (g.verts.foldl
        (fun acc v2 => acc ++ (' ' :: pyRjust (matrixMaxlen g.verts)
          (edgeText g v1 v2) ++ [' ']) ++ ['|'])
        ((pyLjust (matrixMaxlen g.verts) v1 ++ [' ']) ++ ['|'])).dropLast)).foldl
        (fun gg row => readRow g.verts row gg)
        (PyGraph.mkGraph g.verts)).update_distances := by
    rw [show PyGraph.read_from_file g.get_adjacency_matrix =
      ((g.verts.map (fun v1 => (g.verts.foldl
        (fun acc v2 => acc ++ (' ' :: pyRjust (matrixMaxlen g.verts)
          (edgeText g v1 v2) ++ [' ']) ++ ['|'])
        ((pyLjust (matrixMaxlen g.verts) v1 ++ [' ']) ++ ['|'])).dropLast)).foldl
        (fun gg row => readRow (((pySplit '|' ((g.verts.foldl
          (fun acc v => acc ++ (' ' :: pyRjust (matrixMaxlen g.verts) v ++ [' ']) ++ ['|'])
          ((pyRjust (matrixMaxlen g.verts) [] ++ [' ']) ++ ['|'])).dropLast)).drop 1).map
          pyStrip) row gg)
        (PyGraph.mkGraph (((pySplit '|' ((g.verts.foldl
          (fun acc v => acc ++ (' ' :: pyRjust (matrixMaxlen g.verts) v ++ [' ']) ++ ['|'])
          ((pyRjust (matrixMaxlen g.verts) [] ++ [' ']) ++ ['|'])).dropLast)).drop 1).map
          pyStrip))).update_distances from rfl]
    rw [hverts_parse]
  have h2 : PyGraph.read_from_file g.get_adjacency_matrix =
      ((g.verts.foldl (fun h v1 => g.verts.foldl
        (fun h v2 => h.set_edge_value (v1, v2) (g.value v1 v2) false) h)
        (PyGraph.mkGraph g.verts))).update_distances := by
    rw [h1, List.foldl_map]
    congr 1
    refine foldl_ext_mem _ _ g.verts ?_ (PyGraph.mkGraph g.verts)
    intro v1 hv1 b
    exact row_parse g (matrixMaxlen g.verts) v1 (hnames v1 hv1).1 (hnames v1 hv1).2
      (fun v2 hv2 => hdisc v1 hv1 v2 hv2) b
  have hflat : (g.verts.foldl (fun h v1 => g.verts.foldl
      (fun h v2 => h.set_edge_value (v1, v2) (g.value v1 v2) false) h)
      (PyGraph.mkGraph g.verts)) =
      ((g.verts.flatMap fun v1 => g.verts.map fun v2 => ((v1, v2) : PyStr × PyStr)).foldl
        (fun h p => h.set_edge_value p (g.value p.1 p.2) false)
        (PyGraph.mkGraph g.verts)) :=
    nested_write_fold g g.verts g.verts (PyGraph.mkGraph g.verts)
  set pairs : List (PyStr × PyStr) :=
    g.verts.flatMap fun v1 => g.verts.map fun v2 => ((v1, v2) : PyStr × PyStr) with hpairs
  set S : PyGraph PyStr := pairs.foldl
    (fun h p => h.set_edge_value p (g.value p.1 p.2) false)
    (PyGraph.mkGraph g.verts) with hS
  have h3 : PyGraph.read_from_file g.get_adjacency_matrix = S.update_distances := by
    rw [h2, hflat]
  have hGm := GInv_mkGraph g.verts hG.hlen
  have hmv := mkGraph_verts g.verts hG.nodup
  have hSverts : S.verts = g.verts := by
    rw [hS, readfold_verts g pairs (PyGraph.mkGraph g.verts), hmv]
  have hcov : ∀ a ∈ g.verts, ∀ b ∈ g.verts,
      ∃ p ∈ pairs, (p.1 = a ∧ p.2 = b) ∨ (p.1 = b ∧ p.2 = a) := by
    intro a ha b hb
    exact ⟨(a, b), List.mem_flatMap.mpr ⟨a, ha, List.mem_map.mpr ⟨b, hb, rfl⟩⟩,
      Or.inl ⟨rfl, rfl⟩⟩
  have hSval : ∀ a ∈ g.verts, ∀ b ∈ g.verts, S.value a b = g.value a b := by
    intro a ha b hb
    exact readfold_value_touched g hG.valsym pairs (PyGraph.mkGraph g.verts) a b
      (hcov a ha b hb)
  have hSdist : ∀ a ∈ g.verts, ∀ b ∈ g.verts,
      S.dist a b = if a = b then 0
        else if (g.value a b).truthy then 1 else MAXINT := by
    intro a ha b hb
    by_cases hab : a = b
    · subst hab
      rw [if_pos rfl]
      have hfa : (g.value a a).truthy = false := by
        by_cases htr : (g.value a a).truthy = true
        · exact absurd rfl (hG.valmem a a htr).2.2
        · exact eq_false_of_ne_true htr
      rw [readfold_dist_falsy g hG.valsym pairs (PyGraph.mkGraph g.verts) a a hfa,
        mkGraph_dist g.verts hG.nodup hG.hlen a ha a ha, if_pos rfl]
    · rw [if_neg hab]
      by_cases htr : (g.value a b).truthy = true
      · rw [if_pos htr]
        exact readfold_dist_touched g hG.valsym pairs (PyGraph.mkGraph g.verts) a b htr
          (hcov a ha b hb)
      · rw [if_neg htr,
          readfold_dist_falsy g hG.valsym pairs (PyGraph.mkGraph g.verts) a b
            (eq_false_of_ne_true htr),
          mkGraph_dist g.verts hG.nodup hG.hlen a ha b hb, if_neg hab]
  have hSsym : SymD S.dist := by
    rw [hS]
    exact readfold_symD g pairs (PyGraph.mkGraph g.verts) hGm.dsym
  have hSadj : ∀ x y, adjP S x y ↔ adjP g x y := by
    intro x y
    unfold adjP
    rw [hSverts]
    constructor
    · rintro ⟨hx, hy, ht⟩
      rw [hSval x hx y hy] at ht
      exact ⟨hx, hy, ht⟩
    · rintro ⟨hx, hy, ht⟩
      rw [← hSval x hx y hy] at ht
      exact ⟨hx, hy, ht⟩
  have hSlen : S.verts.length ≤ MAXINT := by
    rw [hSverts]
    exact hG.hlen
  have hSlbp : LBP S S.verts S.dist := by
    intro a ha b hb
    rw [hSverts] at ha hb
    rw [hSdist a ha b hb]
    by_cases hab : a = b
    · subst hab
      rw [if_pos rfl]
      constructor
      · intro _
        rw [hopDist_self]
      · intro hnr
        exact absurd ⟨0, WalkN.nil a⟩ hnr
    · rw [if_neg hab]
      by_cases htr : (g.value a b).truthy = true
      · rw [if_pos htr]
        have hadjS : adjP S a b := by
          refine ⟨?_, ?_, ?_⟩
          · rw [hSverts]; exact ha
          · rw [hSverts]; exact hb
          · rw [hSval a ha b hb]; exact htr
        constructor
        · intro _
          exact hopDist_le_of_walkN (WalkN.snoc (WalkN.nil a) hadjS)
        · intro hnr
          exact absurd ⟨1, WalkN.snoc (WalkN.nil a) hadjS⟩ hnr
      · rw [if_neg htr]
        exact ⟨fun _ => hopDist_le_MAXINT hSlen a b, fun _ => le_refl _⟩
  have hSub : ∀ a ∈ S.verts, ∀ b ∈ S.verts, S.dist a b ≤ baseF S a b := by
    intro a ha b hb
    rw [hSverts] at ha hb
    rw [hSdist a ha b hb]
    unfold baseF
    by_cases hab : a = b
    · rw [if_pos hab, if_pos hab]
    · rw [if_neg hab, if_neg hab]
      by_cases htr : (g.value a b).truthy = true
      · have hadjS : adjP S a b := by
          refine ⟨?_, ?_, ?_⟩
          · rw [hSverts]; exact ha
          · rw [hSverts]; exact hb
          · rw [hSval a ha b hb]; exact htr
        rw [if_pos htr, if_pos hadjS]
      · rw [if_neg htr]
        by_cases hadjS : adjP S a b
        · rw [if_pos hadjS]
          have := hadjS.2.2
          rw [hSval a ha b hb] at this
          exact absurd this htr
        · rw [if_neg hadjS]
  have hSnodup : S.verts.Nodup := by
    rw [hSverts]
    exact hG.nodup
  have hcorrect := update_distances_correct S hSnodup hSlen hSsym hSlbp hSub
  refine ⟨?_, ?_, ?_⟩
  · rw [h3, update_distances_verts]
    exact hSverts
  · intro a ha b hb
    rw [h3, update_distances_value]
    exact hSval a ha b hb
  · intro a ha b hb
    rw [h3, hcorrect a (by rw [hSverts]; exact ha) b (by rw [hSverts]; exact hb),
      hopDist_eq_of_adj_iff hSadj a b, ← hG.deq a ha b hb]

end MatrixRoundtrip

section DotFormat

/-- The literal `" -- "` separator of a dot edge line (closing quote of the
first name through the opening quote of the second). -/
def sepDash : PyStr := ['"', ' ', '-', '-', ' ', '"']

/-- The literal `" [label = "` separator of a dot edge line. -/
def sepLabel : PyStr := ['"', ' ', '[', 'l', 'a', 'b', 'e', 'l', ' ', '=', ' ', '"']

/-- One edge line of `get_graphviz` (without the trailing newline):
tab, quoted first name, ` -- `, quoted second name, ` [label = "`,
the stringified value, `"]`. -/
def dotLine (v1 v2 : PyStr) (w : PyVal) : PyStr :=
  '\t' :: '"' :: (v1 ++ (sepDash ++ (v2 ++ (sepLabel ++ (pyValStr w ++ ['"', ']'])))))

/-- The nested loops of `get_graphviz` (`left_vertices` erase scheme, one
line per truthy edge, one orientation each). -/
def getGraphvizAux (val : PyStr → PyStr → PyVal) : List PyStr → List PyStr → List PyStr
  | [], _ => []
  | v1 :: rest, left =>
    (left.filterMap fun v2 =>
      if (val v1 v2).truthy then some (dotLine v1 v2 (val v1 v2)) else Option.none)
      ++ getGraphvizAux val rest (@List.erase PyStr instBEqOfDecidableEq left v1)

/-- `Graph.get_graphviz` (with the default empty label), one list entry per
line: the `Graph G \x7b` header, the edge lines, the closing brace. -/
def PyGraph.get_graphviz (g : PyGraph PyStr) : List PyStr :=
  (['G', 'r', 'a', 'p', 'h', ' ', 'G', ' ', '\x7b'] : PyStr) ::
    (getGraphvizAux g.value g.verts g.verts ++ [['\x7d']])

/-- Longest-first search over candidate group lengths, the backtracking
order of a greedy `(.+)` group: try length `n`, then `n - 1`, ..., then 1. -/
def tryGreedy {α : Type} (f : Nat → Option α) : Nat → Option α
  | 0 => Option.none
  | n + 1 =>
    match f (n + 1) with
    | some r => some r
    | Option.none => tryGreedy f n

/-- Match `(.+)"\]` against the whole of `s`: the greedy third group of the
`read_from_dotfile` regex (`.` matches anything but a newline). -/
def reMatch3 (s : PyStr) : Option PyStr :=
  tryGreedy (fun i =>
    if '\n' ∈ s.take i then Option.none
    else if (s.drop i).take 2 = ['"', ']'] then some (s.take i) else Option.none)
    s.length

/-- Match `(.+)" \[label = "(.+)"\]` against `s`: greedy second group, then
the third. -/
def reMatch2 (s : PyStr) : Option (PyStr × PyStr) :=
  tryGreedy (fun i =>
    if '\n' ∈ s.take i then Option.none
    else if (s.drop i).take 12 = sepLabel then
      match reMatch3 ((s.drop i).drop 12) with
      | some g3 => some (s.take i, g3)
      | Option.none => Option.none
    else Option.none)
    s.length

/-- Match `(.+)" -- "(.+)" \[label = "(.+)"\]` against `s`: greedy first
group, then the rest. -/
def reMatch1 (s : PyStr) : Option (PyStr × PyStr × PyStr) :=
  tryGreedy (fun i =>
    if '\n' ∈ s.take i then Option.none
    else if (s.drop i).take 6 = sepDash then
      match reMatch2 ((s.drop i).drop 6) with
      | some (g2, g3) => some (s.take i, g2, g3)
      | Option.none => Option.none
    else Option.none)
    s.length

/-- `re.match('\s*"(.+)" -- "(.+)" \[label = "(.+)"\]', line)`: the leading
`\s*` takes the maximal whitespace prefix (backtracking cannot help, since
every shorter prefix leaves a whitespace character where the regex then
demands `"`), then the three greedy groups. Trailing characters after the
`]` are ignored, as with `re.match`. -/
def dotParseLine (line : PyStr) : Option (PyStr × PyStr × PyStr) :=
  match line.dropWhile pyWhite with
  | '"' :: rest => reMatch1 rest
  | _ => Option.none

/-- `Graph.read_from_dotfile` over the file's lines: re-initialize, then for
every line matching the edge regex add both vertices and set the edge value
(without recompute); `update_distances()` at the end. -/
def PyGraph.read_from_dotfile (lines : List PyStr) : PyGraph PyStr :=
  (lines.foldl (fun g line =>
    match dotParseLine line with
    | some (v1, v2, w) =>
      ((g.add_vertex v1).add_vertex v2).set_edge_value (v1, v2) (PyVal.pystr w) false
    | Option.none => g) (PyGraph.mkGraph [])).update_distances

end DotFormat

section DotParse

theorem tryGreedy_eq {α : Type} (f : Nat → Option α) (r : α) (i : Nat)
    (h1 : 1 ≤ i) (hf : f i = some r) (hnone : ∀ j, i < j → f j = Option.none) :
    ∀ n, i ≤ n → tryGreedy f n = some r := by
  intro n
  induction n with
  | zero => intro hin; omega
  | succ m ih =>
    intro hin
    show (match f (m + 1) with
      | some r => some r
      | Option.none => tryGreedy f m) = some r
    by_cases him : i = m + 1
    · rw [← him, hf]
    · rw [hnone (m + 1) (by omega)]
      exact ih (by omega)

theorem length_one_le_of_ne_nil {w : PyStr} (hw : w ≠ []) : 1 ≤ w.length := by
  cases w with
  | nil => exact absurd rfl hw
  | cons c t => simp

theorem reMatch3_emit (w : PyStr) (hw : w ≠ []) (hnl : '\n' ∉ w) (hq : '"' ∉ w) :
    reMatch3 (w ++ ['"', ']']) = some w := by
  unfold reMatch3
  have hlen : (w ++ (['"', ']'] : PyStr)).length = w.length + 2 := by simp
  rw [hlen]
  refine tryGreedy_eq _ w w.length (length_one_le_of_ne_nil hw) ?_ ?_
    (w.length + 2) (by omega)
  · rw [List.take_left, List.drop_left, if_neg hnl, if_pos (by rfl)]
  · intro j hj
    obtain ⟨n, rfl⟩ : ∃ n, j = w.length + (n + 1) := ⟨j - w.length - 1, by omega⟩
    by_cases hnlj : '\n' ∈ (w ++ (['"', ']'] : PyStr)).take (w.length + (n + 1))
    · rw [if_pos hnlj]
    · rw [if_neg hnlj, List.drop_append]
      cases n with
      | zero => rw [if_neg (by decide)]
      | succ n2 =>
        rw [List.drop_eq_nil_of_le (by simp), if_neg (by decide)]

end DotParse

theorem head?_append_ne {l t : List Char} (h : l ≠ []) : (l ++ t).head? = l.head? := by
  cases l with
  | nil => exact absurd rfl h
  | cons c l2 => rfl

theorem head?_take_pos {l : List Char} {n : Nat} (hn : 1 ≤ n) :
    (l.take n).head? = l.head? := by
  cases l with
  | nil => simp
  | cons c t =>
    cases n with
    | zero => omega
    | succ m => rfl

theorem drop_ne_nil_of_lt {l : List Char} {n : Nat} (h : n < l.length) : l.drop n ≠ [] := by
  intro heq
  have hl : (l.drop n).length = l.length - n := by simp
  rw [heq] at hl
  simp at hl
  omega

theorem mem_of_head?_drop {l : List Char} {n : Nat} {c : Char}
    (h : (l.drop n).head? = some c) : c ∈ l := by
  cases hd : l.drop n with
  | nil => rw [hd] at h; exact absurd h (by simp)
  | cons a t =>
    rw [hd] at h
    have ha : a = c := Option.some.inj h
    have hm : a ∈ l.drop n := by rw [hd]; exact List.mem_cons_self a t
    exact ha ▸ List.mem_of_mem_drop hm

theorem sepLabel_drop_head :
    ∀ m, m < 11 → 1 ≤ m → ¬(sepLabel.drop m).head? = some '"' := by decide

theorem sepDash_drop_head :
    ∀ m, m < 5 → 1 ≤ m → ¬(sepDash.drop m).head? = some '"' := by decide

theorem reMatch2_emit (v2 w : PyStr) (hv2 : v2 ≠ []) (hnl2 : '\n' ∉ v2)
    (hw : w ≠ []) (hnlw : '\n' ∉ w) (hqw : '"' ∉ w) (hsw : ' ' ∉ w) :
    reMatch2 (v2 ++ (sepLabel ++ (w ++ ['"', ']']))) = some (v2, w) := by
  unfold reMatch2
  have hlen : (v2 ++ (sepLabel ++ (w ++ (['"', ']'] : PyStr)))).length
      = v2.length + (12 + (w.length + 2)) := by simp [sepLabel]; omega
  rw [hlen]
  refine tryGreedy_eq _ (v2, w) v2.length (length_one_le_of_ne_nil hv2) ?_ ?_
    (v2.length + (12 + (w.length + 2))) (by omega)
  · rw [List.take_left, List.drop_left, if_neg hnl2]
    have ht12 : (sepLabel ++ (w ++ (['"', ']'] : PyStr))).take 12 = sepLabel := by
      rw [show (12 : Nat) = sepLabel.length from rfl, List.take_left]
    have hd12 : (sepLabel ++ (w ++ (['"', ']'] : PyStr))).drop 12 = w ++ ['"', ']'] := by
      rw [show (12 : Nat) = sepLabel.length from rfl, List.drop_left]
    rw [if_pos ht12, hd12, reMatch3_emit w hw hnlw hqw]
  · intro j hj
    obtain ⟨k, rfl⟩ : ∃ k, j = v2.length + (k + 1) := ⟨j - v2.length - 1, by omega⟩
    by_cases hnlj : '\n' ∈ (v2 ++ (sepLabel ++ (w ++ (['"', ']'] : PyStr)))).take
      (v2.length + (k + 1))
    · rw [if_pos hnlj]
    · have hcond :
          ¬ (((sepLabel ++ (w ++ (['"', ']'] : PyStr))).drop (k + 1)).take 12 = sepLabel) := by
        intro heq
        have hhead : ((sepLabel ++ (w ++ (['"', ']'] : PyStr))).drop (k + 1)).head?
            = some '"' := by
          have h6 := @head?_take_pos
            ((sepLabel ++ (w ++ (['"', ']'] : PyStr))).drop (k + 1)) 12 (by omega)
          rw [heq] at h6
          exact h6.symm
        by_cases hk1 : k + 1 ≤ 10
        · have hd : (sepLabel ++ (w ++ (['"', ']'] : PyStr))).drop (k + 1)
              = sepLabel.drop (k + 1) ++ (w ++ ['"', ']']) :=
            List.drop_append_of_le_length (by simp [sepLabel]; omega)
          have hne : sepLabel.drop (k + 1) ≠ ([] : PyStr) :=
            drop_ne_nil_of_lt (by simp [sepLabel]; omega)
          rw [hd, head?_append_ne hne] at hhead
          exact sepLabel_drop_head (k + 1) (by omega) (by omega) hhead
        · by_cases hk2 : k + 1 = 11
          · rw [hk2] at heq
            have hd : (sepLabel ++ (w ++ (['"', ']'] : PyStr))).drop 11
                = '"' :: (w ++ ['"', ']']) := rfl
            rw [hd] at heq
            rw [show ('"' :: (w ++ (['"', ']'] : PyStr))).take 12
                = '"' :: (w ++ (['"', ']'] : PyStr)).take 11 from rfl] at heq
            rw [show sepLabel
                = '"' :: ([' ', '[', 'l', 'a', 'b', 'e', 'l', ' ', '=', ' ', '"'] : PyStr)
                from rfl] at heq
            injection heq with h1 h2
            have hsecond : (w ++ (['"', ']'] : PyStr)).head? = some ' ' := by
              have h3 := @head?_take_pos (w ++ (['"', ']'] : PyStr)) 11 (by omega)
              rw [h2] at h3
              exact h3.symm
            rw [head?_append_ne hw] at hsecond
            cases w with
            | nil => exact hw rfl
            | cons c t =>
              have hc : c = ' ' := Option.some.inj hsecond
              exact hsw (by rw [← hc]; exact List.mem_cons_self c t)
          · obtain ⟨k2, hk3⟩ : ∃ k2, k + 1 = 12 + k2 := ⟨k + 1 - 12, by omega⟩
            rw [hk3] at heq hhead
            rw [show (12 : Nat) + k2 = sepLabel.length + k2 from rfl,
              List.drop_append] at heq hhead
            by_cases hk4 : k2 < w.length
            · have hd : (w ++ (['"', ']'] : PyStr)).drop k2
                  = w.drop k2 ++ ['"', ']'] :=
                List.drop_append_of_le_length (by omega)
              rw [hd, head?_append_ne (drop_ne_nil_of_lt hk4)] at hhead
              exact hqw (mem_of_head?_drop hhead)
            · by_cases hk5 : k2 = w.length
              · rw [hk5, List.drop_left] at heq
                exact absurd heq (by decide)
              · obtain ⟨k3, hk6⟩ : ∃ k3, k2 = w.length + (k3 + 1) :=
                  ⟨k2 - w.length - 1, by omega⟩
                rw [hk6, List.drop_append] at heq
                cases k3 with
                | zero => exact absurd heq (by decide)
                | succ k4 =>
                  rw [List.drop_eq_nil_of_le (by simp)] at heq
                  exact absurd heq (by decide)
      rw [if_neg hnlj, List.drop_append, if_neg hcond]

theorem rest2_take6_ne (v2 w : PyStr) (hv2 : v2 ≠ []) (hq2 : '"' ∉ v2) (hs2 : ' ' ∉ v2)
    (hw : w ≠ []) (hqw : '"' ∉ w) (hsw : ' ' ∉ w) :
    ∀ k2, ¬ (((v2 ++ (sepLabel ++ (w ++ (['"', ']'] : PyStr)))).drop k2).take 6 = sepDash) := by
  intro k2 heq
  have hhead : ((v2 ++ (sepLabel ++ (w ++ (['"', ']'] : PyStr)))).drop k2).head?
      = some '"' := by
    have h6 := @head?_take_pos
      ((v2 ++ (sepLabel ++ (w ++ (['"', ']'] : PyStr)))).drop k2) 6 (by omega)
    rw [heq] at h6
    exact h6.symm
  by_cases hk1 : k2 < v2.length
  · have hd : (v2 ++ (sepLabel ++ (w ++ (['"', ']'] : PyStr)))).drop k2
        = v2.drop k2 ++ (sepLabel ++ (w ++ ['"', ']'])) :=
      List.drop_append_of_le_length (by omega)
    rw [hd, head?_append_ne (drop_ne_nil_of_lt hk1)] at hhead
    exact hq2 (mem_of_head?_drop hhead)
  · by_cases hk2 : k2 = v2.length
    · rw [hk2, List.drop_left] at heq
      rw [List.take_append_of_le_length (by decide)] at heq
      exact absurd heq (by decide)
    · obtain ⟨m2, hm⟩ : ∃ m2, k2 = v2.length + (m2 + 1) := ⟨k2 - v2.length - 1, by omega⟩
      rw [hm, List.drop_append] at heq hhead
      by_cases hm1 : m2 + 1 ≤ 10
      · have hd : (sepLabel ++ (w ++ (['"', ']'] : PyStr))).drop (m2 + 1)
            = sepLabel.drop (m2 + 1) ++ (w ++ ['"', ']']) :=
          List.drop_append_of_le_length (by simp [sepLabel]; omega)
        have hne : sepLabel.drop (m2 + 1) ≠ ([] : PyStr) :=
          drop_ne_nil_of_lt (by simp [sepLabel]; omega)
        rw [hd, head?_append_ne hne] at hhead
        exact sepLabel_drop_head (m2 + 1) (by omega) (by omega) hhead
      · by_cases hm2 : m2 + 1 = 11
        · rw [hm2] at heq
          have hd : (sepLabel ++ (w ++ (['"', ']'] : PyStr))).drop 11
              = '"' :: (w ++ ['"', ']']) := rfl
          rw [hd] at heq
          rw [show ('"' :: (w ++ (['"', ']'] : PyStr))).take 6
              = '"' :: (w ++ (['"', ']'] : PyStr)).take 5 from rfl] at heq
          rw [show sepDash = '"' :: ([' ', '-', '-', ' ', '"'] : PyStr) from rfl] at heq
          injection heq with h1 h2
          have hsecond : (w ++ (['"', ']'] : PyStr)).head? = some ' ' := by
            have h3 := @head?_take_pos (w ++ (['"', ']'] : PyStr)) 5 (by omega)
            rw [h2] at h3
            exact h3.symm
          rw [head?_append_ne hw] at hsecond
          cases w with
          | nil => exact hw rfl
          | cons c t =>
            have hc : c = ' ' := Option.some.inj hsecond
            exact hsw (by rw [← hc]; exact List.mem_cons_self c t)
        · obtain ⟨k3, hk4⟩ : ∃ k3, m2 + 1 = 12 + k3 := ⟨m2 + 1 - 12, by omega⟩
          rw [hk4] at heq hhead
          rw [show (12 : Nat) + k3 = sepLabel.length + k3 from rfl,
            List.drop_append] at heq hhead
          by_cases hk5 : k3 < w.length
          · have hd : (w ++ (['"', ']'] : PyStr)).drop k3 = w.drop k3 ++ ['"', ']'] :=
              List.drop_append_of_le_length (by omega)
            rw [hd, head?_append_ne (drop_ne_nil_of_lt hk5)] at hhead
            exact hqw (mem_of_head?_drop hhead)
          · by_cases hk6 : k3 = w.length
            · rw [hk6, List.drop_left] at heq
              exact absurd heq (by decide)
            · obtain ⟨k4, hk7⟩ : ∃ k4, k3 = w.length + (k4 + 1) :=
                ⟨k3 - w.length - 1, by omega⟩
              rw [hk7, List.drop_append] at heq
              cases k4 with
              | zero => exact absurd heq (by decide)
              | succ k5 =>
                rw [List.drop_eq_nil_of_le (by simp)] at heq
                exact absurd heq (by decide)

theorem reMatch1_emit (v1 v2 w : PyStr)
    (hv1 : v1 ≠ []) (hnl1 : '\n' ∉ v1)
    (hv2 : v2 ≠ []) (hnl2 : '\n' ∉ v2) (hq2 : '"' ∉ v2) (hs2 : ' ' ∉ v2)
    (hw : w ≠ []) (hnlw : '\n' ∉ w) (hqw : '"' ∉ w) (hsw : ' ' ∉ w) :
    reMatch1 (v1 ++ (sepDash ++ (v2 ++ (sepLabel ++ (w ++ ['"', ']'])))))
      = some (v1, v2, w) := by
  unfold reMatch1
  have hlen :
      (v1 ++ (sepDash ++ (v2 ++ (sepLabel ++ (w ++ (['"', ']'] : PyStr)))))).length
      = v1.length + (6 + (v2.length + (12 + (w.length + 2)))) := by
    simp [sepDash, sepLabel]; omega
  rw [hlen]
  refine tryGreedy_eq _ (v1, v2, w) v1.length (length_one_le_of_ne_nil hv1) ?_ ?_
    (v1.length + (6 + (v2.length + (12 + (w.length + 2))))) (by omega)
  · rw [List.take_left, List.drop_left, if_neg hnl1]
    have ht6 : (sepDash ++ (v2 ++ (sepLabel ++ (w ++ (['"', ']'] : PyStr))))).take 6
        = sepDash := by
      rw [show (6 : Nat) = sepDash.length from rfl, List.take_left]
    have hd6 : (sepDash ++ (v2 ++ (sepLabel ++ (w ++ (['"', ']'] : PyStr))))).drop 6
        = v2 ++ (sepLabel ++ (w ++ ['"', ']'])) := by
      rw [show (6 : Nat) = sepDash.length from rfl, List.drop_left]
    rw [if_pos ht6, hd6, reMatch2_emit v2 w hv2 hnl2 hw hnlw hqw hsw]
  · intro j hj
    obtain ⟨k, rfl⟩ : ∃ k, j = v1.length + (k + 1) := ⟨j - v1.length - 1, by omega⟩
    by_cases hnlj : '\n' ∈
      (v1 ++ (sepDash ++ (v2 ++ (sepLabel ++ (w ++ (['"', ']'] : PyStr)))))).take
      (v1.length + (k + 1))
    · rw [if_pos hnlj]
    · have hcond :
          ¬ (((sepDash ++ (v2 ++ (sepLabel ++ (w ++ (['"', ']'] : PyStr))))).drop
            (k + 1)).take 6 = sepDash) := by
        intro heq
        have hhead :
            ((sepDash ++ (v2 ++ (sepLabel ++ (w ++ (['"', ']'] : PyStr))))).drop
              (k + 1)).head? = some '"' := by
          have h6 := @head?_take_pos
            ((sepDash ++ (v2 ++ (sepLabel ++ (w ++ (['"', ']'] : PyStr))))).drop (k + 1))
            6 (by omega)
          rw [heq] at h6
          exact h6.symm
        by_cases hk1 : k + 1 ≤ 4
        · have hd : (sepDash ++ (v2 ++ (sepLabel ++ (w ++ (['"', ']'] : PyStr))))).drop
              (k + 1) = sepDash.drop (k + 1) ++ (v2 ++ (sepLabel ++ (w ++ ['"', ']']))) :=
            List.drop_append_of_le_length (by simp [sepDash]; omega)
          have hne : sepDash.drop (k + 1) ≠ ([] : PyStr) :=
            drop_ne_nil_of_lt (by simp [sepDash]; omega)
          rw [hd, head?_append_ne hne] at hhead
          exact sepDash_drop_head (k + 1) (by omega) (by omega) hhead
        · by_cases hk2 : k + 1 = 5
          · rw [hk2] at heq
            have hd : (sepDash ++ (v2 ++ (sepLabel ++ (w ++ (['"', ']'] : PyStr))))).drop 5
                = '"' :: (v2 ++ (sepLabel ++ (w ++ ['"', ']']))) := rfl
            rw [hd] at heq
            rw [show ('"' :: (v2 ++ (sepLabel ++ (w ++ (['"', ']'] : PyStr))))).take 6
                = '"' :: (v2 ++ (sepLabel ++ (w ++ (['"', ']'] : PyStr)))).take 5
                from rfl] at heq
            rw [show sepDash = '"' :: ([' ', '-', '-', ' ', '"'] : PyStr) from rfl] at heq
            injection heq with h1 h2
            have hsecond : (v2 ++ (sepLabel ++ (w ++ (['"', ']'] : PyStr)))).head?
                = some ' ' := by
              have h3 := @head?_take_pos
                (v2 ++ (sepLabel ++ (w ++ (['"', ']'] : PyStr)))) 5 (by omega)
              rw [h2] at h3
              exact h3.symm
            rw [head?_append_ne hv2] at hsecond
            cases v2 with
            | nil => exact hv2 rfl
            | cons c t =>
              have hc : c = ' ' := Option.some.inj hsecond
              exact hs2 (by rw [← hc]; exact List.mem_cons_self c t)
          · obtain ⟨k2, hk3⟩ : ∃ k2, k + 1 = 6 + k2 := ⟨k + 1 - 6, by omega⟩
            rw [hk3] at heq
            rw [show (6 : Nat) + k2 = sepDash.length + k2 from rfl,
              List.drop_append] at heq
            exact rest2_take6_ne v2 w hv2 hq2 hs2 hw hqw hsw k2 heq
      rw [if_neg hnlj, List.drop_append, if_neg hcond]

theorem dotParseLine_emit (v1 v2 : PyStr) (wv : PyVal)
    (hv1 : v1 ≠ []) (hnl1 : '\n' ∉ v1)
    (hv2 : v2 ≠ []) (hnl2 : '\n' ∉ v2) (hq2 : '"' ∉ v2) (hs2 : ' ' ∉ v2)
    (hw : pyValStr wv ≠ []) (hnlw : '\n' ∉ pyValStr wv) (hqw : '"' ∉ pyValStr wv)
    (hsw : ' ' ∉ pyValStr wv) :
    dotParseLine (dotLine v1 v2 wv) = some (v1, v2, pyValStr wv) := by
  show (match (dotLine v1 v2 wv).dropWhile pyWhite with
    | '"' :: rest => reMatch1 rest
    | _ => Option.none) = some (v1, v2, pyValStr wv)
  have hdw : (dotLine v1 v2 wv).dropWhile pyWhite
      = '"' :: (v1 ++ (sepDash ++ (v2 ++ (sepLabel ++ (pyValStr wv ++ ['"', ']']))))) := by
    have h1 : dotLine v1 v2 wv = '\t' :: '"' ::
        (v1 ++ (sepDash ++ (v2 ++ (sepLabel ++ (pyValStr wv ++ ['"', ']']))))) := rfl
    rw [h1, List.dropWhile_cons, if_pos (by decide), List.dropWhile_cons,
      if_neg (by decide)]
  rw [hdw]
  exact reMatch1_emit v1 v2 (pyValStr wv) hv1 hnl1 hv2 hnl2 hq2 hs2 hw hnlw hqw hsw

theorem dotParseLine_graphHeader :
    dotParseLine (['G', 'r', 'a', 'p', 'h', ' ', 'G', ' ', '\x7b'] : PyStr)
      = Option.none := by decide

theorem dotParseLine_graphFooter :
    dotParseLine (['\x7d'] : PyStr) = Option.none := by decide

section DotRead

/-- One step of the `read_from_dotfile` loop after a successful edge-line
parse: add both endpoints, then write the label string as the edge value
(no recompute). -/
def dstep (h : PyGraph PyStr) (ev : (PyStr × PyStr) × PyVal) : PyGraph PyStr :=
  ((h.add_vertex ev.1.1).add_vertex ev.1.2).set_edge_value (ev.1.1, ev.1.2)
    (PyVal.pystr (pyValStr ev.2)) false

/-- An edge-list entry covers the (ordered as stored) pair of `x` and `y`. -/
def pairOf (ev : (PyStr × PyStr) × PyVal) (x y : PyStr) : Prop :=
  (x = ev.1.1 ∧ y = ev.1.2) ∨ (x = ev.1.2 ∧ y = ev.1.1)

theorem pystr_truthy {s : PyStr} (h : s ≠ []) : (PyVal.pystr s).truthy = true := by
  simp [PyVal.truthy, h]

theorem add_vertex_mem (h : PyGraph PyStr) (v x : PyStr) :
    x ∈ (h.add_vertex v).verts ↔ x ∈ h.verts ∨ x = v := by
  by_cases hv : v ∈ h.verts
  · rw [show h.add_vertex v = h from by unfold PyGraph.add_vertex; rw [if_pos hv]]
    constructor
    · exact Or.inl
    · rintro (hx | rfl)
      · exact hx
      · exact hv
  · rw [(add_vertex_new hv).1, List.mem_append, List.mem_singleton]

theorem add_vertex_nodup (h : PyGraph PyStr) (v : PyStr) (hnd : h.verts.Nodup) :
    (h.add_vertex v).verts.Nodup := by
  by_cases hv : v ∈ h.verts
  · rw [show h.add_vertex v = h from by unfold PyGraph.add_vertex; rw [if_pos hv]]
    exact hnd
  · rw [(add_vertex_new hv).1]
    exact List.Nodup.append hnd (List.nodup_singleton v) (by simpa using fun hvv => hv hvv)

theorem add_vertex_pres (h : PyGraph PyStr) (v x y : PyStr)
    (hx : x ∈ h.verts) (hy : y ∈ h.verts) :
    (h.add_vertex v).value x y = h.value x y ∧ (h.add_vertex v).dist x y = h.dist x y := by
  by_cases hv : v ∈ h.verts
  · rw [show h.add_vertex v = h from by unfold PyGraph.add_vertex; rw [if_pos hv]]
    exact ⟨rfl, rfl⟩
  · obtain ⟨_, hval, hdst⟩ := add_vertex_new hv
    have hxv : ¬x = v := fun he => hv (he ▸ hx)
    have hyv : ¬y = v := fun he => hv (he ▸ hy)
    have hc : ¬((y = v ∧ x ∈ h.verts ++ [v]) ∨ (x = v ∧ y ∈ h.verts ++ [v])) := by tauto
    have hd : ¬(x = v ∧ y = v) := by tauto
    rw [hval, hdst, if_neg hc, if_neg hd, if_neg hc]
    exact ⟨rfl, rfl⟩

theorem add_vertex_value_none (h : PyGraph PyStr) (v x y : PyStr)
    (h0 : h.value x y = PyVal.none) : (h.add_vertex v).value x y = PyVal.none := by
  by_cases hv : v ∈ h.verts
  · rw [show h.add_vertex v = h from by unfold PyGraph.add_vertex; rw [if_pos hv]]
    exact h0
  · rw [(add_vertex_new hv).2.1]
    split
    · rfl
    · exact h0

theorem add_vertex_diag (h : PyGraph PyStr) (v : PyStr)
    (h0 : ∀ x ∈ h.verts, h.dist x x = 0) :
    ∀ x ∈ (h.add_vertex v).verts, (h.add_vertex v).dist x x = 0 := by
  intro x hx
  by_cases hv : v ∈ h.verts
  · rw [show h.add_vertex v = h from by
      unfold PyGraph.add_vertex; rw [if_pos hv]] at hx ⊢
    exact h0 x hx
  · obtain ⟨hverts, _, hdst⟩ := add_vertex_new hv
    rw [hverts] at hx
    rcases List.mem_append.mp hx with hmem | hxv
    · have hxv2 : ¬x = v := fun he => hv (he ▸ hmem)
      rw [hdst, if_neg (fun hc => hxv2 hc.1), if_neg (by tauto)]
      exact h0 x hmem
    · have hx3 : x = v := List.mem_singleton.mp hxv
      subst hx3
      rw [hdst, if_pos ⟨rfl, rfl⟩]

theorem add_vertex_sym (h : PyGraph PyStr) (v : PyStr)
    (hvs : ∀ x y, h.value x y = h.value y x) (hds : SymD h.dist) :
    (∀ x y, (h.add_vertex v).value x y = (h.add_vertex v).value y x) ∧
    SymD (h.add_vertex v).dist := by
  by_cases hv : v ∈ h.verts
  · rw [show h.add_vertex v = h from by unfold PyGraph.add_vertex; rw [if_pos hv]]
    exact ⟨hvs, hds⟩
  · obtain ⟨_, hval, hdst⟩ := add_vertex_new hv
    constructor
    · intro x y
      rw [hval x y, hval y x]
      by_cases hc : (y = v ∧ x ∈ h.verts ++ [v]) ∨ (x = v ∧ y ∈ h.verts ++ [v])
      · rw [if_pos hc, if_pos hc.symm]
      · rw [if_neg hc, if_neg
          (show ¬((x = v ∧ y ∈ h.verts ++ [v]) ∨ (y = v ∧ x ∈ h.verts ++ [v])) from
            fun hh => hc hh.symm)]
        exact hvs x y
    · intro x y
      rw [hdst x y, hdst y x]
      by_cases hd : x = v ∧ y = v
      · rw [if_pos hd, if_pos (show y = v ∧ x = v from ⟨hd.2, hd.1⟩)]
      · rw [if_neg hd, if_neg (show ¬(y = v ∧ x = v) from fun hh => hd ⟨hh.2, hh.1⟩)]
        by_cases hc : (y = v ∧ x ∈ h.verts ++ [v]) ∨ (x = v ∧ y ∈ h.verts ++ [v])
        · rw [if_pos hc, if_pos hc.symm]
        · rw [if_neg hc, if_neg
            (show ¬((x = v ∧ y ∈ h.verts ++ [v]) ∨ (y = v ∧ x ∈ h.verts ++ [v])) from
              fun hh => hc hh.symm)]
          exact hds x y

theorem add_vertex_J (h : PyGraph PyStr) (v : PyStr)
    (hJ : ∀ x y, x ∈ h.verts → y ∈ h.verts → ¬x = y → h.value x y = PyVal.none →
      h.dist x y = MAXINT) :
    ∀ x y, x ∈ (h.add_vertex v).verts → y ∈ (h.add_vertex v).verts → ¬x = y →
      (h.add_vertex v).value x y = PyVal.none → (h.add_vertex v).dist x y = MAXINT := by
  intro x y hx hy hxy hval0
  by_cases hv : v ∈ h.verts
  · rw [show h.add_vertex v = h from by
      unfold PyGraph.add_vertex; rw [if_pos hv]] at hx hy hval0 ⊢
    exact hJ x y hx hy hxy hval0
  · obtain ⟨hverts, hval, hdst⟩ := add_vertex_new hv
    rw [hverts] at hx hy
    rw [hdst, if_neg (fun hc => hxy (hc.1.trans hc.2.symm))]
    by_cases hc : (y = v ∧ x ∈ h.verts ++ [v]) ∨ (x = v ∧ y ∈ h.verts ++ [v])
    · rw [if_pos hc]
    · rw [if_neg hc]
      have hxv : ¬x = v := by
        intro he
        exact hc (Or.inr ⟨he, hy⟩)
      have hyv : ¬y = v := by
        intro he
        exact hc (Or.inl ⟨he, hx⟩)
      have hx2 : x ∈ h.verts := by
        rcases List.mem_append.mp hx with hm | hm
        · exact hm
        · exact absurd (List.mem_singleton.mp hm) hxv
      have hy2 : y ∈ h.verts := by
        rcases List.mem_append.mp hy with hm | hm
        · exact hm
        · exact absurd (List.mem_singleton.mp hm) hyv
      refine hJ x y hx2 hy2 hxy ?_
      rw [hval, if_neg hc] at hval0
      exact hval0

end DotRead

theorem dstep_value (h : PyGraph PyStr) (ev : (PyStr × PyStr) × PyVal) :
    (dstep h ev).value = symmSet ((h.add_vertex ev.1.1).add_vertex ev.1.2).value
      ev.1.1 ev.1.2 (PyVal.pystr (pyValStr ev.2)) := by
  show (((h.add_vertex ev.1.1).add_vertex ev.1.2).set_edge_value (ev.1.1, ev.1.2)
    (PyVal.pystr (pyValStr ev.2)) false).value = _
  rw [set_edge_value_value]

theorem dstep_dist_truthy (h : PyGraph PyStr) (ev : (PyStr × PyStr) × PyVal)
    (ht : pyValStr ev.2 ≠ []) :
    (dstep h ev).dist = symmSet ((h.add_vertex ev.1.1).add_vertex ev.1.2).dist
      ev.1.1 ev.1.2 1 := by
  show (((h.add_vertex ev.1.1).add_vertex ev.1.2).set_edge_value (ev.1.1, ev.1.2)
    (PyVal.pystr (pyValStr ev.2)) false).dist = _
  rw [set_edge_value_truthy_false_dist (pystr_truthy ht)]

theorem dstep_verts_mem (h : PyGraph PyStr) (ev : (PyStr × PyStr) × PyVal) (x : PyStr) :
    x ∈ (dstep h ev).verts ↔ x ∈ h.verts ∨ x = ev.1.1 ∨ x = ev.1.2 := by
  show x ∈ (((h.add_vertex ev.1.1).add_vertex ev.1.2).set_edge_value (ev.1.1, ev.1.2)
    (PyVal.pystr (pyValStr ev.2)) false).verts ↔ _
  rw [set_edge_value_verts, add_vertex_mem, add_vertex_mem]
  tauto

theorem dstep_nodup (h : PyGraph PyStr) (ev : (PyStr × PyStr) × PyVal)
    (hnd : h.verts.Nodup) : (dstep h ev).verts.Nodup := by
  show (((h.add_vertex ev.1.1).add_vertex ev.1.2).set_edge_value (ev.1.1, ev.1.2)
    (PyVal.pystr (pyValStr ev.2)) false).verts.Nodup
  rw [set_edge_value_verts]
  exact add_vertex_nodup _ _ (add_vertex_nodup _ _ hnd)

theorem dstep_pres (h : PyGraph PyStr) (ev : (PyStr × PyStr) × PyVal) (x y : PyStr)
    (hx : x ∈ h.verts) (hy : y ∈ h.verts) (hnp : ¬pairOf ev x y) :
    (dstep h ev).value x y = h.value x y ∧ (dstep h ev).dist x y = h.dist x y := by
  have hx1 : x ∈ (h.add_vertex ev.1.1).verts := (add_vertex_mem h ev.1.1 x).mpr (Or.inl hx)
  have hy1 : y ∈ (h.add_vertex ev.1.1).verts := (add_vertex_mem h ev.1.1 y).mpr (Or.inl hy)
  have hp1 := add_vertex_pres h ev.1.1 x y hx hy
  have hp2 := add_vertex_pres (h.add_vertex ev.1.1) ev.1.2 x y hx1 hy1
  have hcond : ¬((x = ev.1.1 ∧ y = ev.1.2) ∨ (x = ev.1.2 ∧ y = ev.1.1)) := hnp
  constructor
  · rw [dstep_value]
    unfold symmSet
    rw [if_neg hcond, hp2.1, hp1.1]
  · by_cases ht : pyValStr ev.2 = []
    · have hft : ¬(PyVal.pystr (pyValStr ev.2)).truthy = true := by
        simp [PyVal.truthy, ht]
      have hd : (dstep h ev).dist = ((h.add_vertex ev.1.1).add_vertex ev.1.2).dist :=
        set_edge_value_falsy_dist hft
      rw [hd, hp2.2, hp1.2]
    · rw [dstep_dist_truthy h ev ht]
      unfold symmSet
      rw [if_neg hcond, hp2.2, hp1.2]

theorem dstep_value_none (h : PyGraph PyStr) (ev : (PyStr × PyStr) × PyVal) (x y : PyStr)
    (hnp : ¬pairOf ev x y) (h0 : h.value x y = PyVal.none) :
    (dstep h ev).value x y = PyVal.none := by
  have hcond : ¬((x = ev.1.1 ∧ y = ev.1.2) ∨ (x = ev.1.2 ∧ y = ev.1.1)) := hnp
  rw [dstep_value]
  unfold symmSet
  rw [if_neg hcond]
  exact add_vertex_value_none _ _ _ _ (add_vertex_value_none _ _ _ _ h0)

theorem dstep_diag (h : PyGraph PyStr) (ev : (PyStr × PyStr) × PyVal)
    (hne : ev.1.1 ≠ ev.1.2) (h0 : ∀ x ∈ h.verts, h.dist x x = 0) :
    ∀ x ∈ (dstep h ev).verts, (dstep h ev).dist x x = 0 := by
  intro x hx
  have hx2 : x ∈ ((h.add_vertex ev.1.1).add_vertex ev.1.2).verts := by
    have hv : (dstep h ev).verts = ((h.add_vertex ev.1.1).add_vertex ev.1.2).verts :=
      set_edge_value_verts _ _ _ _
    rw [hv] at hx
    exact hx
  have hdd := add_vertex_diag (h.add_vertex ev.1.1) ev.1.2
    (add_vertex_diag h ev.1.1 h0) x hx2
  have hcond : ¬((x = ev.1.1 ∧ x = ev.1.2) ∨ (x = ev.1.2 ∧ x = ev.1.1)) := by
    rintro (⟨h1, h2⟩ | ⟨h1, h2⟩)
    · exact hne (h1.symm.trans h2)
    · exact hne (h2.symm.trans h1)
  by_cases ht : pyValStr ev.2 = []
  · have hft : ¬(PyVal.pystr (pyValStr ev.2)).truthy = true := by
      simp [PyVal.truthy, ht]
    have hd : (dstep h ev).dist = ((h.add_vertex ev.1.1).add_vertex ev.1.2).dist :=
      set_edge_value_falsy_dist hft
    rw [hd]
    exact hdd
  · rw [dstep_dist_truthy h ev ht]
    unfold symmSet
    rw [if_neg hcond]
    exact hdd

theorem dstep_sym (h : PyGraph PyStr) (ev : (PyStr × PyStr) × PyVal)
    (hvs : ∀ x y, h.value x y = h.value y x) (hds : SymD h.dist) :
    (∀ x y, (dstep h ev).value x y = (dstep h ev).value y x) ∧
    SymD (dstep h ev).dist := by
  obtain ⟨hvs1, hds1⟩ := add_vertex_sym h ev.1.1 hvs hds
  obtain ⟨hvs2, hds2⟩ := add_vertex_sym (h.add_vertex ev.1.1) ev.1.2 hvs1 hds1
  constructor
  · intro x y
    rw [dstep_value]
    exact symmSet_symm hvs2 ev.1.1 ev.1.2 _ x y
  · by_cases ht : pyValStr ev.2 = []
    · have hft : ¬(PyVal.pystr (pyValStr ev.2)).truthy = true := by
        simp [PyVal.truthy, ht]
      have hd : (dstep h ev).dist = ((h.add_vertex ev.1.1).add_vertex ev.1.2).dist :=
        set_edge_value_falsy_dist hft
      rw [hd]
      exact hds2
    · rw [dstep_dist_truthy h ev ht]
      intro x y
      exact symmSet_symm hds2 ev.1.1 ev.1.2 1 x y

theorem dstep_J (h : PyGraph PyStr) (ev : (PyStr × PyStr) × PyVal)
    (hJ : ∀ x y, x ∈ h.verts → y ∈ h.verts → ¬x = y → h.value x y = PyVal.none →
      h.dist x y = MAXINT) :
    ∀ x y, x ∈ (dstep h ev).verts → y ∈ (dstep h ev).verts → ¬x = y →
      (dstep h ev).value x y = PyVal.none → (dstep h ev).dist x y = MAXINT := by
  intro x y hx hy hxy hval0
  have hJ2 := add_vertex_J (h.add_vertex ev.1.1) ev.1.2 (add_vertex_J h ev.1.1 hJ)
  have hvv : (dstep h ev).verts = ((h.add_vertex ev.1.1).add_vertex ev.1.2).verts :=
    set_edge_value_verts _ _ _ _
  have hx2 : x ∈ ((h.add_vertex ev.1.1).add_vertex ev.1.2).verts := by
    rw [hvv] at hx; exact hx
  have hy2 : y ∈ ((h.add_vertex ev.1.1).add_vertex ev.1.2).verts := by
    rw [hvv] at hy; exact hy
  by_cases hp : pairOf ev x y
  · have hcond : (x = ev.1.1 ∧ y = ev.1.2) ∨ (x = ev.1.2 ∧ y = ev.1.1) := hp
    rw [dstep_value] at hval0
    unfold symmSet at hval0
    rw [if_pos hcond] at hval0
    exact absurd hval0 (by simp)
  · have hcond : ¬((x = ev.1.1 ∧ y = ev.1.2) ∨ (x = ev.1.2 ∧ y = ev.1.1)) := hp
    rw [dstep_value] at hval0
    unfold symmSet at hval0
    rw [if_neg hcond] at hval0
    have hv0 := hJ2 x y hx2 hy2 hxy hval0
    by_cases ht : pyValStr ev.2 = []
    · have hft : ¬(PyVal.pystr (pyValStr ev.2)).truthy = true := by
        simp [PyVal.truthy, ht]
      have hd : (dstep h ev).dist = ((h.add_vertex ev.1.1).add_vertex ev.1.2).dist :=
        set_edge_value_falsy_dist hft
      rw [hd]
      exact hv0
    · rw [dstep_dist_truthy h ev ht]
      unfold symmSet
      rw [if_neg hcond]
      exact hv0

/-- The edge-line loop of `read_from_dotfile` over a parsed edge list. -/
def dfold (l : List ((PyStr × PyStr) × PyVal)) (h : PyGraph PyStr) : PyGraph PyStr :=
  l.foldl dstep h

theorem dfold_verts_mem :
    ∀ (l : List ((PyStr × PyStr) × PyVal)) (h : PyGraph PyStr) (x : PyStr),
      x ∈ (dfold l h).verts ↔ x ∈ h.verts ∨ ∃ ev ∈ l, x = ev.1.1 ∨ x = ev.1.2 := by
  intro l
  induction l with
  | nil =>
    intro h x
    constructor
    · exact fun hx => Or.inl hx
    · rintro (hx | ⟨ev, hev, _⟩)
      · exact hx
      · exact absurd hev (List.not_mem_nil ev)
  | cons ev t ih =>
    intro h x
    show x ∈ (dfold t (dstep h ev)).verts ↔ _
    rw [ih, dstep_verts_mem]
    simp only [List.mem_cons]
    constructor
    · rintro ((hx | h1 | h2) | ⟨e, he, hor⟩)
      · exact Or.inl hx
      · exact Or.inr ⟨ev, Or.inl rfl, Or.inl h1⟩
      · exact Or.inr ⟨ev, Or.inl rfl, Or.inr h2⟩
      · exact Or.inr ⟨e, Or.inr he, hor⟩
    · rintro (hx | ⟨e, he2, hor⟩)
      · exact Or.inl (Or.inl hx)
      · rcases he2 with rfl | he
        · rcases hor with h1 | h2
          · exact Or.inl (Or.inr (Or.inl h1))
          · exact Or.inl (Or.inr (Or.inr h2))
        · exact Or.inr ⟨e, he, hor⟩

theorem dfold_nodup :
    ∀ (l : List ((PyStr × PyStr) × PyVal)) (h : PyGraph PyStr),
      h.verts.Nodup → (dfold l h).verts.Nodup := by
  intro l
  induction l with
  | nil => exact fun h hnd => hnd
  | cons ev t ih =>
    intro h hnd
    exact ih (dstep h ev) (dstep_nodup h ev hnd)

theorem dfold_pres :
    ∀ (l : List ((PyStr × PyStr) × PyVal)) (h : PyGraph PyStr) (x y : PyStr),
      x ∈ h.verts → y ∈ h.verts → (∀ ev ∈ l, ¬pairOf ev x y) →
      (dfold l h).value x y = h.value x y ∧ (dfold l h).dist x y = h.dist x y := by
  intro l
  induction l with
  | nil => intro h x y _ _ _; exact ⟨rfl, rfl⟩
  | cons ev t ih =>
    intro h x y hx hy hnp
    have hstep := dstep_pres h ev x y hx hy (hnp ev (List.mem_cons_self ev t))
    have hx2 : x ∈ (dstep h ev).verts := (dstep_verts_mem h ev x).mpr (Or.inl hx)
    have hy2 : y ∈ (dstep h ev).verts := (dstep_verts_mem h ev y).mpr (Or.inl hy)
    have hrec := ih (dstep h ev) x y hx2 hy2
      (fun e he => hnp e (List.mem_cons_of_mem ev he))
    exact ⟨hrec.1.trans hstep.1, hrec.2.trans hstep.2⟩

theorem dfold_value_none :
    ∀ (l : List ((PyStr × PyStr) × PyVal)) (h : PyGraph PyStr) (x y : PyStr),
      (∀ ev ∈ l, ¬pairOf ev x y) → h.value x y = PyVal.none →
      (dfold l h).value x y = PyVal.none := by
  intro l
  induction l with
  | nil => intro h x y _ h0; exact h0
  | cons ev t ih =>
    intro h x y hnp h0
    exact ih (dstep h ev) x y (fun e he => hnp e (List.mem_cons_of_mem ev he))
      (dstep_value_none h ev x y (hnp ev (List.mem_cons_self ev t)) h0)

theorem dfold_diag :
    ∀ (l : List ((PyStr × PyStr) × PyVal)) (h : PyGraph PyStr),
      (∀ ev ∈ l, ev.1.1 ≠ ev.1.2) → (∀ x ∈ h.verts, h.dist x x = 0) →
      ∀ x ∈ (dfold l h).verts, (dfold l h).dist x x = 0 := by
  intro l
  induction l with
  | nil => intro h _ h0; exact h0
  | cons ev t ih =>
    intro h hne h0
    exact ih (dstep h ev) (fun e he => hne e (List.mem_cons_of_mem ev he))
      (dstep_diag h ev (hne ev (List.mem_cons_self ev t)) h0)

theorem dfold_sym :
    ∀ (l : List ((PyStr × PyStr) × PyVal)) (h : PyGraph PyStr),
      (∀ x y, h.value x y = h.value y x) → SymD h.dist →
      (∀ x y, (dfold l h).value x y = (dfold l h).value y x) ∧
      SymD (dfold l h).dist := by
  intro l
  induction l with
  | nil => intro h hvs hds; exact ⟨hvs, hds⟩
  | cons ev t ih =>
    intro h hvs hds
    obtain ⟨hvs2, hds2⟩ := dstep_sym h ev hvs hds
    exact ih (dstep h ev) hvs2 hds2

theorem dfold_J :
    ∀ (l : List ((PyStr × PyStr) × PyVal)) (h : PyGraph PyStr),
      (∀ x y, x ∈ h.verts → y ∈ h.verts → ¬x = y → h.value x y = PyVal.none →
        h.dist x y = MAXINT) →
      ∀ x y, x ∈ (dfold l h).verts → y ∈ (dfold l h).verts → ¬x = y →
        (dfold l h).value x y = PyVal.none → (dfold l h).dist x y = MAXINT := by
  intro l
  induction l with
  | nil => intro h hJ; exact hJ
  | cons ev t ih =>
    intro h hJ
    exact ih (dstep h ev) (dstep_J h ev hJ)

theorem dfold_value_touched (g : PyGraph PyStr) (hvs : ∀ x y, g.value x y = g.value y x) :
    ∀ (l : List ((PyStr × PyStr) × PyVal)) (h : PyGraph PyStr) (x y : PyStr),
      (∀ ev ∈ l, ev.2 = g.value ev.1.1 ev.1.2) →
      (∃ ev ∈ l, pairOf ev x y) →
      (dfold l h).value x y = PyVal.pystr (pyValStr (g.value x y)) := by
  intro l
  induction l with
  | nil =>
    intro h x y _ hex
    obtain ⟨ev, hev, _⟩ := hex
    exact absurd hev (List.not_mem_nil ev)
  | cons ev t ih =>
    intro h x y hl hex
    show (dfold t (dstep h ev)).value x y = _
    by_cases hext : ∃ e ∈ t, pairOf e x y
    · exact ih (dstep h ev) x y (fun e he => hl e (List.mem_cons_of_mem ev he)) hext
    · obtain ⟨e0, he0, hm⟩ := hex
      have he0ev : e0 = ev := by
        rcases List.mem_cons.mp he0 with h1 | h1
        · exact h1
        · exact absurd ⟨e0, h1, hm⟩ hext
      subst he0ev
      have hx2 : x ∈ (dstep h e0).verts := by
        rw [dstep_verts_mem]
        rcases hm with ⟨h1, _⟩ | ⟨h1, _⟩
        · exact Or.inr (Or.inl h1)
        · exact Or.inr (Or.inr h1)
      have hy2 : y ∈ (dstep h e0).verts := by
        rw [dstep_verts_mem]
        rcases hm with ⟨_, h2⟩ | ⟨_, h2⟩
        · exact Or.inr (Or.inr h2)
        · exact Or.inr (Or.inl h2)
      have hpres := dfold_pres t (dstep h e0) x y hx2 hy2
        (fun e he hc => hext ⟨e, he, hc⟩)
      rw [hpres.1, dstep_value]
      unfold symmSet
      rw [if_pos (show (x = e0.1.1 ∧ y = e0.1.2) ∨ (x = e0.1.2 ∧ y = e0.1.1) from hm)]
      have hev2 := hl e0 (List.mem_cons_self e0 t)
      rcases hm with ⟨h1, h2⟩ | ⟨h1, h2⟩
      · rw [hev2, ← h1, ← h2]
      · rw [hev2, ← h1, ← h2, hvs y x]

theorem dfold_dist_touched :
    ∀ (l : List ((PyStr × PyStr) × PyVal)) (h : PyGraph PyStr) (x y : PyStr),
      (∀ ev ∈ l, pyValStr ev.2 ≠ []) →
      (∃ ev ∈ l, pairOf ev x y) →
      (dfold l h).dist x y = 1 := by
  intro l
  induction l with
  | nil =>
    intro h x y _ hex
    obtain ⟨ev, hev, _⟩ := hex
    exact absurd hev (List.not_mem_nil ev)
  | cons ev t ih =>
    intro h x y hstr hex
    show (dfold t (dstep h ev)).dist x y = _
    by_cases hext : ∃ e ∈ t, pairOf e x y
    · exact ih (dstep h ev) x y (fun e he => hstr e (List.mem_cons_of_mem ev he)) hext
    · obtain ⟨e0, he0, hm⟩ := hex
      have he0ev : e0 = ev := by
        rcases List.mem_cons.mp he0 with h1 | h1
        · exact h1
        · exact absurd ⟨e0, h1, hm⟩ hext
      subst he0ev
      have hx2 : x ∈ (dstep h e0).verts := by
        rw [dstep_verts_mem]
        rcases hm with ⟨h1, _⟩ | ⟨h1, _⟩
        · exact Or.inr (Or.inl h1)
        · exact Or.inr (Or.inr h1)
      have hy2 : y ∈ (dstep h e0).verts := by
        rw [dstep_verts_mem]
        rcases hm with ⟨_, h2⟩ | ⟨_, h2⟩
        · exact Or.inr (Or.inr h2)
        · exact Or.inr (Or.inl h2)
      have hpres := dfold_pres t (dstep h e0) x y hx2 hy2
        (fun e he hc => hext ⟨e, he, hc⟩)
      rw [hpres.2, dstep_dist_truthy h e0 (hstr e0 (List.mem_cons_self e0 t))]
      unfold symmSet
      rw [if_pos (show (x = e0.1.1 ∧ y = e0.1.2) ∨ (x = e0.1.2 ∧ y = e0.1.1) from hm)]

theorem getEdgesAux_entries {V : Type} [DecidableEq V] (val : V → V → PyVal) :
    ∀ (v1s rem : List V), ∀ ev ∈ getEdgesAux val v1s rem,
      ev.1.1 ∈ v1s ∧ ev.1.2 ∈ rem ∧ ev.2 = val ev.1.1 ev.1.2 := by
  intro v1s
  induction v1s with
  | nil => intro rem ev hev; simp [getEdgesAux] at hev
  | cons v1 rest ih =>
    intro rem ev hev
    rw [getEdgesAux_cons] at hev
    rcases List.mem_append.mp hev with hmem | hmem
    · obtain ⟨v2, hv2, heq⟩ := List.mem_filterMap.mp hmem
      split at heq
      · obtain rfl := Option.some.inj heq
        exact ⟨List.mem_cons_self v1 rest, hv2, rfl⟩
      · exact absurd heq (by simp)
    · obtain ⟨h1, h2, h3⟩ := ih (rem.erase v1) ev hmem
      exact ⟨List.mem_cons_of_mem v1 h1, List.mem_of_mem_erase h2, h3⟩

theorem getGraphvizAux_eq_map (val : PyStr → PyStr → PyVal) :
    ∀ (v1s rem : List PyStr), getGraphvizAux val v1s rem
      = (getEdgesAux val v1s rem).map (fun ev => dotLine ev.1.1 ev.1.2 ev.2) := by
  intro v1s
  induction v1s with
  | nil => intro rem; rfl
  | cons v1 rest ih =>
    intro rem
    show (rem.filterMap fun v2 =>
        if (val v1 v2).truthy then some (dotLine v1 v2 (val v1 v2)) else Option.none)
        ++ getGraphvizAux val rest (@List.erase PyStr instBEqOfDecidableEq rem v1) = _
    rw [getEdgesAux_cons, List.map_append, ih]
    congr 1
    rw [List.map_filterMap]
    refine (List.filterMap_congr ?_).symm
    intro v2 _
    by_cases h : (val v1 v2).truthy = true
    · rw [if_pos h, if_pos h]
      rfl
    · rw [if_neg h, if_neg h]
      rfl

/-- The per-line step of `read_from_dotfile`. -/
def dlineStep (g : PyGraph PyStr) (line : PyStr) : PyGraph PyStr :=
  match dotParseLine line with
  | some (v1, v2, w) =>
    ((g.add_vertex v1).add_vertex v2).set_edge_value (v1, v2) (PyVal.pystr w) false
  | Option.none => g

theorem read_from_dotfile_eq (lines : List PyStr) :
    PyGraph.read_from_dotfile lines =
      (lines.foldl dlineStep (PyGraph.mkGraph [])).update_distances := rfl

theorem dlineStep_none (g : PyGraph PyStr) (line : PyStr)
    (hl : dotParseLine line = Option.none) : dlineStep g line = g := by
  unfold dlineStep
  rw [hl]

theorem foldl_dlineStep_none :
    ∀ (ls : List PyStr) (h : PyGraph PyStr),
      (∀ line ∈ ls, dotParseLine line = Option.none) → ls.foldl dlineStep h = h := by
  intro ls
  induction ls with
  | nil => intro h _; rfl
  | cons line t ih =>
    intro h hall
    rw [List.foldl_cons, dlineStep_none h line (hall line (List.mem_cons_self line t))]
    exact ih h (fun l hl => hall l (List.mem_cons_of_mem line hl))

theorem foldl_dlineStep_emit :
    ∀ (E : List ((PyStr × PyStr) × PyVal)) (h : PyGraph PyStr),
      (∀ ev ∈ E, dotParseLine (dotLine ev.1.1 ev.1.2 ev.2)
        = some (ev.1.1, ev.1.2, pyValStr ev.2)) →
      (E.map (fun ev => dotLine ev.1.1 ev.1.2 ev.2)).foldl dlineStep h = dfold E h := by
  intro E
  induction E with
  | nil => intro h _; rfl
  | cons ev t ih =>
    intro h hall
    rw [List.map_cons, List.foldl_cons]
    have hs : dlineStep h (dotLine ev.1.1 ev.1.2 ev.2) = dstep h ev := by
      unfold dlineStep
      rw [hall ev (List.mem_cons_self ev t)]
      rfl
    rw [hs]
    exact ih (dstep h ev) (fun e he => hall e (List.mem_cons_of_mem ev he))

theorem read_dot_eq_dfold (g : PyGraph PyStr)
    (hemit : ∀ ev ∈ g.get_edges, dotParseLine (dotLine ev.1.1 ev.1.2 ev.2)
      = some (ev.1.1, ev.1.2, pyValStr ev.2)) :
    PyGraph.read_from_dotfile g.get_graphviz
      = (dfold g.get_edges (PyGraph.mkGraph [])).update_distances := by
  rw [read_from_dotfile_eq]
  congr 1
  show ((['G', 'r', 'a', 'p', 'h', ' ', 'G', ' ', '\x7b'] : PyStr) ::
    (getGraphvizAux g.value g.verts g.verts ++ [['\x7d']])).foldl dlineStep
    (PyGraph.mkGraph []) = _
  rw [List.foldl_cons, dlineStep_none _ _ dotParseLine_graphHeader,
    getGraphvizAux_eq_map,
    show getEdgesAux g.value g.verts g.verts = g.get_edges from rfl,
    List.foldl_append,
    foldl_dlineStep_emit g.get_edges (PyGraph.mkGraph []) hemit]
  exact foldl_dlineStep_none _ _ (fun line hl => by
    rw [List.mem_singleton.mp hl]
    exact dotParseLine_graphFooter)

theorem read_dot_props (g : PyGraph PyStr) (hG : GInv g)
    (hnames : ∀ v ∈ g.verts, v ≠ [] ∧ '\n' ∉ v ∧ '"' ∉ v ∧ ' ' ∉ v)
    (hvstr : ∀ a ∈ g.verts, ∀ b ∈ g.verts, (g.value a b).truthy = true →
      pyValStr (g.value a b) ≠ [] ∧ '\n' ∉ pyValStr (g.value a b) ∧
      '"' ∉ pyValStr (g.value a b) ∧ ' ' ∉ pyValStr (g.value a b)) :
    (∀ x, x ∈ (PyGraph.read_from_dotfile g.get_graphviz).verts ↔
      (x ∈ g.verts ∧ ∃ y ∈ g.verts, (g.value x y).truthy = true)) ∧
    (∀ a ∈ g.verts, ∀ b ∈ g.verts,
      (PyGraph.read_from_dotfile g.get_graphviz).value a b =
        (if (g.value a b).truthy = true then PyVal.pystr (pyValStr (g.value a b))
          else PyVal.none)) ∧
    (∀ a b, a ∈ (PyGraph.read_from_dotfile g.get_graphviz).verts →
      b ∈ (PyGraph.read_from_dotfile g.get_graphviz).verts →
      (PyGraph.read_from_dotfile g.get_graphviz).dist a b = g.dist a b) := by
  have hemit : ∀ ev ∈ g.get_edges, dotParseLine (dotLine ev.1.1 ev.1.2 ev.2)
      = some (ev.1.1, ev.1.2, pyValStr ev.2) := by
    intro ev hev
    obtain ⟨hm1, hm2, he2⟩ := getEdgesAux_entries g.value g.verts g.verts ev hev
    have htr := getEdgesAux_sound g.value g.verts g.verts ev hev
    have hn1 := hnames ev.1.1 hm1
    have hn2 := hnames ev.1.2 hm2
    have hv := hvstr ev.1.1 hm1 ev.1.2 hm2 htr
    rw [← he2] at hv
    exact dotParseLine_emit ev.1.1 ev.1.2 ev.2 hn1.1 hn1.2.1 hn2.1 hn2.2.1
      hn2.2.2.1 hn2.2.2.2 hv.1 hv.2.1 hv.2.2.1 hv.2.2.2
  have hR := read_dot_eq_dfold g hemit
  have hEmem : ∀ ev ∈ g.get_edges, ev.1.1 ∈ g.verts ∧ ev.1.2 ∈ g.verts :=
    fun ev hev => ⟨(getEdgesAux_entries g.value g.verts g.verts ev hev).1,
      (getEdgesAux_entries g.value g.verts g.verts ev hev).2.1⟩
  have hEval : ∀ ev ∈ g.get_edges, ev.2 = g.value ev.1.1 ev.1.2 :=
    fun ev hev => (getEdgesAux_entries g.value g.verts g.verts ev hev).2.2
  have hEtr : ∀ ev ∈ g.get_edges, (g.value ev.1.1 ev.1.2).truthy = true :=
    fun ev hev => getEdgesAux_sound g.value g.verts g.verts ev hev
  have hEne : ∀ ev ∈ g.get_edges, ev.1.1 ≠ ev.1.2 :=
    fun ev hev => (hG.valmem ev.1.1 ev.1.2 (hEtr ev hev)).2.2
  have hEstr : ∀ ev ∈ g.get_edges, pyValStr ev.2 ≠ [] := by
    intro ev hev
    rw [hEval ev hev]
    exact (hvstr ev.1.1 (hEmem ev hev).1 ev.1.2 (hEmem ev hev).2 (hEtr ev hev)).1
  set F : PyGraph PyStr := dfold g.get_edges (PyGraph.mkGraph []) with hF
  have hFmem : ∀ x, x ∈ F.verts ↔ ∃ ev ∈ g.get_edges, x = ev.1.1 ∨ x = ev.1.2 := by
    intro x
    rw [hF, dfold_verts_mem]
    constructor
    · rintro (hx | h)
      · exact absurd hx (List.not_mem_nil x)
      · exact h
    · exact Or.inr
  have hFsub : ∀ x ∈ F.verts, x ∈ g.verts := by
    intro x hx
    obtain ⟨ev, hev, hor⟩ := (hFmem x).mp hx
    rcases hor with rfl | rfl
    · exact (hEmem ev hev).1
    · exact (hEmem ev hev).2
  have hFnodup : F.verts.Nodup := by
    rw [hF]
    exact dfold_nodup g.get_edges (PyGraph.mkGraph []) List.nodup_nil
  have hFlen : F.verts.length ≤ MAXINT :=
    le_trans (List.subperm_of_subset hFnodup hFsub).length_le hG.hlen
  have hFsym := dfold_sym g.get_edges (PyGraph.mkGraph [])
    (fun x y => rfl) (fun x y => rfl)
  have hFdiag : ∀ x ∈ F.verts, F.dist x x = 0 := by
    rw [hF]
    exact dfold_diag g.get_edges (PyGraph.mkGraph []) hEne
      (fun x hx => absurd hx (List.not_mem_nil x))
  have hFJ : ∀ x y, x ∈ F.verts → y ∈ F.verts → ¬x = y →
      F.value x y = PyVal.none → F.dist x y = MAXINT := by
    rw [hF]
    exact dfold_J g.get_edges (PyGraph.mkGraph [])
      (fun x y hx _ _ _ => absurd hx (List.not_mem_nil x))
  have hTP_truthy : ∀ x y, (∃ ev ∈ g.get_edges, pairOf ev x y) →
      (g.value x y).truthy = true := by
    rintro x y ⟨ev, hev, hm⟩
    have htr := hEtr ev hev
    rcases hm with ⟨h1, h2⟩ | ⟨h1, h2⟩
    · rw [h1, h2]
      exact htr
    · rw [h1, h2, hG.valsym ev.1.2 ev.1.1]
      exact htr
  have hTP_of : ∀ x y, x ∈ g.verts → y ∈ g.verts → (g.value x y).truthy = true →
      ∃ ev ∈ g.get_edges, pairOf ev x y := by
    intro x y hx hy htr
    obtain ⟨ev, hev, hm⟩ := getEdgesAux_coverage g.value hG.valsym g.verts g.verts
      hG.nodup (fun v hv => hv) x hx y hy htr
    refine ⟨ev, hev, ?_⟩
    rcases hm with ⟨h1, h2⟩ | ⟨h1, h2⟩
    · exact Or.inl ⟨h1.symm, h2.symm⟩
    · exact Or.inr ⟨h2.symm, h1.symm⟩
  have hFval_t : ∀ x y, (∃ ev ∈ g.get_edges, pairOf ev x y) →
      F.value x y = PyVal.pystr (pyValStr (g.value x y)) := by
    intro x y hTP
    rw [hF]
    exact dfold_value_touched g hG.valsym g.get_edges (PyGraph.mkGraph []) x y hEval hTP
  have hFdist_t : ∀ x y, (∃ ev ∈ g.get_edges, pairOf ev x y) → F.dist x y = 1 := by
    intro x y hTP
    rw [hF]
    exact dfold_dist_touched g.get_edges (PyGraph.mkGraph []) x y hEstr hTP
  have hFval_u : ∀ x y, ¬(∃ ev ∈ g.get_edges, pairOf ev x y) →
      F.value x y = PyVal.none := by
    intro x y hTP
    rw [hF]
    exact dfold_value_none g.get_edges (PyGraph.mkGraph []) x y
      (fun ev hev hp => hTP ⟨ev, hev, hp⟩) rfl
  have hFmem_iff : ∀ x, x ∈ F.verts ↔
      (x ∈ g.verts ∧ ∃ y ∈ g.verts, (g.value x y).truthy = true) := by
    intro x
    rw [hFmem]
    constructor
    · rintro ⟨ev, hev, hor⟩
      have htr := hEtr ev hev
      rcases hor with rfl | rfl
      · exact ⟨(hEmem ev hev).1, ev.1.2, (hEmem ev hev).2, htr⟩
      · refine ⟨(hEmem ev hev).2, ev.1.1, (hEmem ev hev).1, ?_⟩
        rw [hG.valsym ev.1.2 ev.1.1]
        exact htr
    · rintro ⟨hx, y, hy, htr⟩
      obtain ⟨ev, hev, hm⟩ := hTP_of x y hx hy htr
      refine ⟨ev, hev, ?_⟩
      rcases hm with ⟨h1, _⟩ | ⟨h1, _⟩
      · exact Or.inl h1
      · exact Or.inr h1
  have hFtruthy : ∀ x y, (∃ ev ∈ g.get_edges, pairOf ev x y) →
      (F.value x y).truthy = true := by
    intro x y hTP
    rw [hFval_t x y hTP]
    refine pystr_truthy ?_
    obtain ⟨ev, hev, hm⟩ := hTP
    have hxy : x ∈ g.verts ∧ y ∈ g.verts := by
      rcases hm with ⟨h1, h2⟩ | ⟨h1, h2⟩
      · rw [h1, h2]
        exact ⟨(hEmem ev hev).1, (hEmem ev hev).2⟩
      · rw [h1, h2]
        exact ⟨(hEmem ev hev).2, (hEmem ev hev).1⟩
    exact (hvstr x hxy.1 y hxy.2 (hTP_truthy x y ⟨ev, hev, hm⟩)).1
  have hadj : ∀ x y, adjP F x y ↔ adjP g x y := by
    intro x y
    constructor
    · rintro ⟨hx, hy, ht⟩
      by_cases hTP : ∃ ev ∈ g.get_edges, pairOf ev x y
      · exact ⟨hFsub x hx, hFsub y hy, hTP_truthy x y hTP⟩
      · rw [hFval_u x y hTP] at ht
        simp [PyVal.truthy] at ht
    · rintro ⟨hx, hy, ht⟩
      have hTP := hTP_of x y hx hy ht
      refine ⟨(hFmem_iff x).mpr ⟨hx, y, hy, ht⟩, ?_, ?_⟩
      · refine (hFmem_iff y).mpr ⟨hy, x, hx, ?_⟩
        rw [hG.valsym y x]
        exact ht
      · exact hFtruthy x y hTP
  have hub : ∀ a ∈ F.verts, ∀ b ∈ F.verts, F.dist a b ≤ baseF F a b := by
    intro a ha b hb
    by_cases hab : a = b
    · subst hab
      rw [hFdiag a ha]
      exact Nat.zero_le _
    · by_cases hTP : ∃ ev ∈ g.get_edges, pairOf ev a b
      · rw [hFdist_t a b hTP]
        unfold baseF
        rw [if_neg hab, if_pos (show adjP F a b from ⟨ha, hb, hFtruthy a b hTP⟩)]
      · rw [hFJ a b ha hb hab (hFval_u a b hTP)]
        unfold baseF
        rw [if_neg hab]
        have hnadj : ¬adjP F a b := by
          rintro ⟨_, _, ht⟩
          rw [hFval_u a b hTP] at ht
          simp [PyVal.truthy] at ht
        rw [if_neg hnadj]
  have hlb : LBP F F.verts F.dist := by
    intro a ha b hb
    by_cases hab : a = b
    · subst hab
      rw [hFdiag a ha]
      constructor
      · intro _
        rw [hopDist_self]
      · intro hnr
        exact absurd ⟨0, WalkN.nil a⟩ hnr
    · by_cases hTP : ∃ ev ∈ g.get_edges, pairOf ev a b
      · have hadjF : adjP F a b := ⟨ha, hb, hFtruthy a b hTP⟩
        rw [hFdist_t a b hTP]
        constructor
        · intro _
          exact hopDist_le_of_walkN (WalkN.snoc (WalkN.nil a) hadjF)
        · intro hnr
          exact absurd ⟨1, WalkN.snoc (WalkN.nil a) hadjF⟩ hnr
      · rw [hFJ a b ha hb hab (hFval_u a b hTP)]
        exact ⟨fun _ => hopDist_le_MAXINT hFlen a b, fun _ => le_refl _⟩
  have hcorrect := update_distances_correct F hFnodup hFlen hFsym.2 hlb hub
  refine ⟨?_, ?_, ?_⟩
  · intro x
    rw [hR, update_distances_verts]
    exact hFmem_iff x
  · intro a ha b hb
    rw [hR, update_distances_value]
    by_cases htr : (g.value a b).truthy = true
    · rw [if_pos htr]
      exact hFval_t a b (hTP_of a b ha hb htr)
    · rw [if_neg htr]
      refine hFval_u a b ?_
      intro hTP
      exact htr (hTP_truthy a b hTP)
  · intro a b ha hb
    rw [hR, update_distances_verts] at ha hb
    rw [hR, hcorrect a ha b hb, hopDist_eq_of_adj_iff hadj a b,
      ← hG.deq a (hFsub a ha) b (hFsub b hb)]

/-- Mutations building the round-trip witness graph: the single link
a - b with string value "5". -/
def c7wops : List (GOp PyStr) :=
  [GOp.addV ['a'], GOp.addV ['b'], GOp.setE ['a'] ['b'] (PyVal.pystr ['5'])]

/-- The round-trip witness graph. -/
def c7wnet : PyGraph PyStr := runOps (PyGraph.mkGraph []) c7wops

/-- Counterexample graph for the matrix format: the single link's value
carries a leading space, which the cell parser strips away. -/
def c7mnet : PyGraph PyStr :=
  runOps (PyGraph.mkGraph [])
    [GOp.addV ['a'], GOp.addV ['b'], GOp.setE ['a'] ['b'] (PyVal.pystr [' ', 'x'])]

/-- Counterexample graph for the dot format: one link plus the isolated
vertex c, for which no edge line is emitted. -/
def c7dnet : PyGraph PyStr :=
  runOps (PyGraph.mkGraph [])
    [GOp.addV ['a'], GOp.addV ['b'], GOp.addV ['c'],
     GOp.setE ['a'] ['b'] (PyVal.pystr ['5'])]

/-- C7 (amended): for every consistent Graph (`GInv`: the states reachable by
truthy recomputing writes) whose vertex names are strip-stable and free of
the column separator (matrix format) resp. non-empty and free of newline,
quote and space (dot format), and whose edge values are `None` or a
non-empty strip-stable separator-free string (matrix) resp. stringify to a
non-empty text without newline, quote or space (dot): the adjacency-matrix
round trip reproduces the vertex list, every edge value and every distance
exactly, while the dot round trip keeps exactly the non-isolated vertices,
maps each truthy value `v` to the string `str(v)` (and every other cell to
`None`), and reproduces all distances between the surviving vertices. -/
theorem text_roundtrip_characterization (g : PyGraph PyStr) (hG : GInv g)
    (hnamesM : ∀ v ∈ g.verts, pyStrip v = v ∧ '|' ∉ v)
    (hdisc : ∀ a ∈ g.verts, ∀ b ∈ g.verts, strDisc g a b)
    (hnamesD : ∀ v ∈ g.verts, v ≠ [] ∧ '\n' ∉ v ∧ '"' ∉ v ∧ ' ' ∉ v)
    (hvstr : ∀ a ∈ g.verts, ∀ b ∈ g.verts, (g.value a b).truthy = true →
      pyValStr (g.value a b) ≠ [] ∧ '\n' ∉ pyValStr (g.value a b) ∧
      '"' ∉ pyValStr (g.value a b) ∧ ' ' ∉ pyValStr (g.value a b)) :
    ((PyGraph.read_from_file g.get_adjacency_matrix).verts = g.verts ∧
     (∀ a ∈ g.verts, ∀ b ∈ g.verts,
       (PyGraph.read_from_file g.get_adjacency_matrix).value a b = g.value a b) ∧
     (∀ a ∈ g.verts, ∀ b ∈ g.verts,
       (PyGraph.read_from_file g.get_adjacency_matrix).dist a b = g.dist a b)) ∧
    ((∀ x, x ∈ (PyGraph.read_from_dotfile g.get_graphviz).verts ↔
       (x ∈ g.verts ∧ ∃ y ∈ g.verts, (g.value x y).truthy = true)) ∧
     (∀ a ∈ g.verts, ∀ b ∈ g.verts,
       (PyGraph.read_from_dotfile g.get_graphviz).value a b =
         (if (g.value a b).truthy = true then PyVal.pystr (pyValStr (g.value a b))
           else PyVal.none)) ∧
     (∀ a b, a ∈ (PyGraph.read_from_dotfile g.get_graphviz).verts →
       b ∈ (PyGraph.read_from_dotfile g.get_graphviz).verts →
       (PyGraph.read_from_dotfile g.get_graphviz).dist a b = g.dist a b)) :=
  ⟨read_matrix_props g hG hnamesM hdisc, read_dot_props g hG hnamesD hvstr⟩

/-- C7 counterexample: the round trip is not exact for every Graph. The
matrix parser strips each cell, so the edge value " x" comes back as "x";
the dot writer emits only edge lines, so the isolated vertex c of an
otherwise well-behaved graph is absent after parsing. -/
theorem roundtrip_alters_graph :
    ((PyGraph.read_from_file c7mnet.get_adjacency_matrix).value ['a'] ['b']
      ≠ c7mnet.value ['a'] ['b']) ∧
    ((['c'] : PyStr) ∈ c7dnet.verts ∧
      (['c'] : PyStr) ∉ (PyGraph.read_from_dotfile c7dnet.get_graphviz).verts) := by
  decide

theorem text_roundtrip_characterization_witness :
    (PyGraph.read_from_file c7wnet.get_adjacency_matrix).value ['a'] ['b']
      = c7wnet.value ['a'] ['b'] ∧
    (PyGraph.read_from_dotfile c7wnet.get_graphviz).dist ['a'] ['b']
      = c7wnet.dist ['a'] ['b'] := by
  have h := text_roundtrip_characterization c7wnet
    (runOps_GInv c7wops (PyGraph.mkGraph []) GInv_empty (by decide) (by decide))
    (by decide)
    (by
      intro a ha b hb
      have hv : c7wnet.verts = [['a'], ['b']] := by decide
      rw [hv] at ha hb
      simp only [List.mem_cons, List.not_mem_nil, or_false] at ha hb
      unfold strDisc
      rcases ha with rfl | rfl
      · rcases hb with rfl | rfl
        · exact Or.inl (by decide)
        · exact Or.inr ⟨['5'], by decide, by decide, by decide, by decide⟩
      · rcases hb with rfl | rfl
        · exact Or.inr ⟨['5'], by decide, by decide, by decide, by decide⟩
        · exact Or.inl (by decide))
    (by decide)
    (by decide)
  refine ⟨h.1.2.1 ['a'] (by decide) ['b'] (by decide), ?_⟩
  have hma : (['a'] : PyStr) ∈ (PyGraph.read_from_dotfile c7wnet.get_graphviz).verts :=
    (h.2.1 ['a']).mpr ⟨by decide, ['b'], by decide, by decide⟩
  have hmb : (['b'] : PyStr) ∈ (PyGraph.read_from_dotfile c7wnet.get_graphviz).verts :=
    (h.2.1 ['b']).mpr ⟨by decide, ['a'], by decide, by decide⟩
  exact h.2.2.2 ['a'] ['b'] hma hmb
